import Mathlib

/-!
Verification of the dynamic edge-orientation workbench against its
specification.  The definitions below are shallow embeddings of the C++
sources (`converter.cpp`, `solver.cpp`, `interval-tree.cpp`, `avl-tree.cpp`,
`segment-tree.cpp`, `strategies.cpp`): machine integers are modelled as `Nat`
(with an explicit `% 256` for the `uint8_t` instantiation of the segment
tree), heap structures as inductive trees, and the mutating loops as explicit
state-passing functions.
-/

namespace NoFlip

/-! ## Operations and intervals (`generators.h`, `converter.h`) -/

/-- `enum OperationType { INSERT, DELETE }`. -/
inductive OperationType where
  | INSERT
  | DELETE
deriving DecidableEq, Repr

/-- `struct Command { OperationType operation; pair<int,int> nodes; }`. -/
structure Command where
  operation : OperationType
  nodes : Nat × Nat
deriving DecidableEq, Repr

/-- `struct OrientationProblemInstance { int V; int alpha; vector<Command> sequence; }`. -/
structure OrientationProblemInstance where
  V : Nat
  alpha : Nat
  sequence : List Command
deriving Repr

/-- `enum IntervalStatus { NOT_SET, FIRST_NODE_SELECTED, SECOND_NODE_SELECTED }`. -/
inductive IntervalStatus where
  | NOT_SET
  | FIRST_NODE_SELECTED
  | SECOND_NODE_SELECTED
deriving DecidableEq, Repr

/-- `struct Interval` from `converter.h`: a single edge occurrence.  The C++
fields `startTime`/`endTime` are `unsigned int` and `score` is `unsigned int`;
all values arising in the program are small, so they are modelled as `Nat`. -/
structure Interval where
  startTime : Nat
  endTime : Nat
  nodes : Nat × Nat
  status : IntervalStatus
  score : Nat
deriving DecidableEq, Repr

/-- `struct IntervalProblemInstance` from `converter.h`. -/
structure IntervalProblemInstance where
  V : Nat
  alpha : Nat
  timeframe : Nat
  intervals : List Interval
deriving Repr

/-- `Interval::operator<`: lexicographic comparison of `(startTime, endTime)`. -/
def Interval.ltB (a b : Interval) : Bool :=
  a.startTime < b.startTime ||
    (a.startTime == b.startTime && a.endTime < b.endTime)

/-! ## The converter (`convertInstance`, `converter.cpp`)

`convertInstance` walks the command sequence, keeping a
`map<pair<int,int>, vector<int>> history` from each edge to the (ordered)
list of timestamps at which the edge appeared in a command; it then pairs up
consecutive timestamps into intervals.  `std::map` iterates its entries in
strictly increasing key order, so the history is modelled as an association
list kept sorted by the lexicographic order on node pairs. -/

/-- `pair<int,int>::operator<` (lexicographic), on `Nat` pairs. -/
def pairLtB (a b : Nat × Nat) : Bool :=
  a.1 < b.1 || (a.1 == b.1 && a.2 < b.2)

/-- One step of history building: append timestamp `t` to the entry of key
`k`, inserting a fresh entry (at the sorted position, as `std::map` does)
when the key is new. -/
def histAdd : List ((Nat × Nat) × List Nat) → Nat × Nat → Nat →
    List ((Nat × Nat) × List Nat)
  | [], k, t => [(k, [t])]
  | (k', ts) :: rest, k, t =>
      if k = k' then (k', ts ++ [t]) :: rest
      else if pairLtB k k' then (k, [t]) :: (k', ts) :: rest
      else (k', ts) :: histAdd rest k t

/-- The first loop of `convertInstance`: fold the command sequence into the
history map, tracking `currentTime`. -/
def buildHistoryGo : List Command → Nat → List ((Nat × Nat) × List Nat) →
    List ((Nat × Nat) × List Nat)
  | [], _, h => h
  | c :: rest, t, h => buildHistoryGo rest (t + 1) (histAdd h c.nodes t)

def buildHistory (seq : List Command) : List ((Nat × Nat) × List Nat) :=
  buildHistoryGo seq 0 []

/-- The second loop of `convertInstance`, for one history entry: timestamps
at even positions open an interval, the following timestamp closes it, and a
trailing unmatched timestamp is closed with the artificial cap
`endTime = |sequence|`. -/
def pairUpTimestamps (nodes : Nat × Nat) (cap : Nat) : List Nat → List Interval
  | t0 :: t1 :: rest =>
      ⟨t0, t1, nodes, .NOT_SET, 0⟩ :: pairUpTimestamps nodes cap rest
  | [t0] => [⟨t0, cap, nodes, .NOT_SET, 0⟩]
  | [] => []

/-- `convertInstance` (`converter.cpp`): translate an operation instance to
the interval setting. -/
def convertInstance (opi : OrientationProblemInstance) : IntervalProblemInstance :=
  let timeframe := opi.sequence.length + 1
  let hist := buildHistory opi.sequence
  { V := opi.V
    alpha := opi.alpha
    timeframe := timeframe
    intervals := hist.foldr
      (fun e acc => pairUpTimestamps e.1 opi.sequence.length e.2 ++ acc) [] }

/-! Specification-side helpers for the converter claims. -/

/-- The timestamps (sequence positions, starting at `t`) at which commands
with node pair `k` occur. -/
def timestampsFrom : List Command → Nat → Nat × Nat → List Nat
  | [], _, _ => []
  | c :: rest, t, k =>
      (if c.nodes = k then [t] else []) ++ timestampsFrom rest (t + 1) k

/-- Timestamps of edge `k` in the whole sequence. -/
def timestampsOf (seq : List Command) (k : Nat × Nat) : List Nat :=
  timestampsFrom seq 0 k

/-- Per-edge operation kinds, in sequence order. -/
def opsOf (seq : List Command) (k : Nat × Nat) : List OperationType :=
  (seq.filter (fun c => c.nodes = k)).map (fun c => c.operation)

def flipOp : OperationType → OperationType
  | .INSERT => .DELETE
  | .DELETE => .INSERT

/-- Does the list of operations alternate, starting with `e`? -/
def alternatesFrom : OperationType → List OperationType → Bool
  | _, [] => true
  | e, o :: rest => o == e && alternatesFrom (flipOp e) rest

/-- The source-instance invariant quoted by the spec: per edge, Insert and
Delete strictly alternate, starting with Insert. -/
def AlternationOK (seq : List Command) : Prop :=
  ∀ c ∈ seq, alternatesFrom .INSERT (opsOf seq c.nodes) = true

instance (seq : List Command) : Decidable (AlternationOK seq) := by
  unfold AlternationOK; infer_instance

/-! ### Facts about the lexicographic key order -/

theorem pairLtB_irrefl (a : Nat × Nat) : pairLtB a a = false := by
  obtain ⟨a1, a2⟩ := a; simp [pairLtB]

theorem pairLtB_trans {a b c : Nat × Nat} (h1 : pairLtB a b = true)
    (h2 : pairLtB b c = true) : pairLtB a c = true := by
  obtain ⟨a1, a2⟩ := a; obtain ⟨b1, b2⟩ := b; obtain ⟨c1, c2⟩ := c
  simp [pairLtB] at *; omega

theorem pairLtB_total {a b : Nat × Nat} (h1 : pairLtB a b = false)
    (h2 : a ≠ b) : pairLtB b a = true := by
  obtain ⟨a1, a2⟩ := a; obtain ⟨b1, b2⟩ := b
  simp [pairLtB, Prod.mk.injEq] at *; omega

theorem pairLtB_ne {a b : Nat × Nat} (h : pairLtB a b = true) : a ≠ b := by
  rintro rfl; rw [pairLtB_irrefl] at h; exact Bool.false_ne_true h

/-! ### Lookup semantics of the history map -/

/-- Association-list lookup in the history (the semantics of
`history.find(nodes)`). -/
def lookupHist : List ((Nat × Nat) × List Nat) → Nat × Nat → Option (List Nat)
  | [], _ => none
  | (k', ts) :: rest, k => if k = k' then some ts else lookupHist rest k

/-- The history's keys are kept strictly sorted (as in `std::map`). -/
def HistSorted (h : List ((Nat × Nat) × List Nat)) : Prop :=
  List.Pairwise (fun a b => pairLtB a b = true) (h.map Prod.fst)

theorem lookupHist_eq_none_of_forall {h : List ((Nat × Nat) × List Nat)}
    {k : Nat × Nat} (hk : ∀ x ∈ h.map Prod.fst, x ≠ k) : lookupHist h k = none := by
  induction h with
  | nil => rfl
  | cons e rest ih =>
      obtain ⟨k', ts⟩ := e
      have hne : k ≠ k' := fun heq => (hk k' (by simp)) (heq.symm)
      simp only [lookupHist, if_neg hne]
      exact ih (fun x hx => hk x (by simp [hx]))

theorem histSorted_cons {k' : Nat × Nat} {ts : List Nat}
    {rest : List ((Nat × Nat) × List Nat)} (hs : HistSorted ((k', ts) :: rest)) :
    (∀ x ∈ rest.map Prod.fst, pairLtB k' x = true) ∧ HistSorted rest := by
  unfold HistSorted at hs
  simp only [List.map_cons, List.pairwise_cons] at hs
  exact ⟨fun x hx => hs.1 x hx, hs.2⟩

theorem keys_histAdd {h : List ((Nat × Nat) × List Nat)} {k : Nat × Nat}
    {t : Nat} : ∀ x ∈ (histAdd h k t).map Prod.fst,
      x = k ∨ x ∈ h.map Prod.fst := by
  induction h with
  | nil => intro x hx; simp [histAdd] at hx; simp [hx]
  | cons e rest ih =>
      obtain ⟨k', ts⟩ := e
      intro x hx
      by_cases heq : k = k'
      · simp [histAdd, heq] at hx
        rcases hx with hx | hx
        · exact Or.inr (by simp [hx])
        · exact Or.inr (by simp [hx])
      · by_cases hlt : pairLtB k k' = true
        · simp [histAdd, heq, hlt] at hx
          rcases hx with hx | hx | hx
          · exact Or.inl hx
          · exact Or.inr (by simp [hx])
          · exact Or.inr (by simp [hx])
        · simp [histAdd, heq, hlt] at hx
          rcases hx with hx | hx
          · exact Or.inr (by simp [hx])
          · rcases ih x (by simpa using hx) with h1 | h1
            · exact Or.inl h1
            · exact Or.inr (by simp [h1])

theorem histAdd_sorted {h : List ((Nat × Nat) × List Nat)} {k : Nat × Nat}
    {t : Nat} (hs : HistSorted h) : HistSorted (histAdd h k t) := by
  induction h with
  | nil => simp [histAdd, HistSorted]
  | cons e rest ih =>
      obtain ⟨k', ts⟩ := e
      obtain ⟨hhead, htail⟩ := histSorted_cons hs
      by_cases heq : k = k'
      · simpa [histAdd, heq, HistSorted] using hs
      · by_cases hlt : pairLtB k k' = true
        · simp only [histAdd, if_neg heq, if_pos hlt]
          unfold HistSorted
          simp only [List.map_cons, List.pairwise_cons]
          refine ⟨?_, ?_, htail⟩
          · intro x hx
            rcases List.mem_cons.mp hx with rfl | hx
            · exact hlt
            · exact pairLtB_trans hlt (hhead x hx)
          · exact fun x hx => hhead x hx
        · have hlt' : pairLtB k k' = false := by simpa using hlt
          simp only [histAdd, if_neg heq, if_neg hlt]
          unfold HistSorted
          simp only [List.map_cons, List.pairwise_cons]
          refine ⟨?_, ih htail⟩
          intro x hx
          rcases keys_histAdd x hx with rfl | hx'
          · exact pairLtB_total hlt' heq
          · exact hhead x hx'

theorem lookupHist_histAdd_same {h : List ((Nat × Nat) × List Nat)}
    {k : Nat × Nat} {t : Nat} (hs : HistSorted h) :
    lookupHist (histAdd h k t) k = some ((lookupHist h k).getD [] ++ [t]) := by
  induction h with
  | nil => simp [histAdd, lookupHist]
  | cons e rest ih =>
      obtain ⟨k', ts⟩ := e
      obtain ⟨hhead, htail⟩ := histSorted_cons hs
      by_cases heq : k = k'
      · simp [histAdd, heq, lookupHist]
      · by_cases hlt : pairLtB k k' = true
        · have hnone : lookupHist rest k = none := by
            apply lookupHist_eq_none_of_forall
            intro x hx
            exact fun hc => pairLtB_ne (pairLtB_trans hlt (hhead x hx)) hc.symm
          simp [histAdd, heq, hlt, lookupHist, hnone]
        · simp [histAdd, heq, hlt, lookupHist, ih htail]

theorem lookupHist_histAdd_other {h : List ((Nat × Nat) × List Nat)}
    {k k' : Nat × Nat} {t : Nat} (hne : k' ≠ k) :
    lookupHist (histAdd h k t) k' = lookupHist h k' := by
  induction h with
  | nil => simp [histAdd, lookupHist, hne]
  | cons e rest ih =>
      obtain ⟨k0, ts⟩ := e
      by_cases heq : k = k0
      · subst heq; simp [histAdd, lookupHist, hne]
      · by_cases hlt : pairLtB k k0 = true
        · simp [histAdd, heq, hlt, lookupHist, hne]
        · by_cases heq' : k' = k0
          · simp [histAdd, heq, hlt, lookupHist, heq']
          · simp [histAdd, heq, hlt, lookupHist, heq', ih]

/-! ### From history lookup to per-edge timestamp lists -/

theorem buildHistoryGo_sorted (s : List Command) (t : Nat)
    (h : List ((Nat × Nat) × List Nat)) (hs : HistSorted h) :
    HistSorted (buildHistoryGo s t h) := by
  induction s generalizing t h with
  | nil => exact hs
  | cons c rest ih => exact ih (t + 1) _ (histAdd_sorted hs)

theorem lookup_buildHistoryGo (s : List Command) (t : Nat)
    (h : List ((Nat × Nat) × List Nat)) (k : Nat × Nat) (hs : HistSorted h) :
    lookupHist (buildHistoryGo s t h) k =
      match lookupHist h k with
      | some ts0 => some (ts0 ++ timestampsFrom s t k)
      | none =>
          if timestampsFrom s t k = [] then none else some (timestampsFrom s t k)
  := by
  induction s generalizing t h with
  | nil =>
      cases hlk : lookupHist h k <;> simp [buildHistoryGo, timestampsFrom, hlk]
  | cons c rest ih =>
      rw [buildHistoryGo, ih (t + 1) _ (histAdd_sorted hs)]
      by_cases hck : c.nodes = k
      · rw [hck, lookupHist_histAdd_same hs]
        cases hlk : lookupHist h k <;>
          simp [timestampsFrom, hck, hlk]
      · have hne : k ≠ c.nodes := fun hc => hck hc.symm
        rw [lookupHist_histAdd_other hne]
        cases hlk : lookupHist h k <;>
          simp [timestampsFrom, hck, hlk]

theorem timestampsFrom_lb {s : List Command} {t : Nat} {k : Nat × Nat} :
    ∀ x ∈ timestampsFrom s t k, t ≤ x := by
  induction s generalizing t with
  | nil => intro x hx; simp [timestampsFrom] at hx
  | cons c rest ih =>
      intro x hx
      simp only [timestampsFrom, List.mem_append] at hx
      rcases hx with hx | hx
      · by_cases hck : c.nodes = k
        · simp [hck] at hx; omega
        · simp [hck] at hx
      · have := ih x hx; omega

theorem timestampsFrom_pairwise {s : List Command} {t : Nat} {k : Nat × Nat} :
    List.Pairwise (· < ·) (timestampsFrom s t k) := by
  induction s generalizing t with
  | nil => simp [timestampsFrom]
  | cons c rest ih =>
      by_cases hck : c.nodes = k
      · rw [timestampsFrom, if_pos hck, List.singleton_append]
        rw [List.pairwise_cons]
        exact ⟨fun x hx => Nat.lt_of_lt_of_le (Nat.lt_succ_self t)
          (timestampsFrom_lb x hx), ih⟩
      · simpa [timestampsFrom, hck] using ih

theorem timestampsFrom_nodup {s : List Command} {t : Nat} {k : Nat × Nat} :
    (timestampsFrom s t k).Nodup :=
  timestampsFrom_pairwise.imp Nat.ne_of_lt

theorem timestampsFrom_disjoint {s : List Command} {t : Nat} {k k' : Nat × Nat}
    (hkk : k ≠ k') {x : Nat} (h1 : x ∈ timestampsFrom s t k)
    (h2 : x ∈ timestampsFrom s t k') : False := by
  induction s generalizing t with
  | nil => simp [timestampsFrom] at h1
  | cons c rest ih =>
      simp only [timestampsFrom, List.mem_append] at h1 h2
      rcases h1 with h1 | h1 <;> rcases h2 with h2 | h2
      · by_cases hck : c.nodes = k
        · by_cases hck' : c.nodes = k'
          · exact hkk (hck ▸ hck')
          · simp [hck'] at h2
        · simp [hck] at h1
      · by_cases hck : c.nodes = k
        · simp [hck] at h1
          have := timestampsFrom_lb x h2; omega
        · simp [hck] at h1
      · by_cases hck' : c.nodes = k'
        · simp [hck'] at h2
          have := timestampsFrom_lb x h1; omega
        · simp [hck'] at h2
      · exact ih h1 h2

theorem timestampsFrom_ne_nil {s : List Command} {t : Nat} {k : Nat × Nat} :
    timestampsFrom s t k ≠ [] ↔ ∃ c ∈ s, c.nodes = k := by
  induction s generalizing t with
  | nil => simp [timestampsFrom]
  | cons c rest ih =>
      by_cases hck : c.nodes = k
      · simp [timestampsFrom, hck]
      · simpa [timestampsFrom, hck] using ih

theorem lookupHist_of_mem {h : List ((Nat × Nat) × List Nat)} {k : Nat × Nat}
    {ts : List Nat} (hs : HistSorted h) (hmem : (k, ts) ∈ h) :
    lookupHist h k = some ts := by
  induction h with
  | nil => simp at hmem
  | cons e rest ih =>
      obtain ⟨k0, ts0⟩ := e
      obtain ⟨hhead, htail⟩ := histSorted_cons hs
      rcases List.mem_cons.mp hmem with heq | hmem'
      · obtain ⟨rfl, rfl⟩ := Prod.mk.injEq .. ▸ heq
        simp [lookupHist]
      · have hne : k ≠ k0 := by
          rintro rfl
          have : k ∈ rest.map Prod.fst :=
            List.mem_map.mpr ⟨(k, ts), hmem', rfl⟩
          exact pairLtB_ne (hhead k this) rfl
        simp only [lookupHist, if_neg hne]
        exact ih htail hmem'

theorem mem_of_lookupHist {h : List ((Nat × Nat) × List Nat)} {k : Nat × Nat}
    {ts : List Nat} (hl : lookupHist h k = some ts) : (k, ts) ∈ h := by
  induction h with
  | nil => simp [lookupHist] at hl
  | cons e rest ih =>
      obtain ⟨k0, ts0⟩ := e
      by_cases heq : k = k0
      · subst heq
        simp [lookupHist] at hl
        simp [hl]
      · simp only [lookupHist, if_neg heq] at hl
        exact List.mem_cons_of_mem _ (ih hl)

/-- Membership in `buildHistory`'s entries, characterised through
`timestampsOf`. -/
theorem mem_buildHistory_iff {seq : List Command} {k : Nat × Nat}
    {ts : List Nat} :
    (k, ts) ∈ buildHistory seq ↔
      (∃ c ∈ seq, c.nodes = k) ∧ ts = timestampsOf seq k := by
  have hsorted : HistSorted (buildHistory seq) :=
    buildHistoryGo_sorted seq 0 [] (by simp [HistSorted])
  have hlk : lookupHist (buildHistory seq) k =
      (if timestampsFrom seq 0 k = [] then none
       else some (timestampsFrom seq 0 k)) := by
    have h := lookup_buildHistoryGo seq 0 [] k (by simp [HistSorted])
    simpa [lookupHist, buildHistory] using h
  constructor
  · intro hmem
    have hl : lookupHist (buildHistory seq) k = some ts :=
      lookupHist_of_mem hsorted hmem
    rw [hlk] at hl
    by_cases hnil : timestampsFrom seq 0 k = []
    · simp [hnil] at hl
    · simp [hnil] at hl
      exact ⟨timestampsFrom_ne_nil.mp hnil, hl.symm⟩
  · rintro ⟨hex, rfl⟩
    have hnil : timestampsFrom seq 0 k ≠ [] := timestampsFrom_ne_nil.mpr hex
    have hl : lookupHist (buildHistory seq) k = some (timestampsOf seq k) := by
      rw [hlk]; simp [hnil, timestampsOf]
    exact mem_of_lookupHist hl

/-! ### Characterising the produced intervals -/

/-- Membership characterisation of the pairing loop: it produces exactly one
interval per consecutive timestamp pair, plus - when the timestamp list has
odd length - a final interval capped at `cap`. -/
theorem mem_pairUpTimestamps {nodes : Nat × Nat} {cap : Nat} {iv : Interval} :
    ∀ {ts : List Nat},
      (iv ∈ pairUpTimestamps nodes cap ts ↔
        ((∃ i, 2 * i + 1 < ts.length ∧
            iv = ⟨ts.getD (2 * i) 0, ts.getD (2 * i + 1) 0, nodes, .NOT_SET, 0⟩) ∨
         (ts.length % 2 = 1 ∧
            iv = ⟨ts.getLast?.getD 0, cap, nodes, .NOT_SET, 0⟩)))
  | [] => by simp [pairUpTimestamps]
  | [t0] => by
      simp only [pairUpTimestamps, List.mem_singleton]
      constructor
      · intro h
        refine Or.inr ⟨rfl, ?_⟩
        simpa using h
      · rintro (⟨i, hi, _⟩ | ⟨_, heq⟩)
        · simp at hi
        · simpa using heq
  | t0 :: t1 :: rest => by
      have ih := @mem_pairUpTimestamps nodes cap iv rest
      have e1 : ∀ i : Nat,
          (t0 :: t1 :: rest).getD (2 * (i + 1)) 0 = rest.getD (2 * i) 0 := by
        intro i
        have h2 : 2 * (i + 1) = 2 * i + 1 + 1 := by omega
        rw [h2]; rfl
      have e2 : ∀ i : Nat,
          (t0 :: t1 :: rest).getD (2 * (i + 1) + 1) 0 = rest.getD (2 * i + 1) 0 := by
        intro i
        have h2 : 2 * (i + 1) + 1 = 2 * i + 1 + 1 + 1 := by omega
        rw [h2]; rfl
      simp only [pairUpTimestamps, List.mem_cons]
      constructor
      · rintro (heq | hmem)
        · exact Or.inl ⟨0, by simp, by simpa using heq⟩
        · rcases ih.mp hmem with ⟨i, hi, heq⟩ | ⟨hodd, heq⟩
          · refine Or.inl ⟨i + 1, by simp; omega, ?_⟩
            rw [e1 i, e2 i]; exact heq
          · have hne : rest ≠ [] := by
              intro hnil; rw [hnil] at hodd; simp at hodd
            refine Or.inr ⟨by simp; omega, ?_⟩
            obtain ⟨c, cs, rfl⟩ := List.exists_cons_of_ne_nil hne
            rw [List.getLast?_cons_cons, List.getLast?_cons_cons]
            exact heq
      · rintro (⟨i, hi, heq⟩ | ⟨hodd, heq⟩)
        · match i with
          | 0 => exact Or.inl (by simpa using heq)
          | i + 1 =>
              refine Or.inr (ih.mpr (Or.inl ⟨i, ?_, ?_⟩))
              · simp at hi; omega
              · rw [e1 i, e2 i] at heq; exact heq
        · simp only [List.length_cons] at hodd
          refine Or.inr (ih.mpr (Or.inr ⟨by omega, ?_⟩))
          have hne : rest ≠ [] := by
            intro hnil
            rw [hnil] at hodd; simp at hodd
          obtain ⟨c, cs, rfl⟩ := List.exists_cons_of_ne_nil hne
          rw [List.getLast?_cons_cons, List.getLast?_cons_cons] at heq
          exact heq

theorem mem_foldr_append {α β : Type} (f : α → List β) (l : List α) (b : β) :
    (b ∈ l.foldr (fun e acc => f e ++ acc) []) ↔ ∃ e ∈ l, b ∈ f e := by
  induction l with
  | nil => simp
  | cons x xs ih => simp [ih]

/-- The elements of a list at even positions (the `startTime`s produced by
the pairing loop). -/
def evens : List Nat → List Nat
  | [] => []
  | [a] => [a]
  | a :: _ :: rest => a :: evens rest

theorem pairUp_map_startTime (nodes : Nat × Nat) (cap : Nat) :
    ∀ ts : List Nat,
      (pairUpTimestamps nodes cap ts).map Interval.startTime = evens ts
  | [] => rfl
  | [_] => rfl
  | t0 :: t1 :: rest => by
      simp [pairUpTimestamps, evens, pairUp_map_startTime nodes cap rest]

theorem evens_sublist : ∀ ts : List Nat, (evens ts).Sublist ts
  | [] => List.Sublist.refl _
  | [_] => List.Sublist.refl _
  | _ :: b :: rest => ((evens_sublist rest).cons b).cons₂ _

theorem map_startTime_foldr (cap : Nat) :
    ∀ hist : List ((Nat × Nat) × List Nat),
      ((hist.foldr (fun e acc => pairUpTimestamps e.1 cap e.2 ++ acc) []).map
          Interval.startTime) =
        hist.foldr (fun e acc => evens e.2 ++ acc) []
  | [] => rfl
  | e :: rest => by
      simp [List.map_append, pairUp_map_startTime, map_startTime_foldr cap rest]

theorem nodup_foldr_evens (seq : List Command) :
    ∀ hist : List ((Nat × Nat) × List Nat),
      (∀ e ∈ hist, e.2 = timestampsOf seq e.1) →
      (hist.map Prod.fst).Nodup →
      (hist.foldr (fun e acc => evens e.2 ++ acc) []).Nodup := by
  intro hist
  induction hist with
  | nil => intro _ _; simp
  | cons e rest ih =>
      intro hts hnd
      obtain ⟨k, ts⟩ := e
      simp only [List.foldr_cons]
      rw [List.nodup_append]
      have hts0 : ts = timestampsOf seq k := hts (k, ts) (by simp)
      simp only [List.map_cons, List.nodup_cons] at hnd
      refine ⟨?_, ih (fun e he => hts e (by simp [he])) hnd.2, ?_⟩
      · exact (evens_sublist ts).nodup (hts0 ▸ timestampsFrom_nodup)
      · intro x hx hx'
        obtain ⟨e', he', hxe'⟩ := (mem_foldr_append _ rest x).mp hx'
        obtain ⟨k', ts'⟩ := e'
        have hts' : ts' = timestampsOf seq k' := hts (k', ts') (by simp [he'])
        have hkk : k ≠ k' := by
          rintro rfl
          exact hnd.1 (List.mem_map.mpr ⟨(k, ts'), he', rfl⟩)
        have hx1 : x ∈ timestampsOf seq k := hts0 ▸ (evens_sublist ts).mem hx
        have hx2 : x ∈ timestampsOf seq k' := hts' ▸ (evens_sublist ts').mem hxe'
        exact timestampsFrom_disjoint hkk hx1 hx2

/-- C3: the converter, on sequences whose per-edge operations strictly
alternate Insert/Delete starting with Insert, returns `timeframe = L + 1`;
its interval set consists, per edge, of one interval per consecutive
timestamp pair plus (for odd timestamp lists) a final interval capped at
`endTime = L`; all intervals start `NOT_SET` with score `0`; and no two
intervals share their `(startTime, endTime)` pair. -/
theorem convertInstance_characterization (opi : OrientationProblemInstance)
    (hAlt : AlternationOK opi.sequence) :
    (convertInstance opi).timeframe = opi.sequence.length + 1 ∧
    (∀ iv, iv ∈ (convertInstance opi).intervals ↔
      ∃ k, (∃ c ∈ opi.sequence, c.nodes = k) ∧
        ((∃ i, 2 * i + 1 < (timestampsOf opi.sequence k).length ∧
            iv = ⟨(timestampsOf opi.sequence k).getD (2 * i) 0,
                  (timestampsOf opi.sequence k).getD (2 * i + 1) 0,
                  k, .NOT_SET, 0⟩) ∨
         ((timestampsOf opi.sequence k).length % 2 = 1 ∧
            iv = ⟨((timestampsOf opi.sequence k).getLast?).getD 0,
                  opi.sequence.length, k, .NOT_SET, 0⟩))) ∧
    (∀ iv ∈ (convertInstance opi).intervals,
        iv.status = .NOT_SET ∧ iv.score = 0) ∧
    ((convertInstance opi).intervals.map
        (fun iv => (iv.startTime, iv.endTime))).Nodup := by
  have hmemiff : ∀ iv : Interval, iv ∈ (convertInstance opi).intervals ↔
      ∃ e ∈ buildHistory opi.sequence,
        iv ∈ pairUpTimestamps e.1 opi.sequence.length e.2 := by
    intro iv
    exact mem_foldr_append _ _ _
  refine ⟨rfl, ?_, ?_, ?_⟩
  · intro iv
    rw [hmemiff iv]
    constructor
    · rintro ⟨⟨k, ts⟩, he, hiv⟩
      obtain ⟨hex, rfl⟩ := mem_buildHistory_iff.mp he
      exact ⟨k, hex, mem_pairUpTimestamps.mp hiv⟩
    · rintro ⟨k, hex, hiv⟩
      exact ⟨(k, timestampsOf opi.sequence k),
        mem_buildHistory_iff.mpr ⟨hex, rfl⟩, mem_pairUpTimestamps.mpr hiv⟩
  · intro iv hiv
    obtain ⟨e, _, hpu⟩ := (hmemiff iv).mp hiv
    rcases mem_pairUpTimestamps.mp hpu with ⟨_, _, rfl⟩ | ⟨_, rfl⟩ <;>
      exact ⟨rfl, rfl⟩
  · have hsorted : HistSorted (buildHistory opi.sequence) :=
      buildHistoryGo_sorted _ 0 [] (by simp [HistSorted])
    have hknd : ((buildHistory opi.sequence).map Prod.fst).Nodup :=
      hsorted.imp (fun h => pairLtB_ne h)
    have hstart : ((convertInstance opi).intervals.map Interval.startTime).Nodup := by
      have := map_startTime_foldr opi.sequence.length (buildHistory opi.sequence)
      show ((buildHistory opi.sequence).foldr
        (fun e acc => pairUpTimestamps e.1 opi.sequence.length e.2 ++ acc) []
          |>.map Interval.startTime).Nodup
      rw [this]
      refine nodup_foldr_evens opi.sequence _ ?_ hknd
      intro e he
      obtain ⟨k, ts⟩ := e
      exact (mem_buildHistory_iff.mp he).2
    have : (convertInstance opi).intervals.map Interval.startTime =
        ((convertInstance opi).intervals.map
          (fun iv => (iv.startTime, iv.endTime))).map Prod.fst := by
      simp [List.map_map]
    rw [this] at hstart
    exact hstart.of_map

/-! ### C4: the spec's literal converter scenarios -/

/-- First literal input of the spec's end-to-end scenarios:
`V=4, alpha=1`, `[Insert(0,1), Insert(1,2), Insert(2,3), Delete(1,2)]`. -/
def opiScenario1 : OrientationProblemInstance :=
  ⟨4, 1, [⟨.INSERT, (0, 1)⟩, ⟨.INSERT, (1, 2)⟩, ⟨.INSERT, (2, 3)⟩,
          ⟨.DELETE, (1, 2)⟩]⟩

/-- Second literal input: `V=2, alpha=1`, `[Insert(0,1)]`. -/
def opiScenario2 : OrientationProblemInstance := ⟨2, 1, [⟨.INSERT, (0, 1)⟩]⟩

/-- C4, counterexample: the claimed literal outputs are wrong on the code.
The converter caps the still-open intervals at `endTime = |sequence|` (not
`|sequence| - 1`) and sets `timeframe = |sequence| + 1` (not `|sequence|`),
so neither the claimed `[0,3]` interval with `timeframe = 4` on the first
input nor the claimed `[0,0]` interval on the second input is produced. -/
theorem convertInstance_literal_claim_false :
    ¬ ((convertInstance opiScenario1).timeframe = 4 ∧
       (∃ iv ∈ (convertInstance opiScenario1).intervals,
          iv.startTime = 0 ∧ iv.endTime = 3 ∧ iv.nodes = (0, 1)) ∧
       (∃ iv ∈ (convertInstance opiScenario2).intervals,
          iv.startTime = 0 ∧ iv.endTime = 0)) := by
  decide

/-- C4, amended: the converter's actual outputs on the two literal inputs.
On the first it produces `[0,4]:(0,1)`, `[1,3]:(1,2)`, `[2,4]:(2,3)` with
`timeframe = 5`; on the second the single interval `[0,1]:(0,1)` with
`timeframe = 2`. -/
theorem convertInstance_literal_outputs :
    (convertInstance opiScenario1).timeframe = 5 ∧
    (convertInstance opiScenario1).intervals.map
        (fun iv => (iv.startTime, iv.endTime, iv.nodes)) =
      [(0, 4, (0, 1)), (1, 3, (1, 2)), (2, 4, (2, 3))] ∧
    (∀ iv ∈ (convertInstance opiScenario1).intervals,
        iv.status = .NOT_SET ∧ iv.score = 0) ∧
    (convertInstance opiScenario2).timeframe = 2 ∧
    (convertInstance opiScenario2).intervals.map
        (fun iv => (iv.startTime, iv.endTime, iv.nodes)) = [(0, 1, (0, 1))] := by
  decide

/-- Witness for the converter characterisation, at the first literal
scenario (its operation sequence alternates per edge). -/
theorem convertInstance_characterization_witness :
    AlternationOK opiScenario1.sequence ∧
      (convertInstance opiScenario1).timeframe =
        opiScenario1.sequence.length + 1 :=
  ⟨by decide, (convertInstance_characterization opiScenario1 (by decide)).1⟩

/-! ## The interval tree (`interval-tree.h` / `interval-tree.cpp`)

An augmented AVL tree over `[low, high]` pairs ordered lexicographically
(duplicates sort left), where every node additionally stores `highest`, the
maximum `high` in its subtree, and `height`.  `IntervalTreeNode` carries
`range`, `highest`, `height` and the two child pointers. -/

inductive ITree where
  | nil
  | node (left : ITree) (range : Nat × Nat) (highest : Nat) (height : Nat)
      (right : ITree)
deriving DecidableEq, Repr

namespace ITree

/-- `IntervalTree::getHighest` (`0` for a null pointer). -/
def getHighest : ITree → Nat
  | nil => 0
  | node _ _ hst _ _ => hst

/-- `IntervalTree::getHeight` (`0` for a null pointer). -/
def getHeight : ITree → Nat
  | nil => 0
  | node _ _ _ h _ => h

/-- Rebuild a node from children and range, recomputing the auxiliary
values exactly as `IntervalTree::updateAuxValues` does. -/
def mk2 (l : ITree) (rg : Nat × Nat) (r : ITree) : ITree :=
  node l rg (max rg.2 (max l.getHighest r.getHighest))
    (1 + max l.getHeight r.getHeight) r

/-- `IntervalTree::rotateRight` (identity on shapes it is never called on). -/
def rotateRight : ITree → ITree
  | node (node a lrg _ _ b) rg _ _ r => mk2 a lrg (mk2 b rg r)
  | t => t

/-- `IntervalTree::rotateLeft`. -/
def rotateLeft : ITree → ITree
  | node l rg _ _ (node b rrg _ _ c) => mk2 (mk2 l rg b) rrg c
  | t => t

/-- `IntervalTree::balanceTree`: the balance factor is the (possibly
negative) difference of the child heights, computed in `int`. -/
def balance : ITree → ITree
  | nil => nil
  | node l rg hst h r =>
      if (getHeight l : Int) - getHeight r = 2 then
        match l with
        | node ll _ _ _ lr =>
            if (getHeight ll : Int) - getHeight lr < 0 then
              rotateRight (node (rotateLeft l) rg hst h r)
            else rotateRight (node l rg hst h r)
        | nil => node l rg hst h r
      else if (getHeight l : Int) - getHeight r = -2 then
        match r with
        | node rl _ _ _ rr =>
            if (getHeight rl : Int) - getHeight rr > 0 then
              rotateLeft (node l rg hst h (rotateRight r))
            else rotateLeft (node l rg hst h r)
        | nil => node l rg hst h r
      else node l rg hst h r

/-- `IntervalTree::insertHelper`: duplicates (`range >= addend`) go left. -/
def insertI : ITree → Nat × Nat → ITree
  | nil, addend => node nil addend addend.2 1 nil
  | node l rg _ _ r, addend =>
      if pairLtB rg addend = false then balance (mk2 (insertI l addend) rg r)
      else balance (mk2 l rg (insertI r addend))

/-- `IntervalTree::getMinNode` (range of the leftmost node). -/
def getMinRange : ITree → Nat × Nat
  | nil => (0, 0)
  | node nil rg _ _ _ => rg
  | node l _ _ _ _ => getMinRange l

/-- `IntervalTree::dropMinNode`. -/
def dropMin : ITree → ITree
  | nil => nil
  | node nil _ _ _ r => r
  | node l rg _ _ r => balance (mk2 (dropMin l) rg r)

/-- `IntervalTree::removeHelper` (successor replacement when the target has
two children). -/
def removeI : ITree → Nat × Nat → ITree
  | nil, _ => nil
  | node l rg _ _ r, target =>
      if pairLtB target rg then balance (mk2 (removeI l target) rg r)
      else if pairLtB rg target then balance (mk2 l rg (removeI r target))
      else
        match l with
        | nil => r
        | l' =>
            match r with
            | nil => l'
            | r' => balance (mk2 l' (getMinRange r') (dropMin r'))

/-- `IntervalTree::areIntervalsClashing`, applied to `(node->range, query)`. -/
def clashB (a q : Nat × Nat) : Bool := a.1 ≤ q.2 && q.1 ≤ a.2

/-- `IntervalTree::collectClashes`, with both prunings. -/
def collectClashes : ITree → Nat × Nat → List (Nat × Nat)
  | nil, _ => []
  | node l rg hst _ r, q =>
      if hst < q.1 then []
      else
        collectClashes l q ++
          (if clashB rg q then [rg] else []) ++
          (if rg.1 ≤ q.2 then collectClashes r q else [])

/-- `IntervalTree::getClashes`. -/
def getClashes (t : ITree) (low high : Nat) : List (Nat × Nat) :=
  collectClashes t (low, high)

/-- `IntervalTree::countClashes`. -/
def countClashes (t : ITree) (low high : Nat) : Nat :=
  (getClashes t low high).length

/-- In-order key sequence of the tree (proof-side notion). -/
def inorderI : ITree → List (Nat × Nat)
  | nil => []
  | node l rg _ _ r => inorderI l ++ rg :: inorderI r

/-- Non-strict lexicographic order on `[low, high]` pairs. -/
def pLe (a b : Nat × Nat) : Prop := a.1 < b.1 ∨ (a.1 = b.1 ∧ a.2 ≤ b.2)

theorem pairLtB_iff {a b : Nat × Nat} :
    pairLtB a b = true ↔ a.1 < b.1 ∨ (a.1 = b.1 ∧ a.2 < b.2) := by
  obtain ⟨a1, a2⟩ := a; obtain ⟨b1, b2⟩ := b
  simp only [pairLtB, Bool.or_eq_true, Bool.and_eq_true, decide_eq_true_eq,
    beq_iff_eq]

theorem pLe_iff_not_ltB {a b : Nat × Nat} : pLe a b ↔ pairLtB b a = false := by
  obtain ⟨a1, a2⟩ := a; obtain ⟨b1, b2⟩ := b
  rw [← Bool.not_eq_true, pairLtB_iff]
  simp only [pLe]
  omega

theorem pLe_trans {a b c : Nat × Nat} (h1 : pLe a b) (h2 : pLe b c) : pLe a c := by
  obtain ⟨a1, a2⟩ := a; obtain ⟨b1, b2⟩ := b; obtain ⟨c1, c2⟩ := c
  simp [pLe] at *; omega

theorem pLe_of_ltB {a b : Nat × Nat} (h : pairLtB a b = true) : pLe a b := by
  obtain ⟨a1, a2⟩ := a; obtain ⟨b1, b2⟩ := b
  rw [pairLtB_iff] at h; simp [pLe] at *; omega

theorem eq_of_not_ltB {a b : Nat × Nat} (h1 : pairLtB a b = false)
    (h2 : pairLtB b a = false) : a = b := by
  obtain ⟨a1, a2⟩ := a; obtain ⟨b1, b2⟩ := b
  rw [← Bool.not_eq_true, pairLtB_iff] at h1 h2
  simp at *; omega

/-- Weak binary-search-tree invariant: left keys are `≤` the node's range,
right keys are `≥` it. -/
def BSTI : ITree → Prop
  | nil => True
  | node l rg _ _ r =>
      (∀ p ∈ inorderI l, pLe p rg) ∧ (∀ p ∈ inorderI r, pLe rg p) ∧
        BSTI l ∧ BSTI r

/-- The `highest` augmentation bounds every `high` in the subtree. -/
def HBI : ITree → Prop
  | nil => True
  | node l rg hst _ r =>
      rg.2 ≤ hst ∧ l.getHighest ≤ hst ∧ r.getHighest ≤ hst ∧ HBI l ∧ HBI r

theorem HBI_all {t : ITree} (h : HBI t) : ∀ p ∈ inorderI t, p.2 ≤ t.getHighest := by
  induction t with
  | nil => intro p hp; simp [inorderI] at hp
  | node l rg hst ht r ihl ihr =>
      obtain ⟨h1, h2, h3, h4, h5⟩ := h
      intro p hp
      simp only [inorderI, List.mem_append, List.mem_cons] at hp
      rcases hp with hp | rfl | hp
      · exact le_trans (ihl h4 p hp) h2
      · exact h1
      · exact le_trans (ihr h5 p hp) h3

theorem inorderI_mk2 (l : ITree) (rg : Nat × Nat) (r : ITree) :
    inorderI (mk2 l rg r) = inorderI l ++ rg :: inorderI r := rfl

theorem inorderI_rotateRight (t : ITree) : inorderI t.rotateRight = inorderI t := by
  match t with
  | nil => rfl
  | node nil rg hst h r => rfl
  | node (node a lrg lhst lh b) rg hst h r =>
      simp [rotateRight, inorderI_mk2, inorderI, List.append_assoc]

theorem inorderI_rotateLeft (t : ITree) : inorderI t.rotateLeft = inorderI t := by
  match t with
  | nil => rfl
  | node l rg hst h nil => rfl
  | node l rg hst h (node b rrg rhst rh c) =>
      simp [rotateLeft, inorderI_mk2, inorderI, List.append_assoc]

theorem inorderI_balance (t : ITree) : inorderI t.balance = inorderI t := by
  cases t with
  | nil => rfl
  | node l rg hst h r =>
      cases l <;> cases r <;>
        (simp only [balance]
         split_ifs <;>
           first
             | rfl
             | (rw [inorderI_rotateRight]
                try simp only [inorderI, inorderI_rotateLeft])
             | (rw [inorderI_rotateLeft]
                try simp only [inorderI, inorderI_rotateRight]))

/-! ### Preservation of the augmentation bound -/

theorem HBI_mk2 {l r : ITree} (hl : HBI l) (hr : HBI r) (rg : Nat × Nat) :
    HBI (mk2 l rg r) := by
  refine ⟨?_, ?_, ?_, hl, hr⟩ <;> (simp only [mk2, getHighest]; omega)

theorem getHighest_mk2 (l : ITree) (rg : Nat × Nat) (r : ITree) :
    (mk2 l rg r).getHighest = max rg.2 (max l.getHighest r.getHighest) := rfl

theorem HBI_rotateRight {t : ITree} (h : HBI t) : HBI t.rotateRight := by
  match t with
  | nil => exact h
  | node nil rg hst ht r => exact h
  | node (node a lrg lhst lh b) rg hst ht r =>
      obtain ⟨h1, h2, h3, ⟨g1, g2, g3, g4, g5⟩, h5⟩ := h
      exact HBI_mk2 g4 (HBI_mk2 g5 h5 rg) lrg

theorem HBI_rotateLeft {t : ITree} (h : HBI t) : HBI t.rotateLeft := by
  match t with
  | nil => exact h
  | node l rg hst ht nil => exact h
  | node l rg hst ht (node b rrg rhst rh c) =>
      obtain ⟨h1, h2, h3, h4, g1, g2, g3, g4, g5⟩ := h
      exact HBI_mk2 (HBI_mk2 h4 g4 rg) g5 rrg

theorem getHighest_rotateRight_le {t : ITree} (h : HBI t) :
    t.rotateRight.getHighest ≤ t.getHighest := by
  match t with
  | nil => exact Nat.le_refl _
  | node nil rg hst ht r => exact Nat.le_refl _
  | node (node a lrg lhst lh b) rg hst ht r =>
      obtain ⟨h1, h2, h3, ⟨g1, g2, g3, _, _⟩, _⟩ := h
      show max lrg.2 (max a.getHighest (max rg.2 (max b.getHighest r.getHighest)))
          ≤ hst
      simp only [getHighest] at h2
      omega

theorem getHighest_rotateLeft_le {t : ITree} (h : HBI t) :
    t.rotateLeft.getHighest ≤ t.getHighest := by
  match t with
  | nil => exact Nat.le_refl _
  | node l rg hst ht nil => exact Nat.le_refl _
  | node l rg hst ht (node b rrg rhst rh c) =>
      obtain ⟨h1, h2, h3, h4, g1, g2, g3, _, _⟩ := h
      show max rrg.2 (max (max rg.2 (max l.getHighest b.getHighest)) c.getHighest)
          ≤ hst
      simp only [getHighest] at h3
      omega

theorem HBI_balance {t : ITree} (h : HBI t) : HBI t.balance := by
  cases t with
  | nil => exact h
  | node l rg hst ht r =>
      obtain ⟨h1, h2, h3, h4, h5⟩ := h
      cases l <;> cases r <;>
        (simp only [balance]
         split_ifs <;>
           first
             | exact ⟨h1, h2, h3, h4, h5⟩
             | exact HBI_rotateLeft ⟨h1, h2, h3, h4, h5⟩
             | exact HBI_rotateRight ⟨h1, h2, h3, h4, h5⟩
             | exact HBI_rotateRight ⟨h1,
                 le_trans (getHighest_rotateLeft_le h4) h2, h3,
                 HBI_rotateLeft h4, h5⟩
             | exact HBI_rotateLeft ⟨h1, h2,
                 le_trans (getHighest_rotateRight_le h5) h3, h4,
                 HBI_rotateRight h5⟩)

/-! ### Preservation of the search-tree invariant -/

theorem BSTI_node_iff {l r : ITree} {rg : Nat × Nat} {hst ht : Nat} :
    BSTI (node l rg hst ht r) ↔
      (∀ p ∈ inorderI l, pLe p rg) ∧ (∀ p ∈ inorderI r, pLe rg p) ∧
        BSTI l ∧ BSTI r := Iff.rfl

theorem BSTI_mk2 {l r : ITree} {rg : Nat × Nat}
    (hl : ∀ p ∈ inorderI l, pLe p rg) (hr : ∀ p ∈ inorderI r, pLe rg p)
    (bl : BSTI l) (br : BSTI r) : BSTI (mk2 l rg r) :=
  ⟨hl, hr, bl, br⟩

theorem inorderI_mem_mk2 {l r : ITree} {rg p : Nat × Nat} :
    p ∈ inorderI (mk2 l rg r) ↔ p ∈ inorderI l ∨ p = rg ∨ p ∈ inorderI r := by
  simp [inorderI_mk2]

theorem BSTI_rotateRight {t : ITree} (h : BSTI t) : BSTI t.rotateRight := by
  match t with
  | nil => exact h
  | node nil rg hst ht r => exact h
  | node (node a lrg lhst lh b) rg hst ht r =>
      obtain ⟨hL, hR, ⟨ha, hb, ba, bb⟩, br⟩ := h
      have hlrg : pLe lrg rg := hL lrg (by simp [inorderI])
      refine BSTI_mk2 ha ?_ ba (BSTI_mk2 ?_ hR bb br)
      · intro p hp
        rcases inorderI_mem_mk2.mp hp with hp | rfl | hp
        · exact hb p hp
        · exact hlrg
        · exact pLe_trans hlrg (hR p hp)
      · intro p hp
        exact hL p (by simp [inorderI, hp])

theorem BSTI_rotateLeft {t : ITree} (h : BSTI t) : BSTI t.rotateLeft := by
  match t with
  | nil => exact h
  | node l rg hst ht nil => exact h
  | node l rg hst ht (node b rrg rhst rh c) =>
      obtain ⟨hL, hR, bl, ⟨hb, hc, bb, bc⟩⟩ := h
      have hrrg : pLe rg rrg := hR rrg (by simp [inorderI])
      refine BSTI_mk2 ?_ hc (BSTI_mk2 hL ?_ bl bb) bc
      · intro p hp
        rcases inorderI_mem_mk2.mp hp with hp | rfl | hp
        · exact pLe_trans (hL p hp) hrrg
        · exact hrrg
        · exact hb p hp
      · intro p hp
        exact hR p (by simp [inorderI, hp])

theorem BSTI_balance {t : ITree} (h : BSTI t) : BSTI t.balance := by
  cases t with
  | nil => exact h
  | node l rg hst ht r =>
      obtain ⟨h1, h2, h3, h4⟩ := h
      cases l <;> cases r <;>
        (simp only [balance]
         split_ifs <;>
           first
             | exact ⟨h1, h2, h3, h4⟩
             | exact BSTI_rotateLeft ⟨h1, h2, h3, h4⟩
             | exact BSTI_rotateRight ⟨h1, h2, h3, h4⟩
             | exact BSTI_rotateRight ⟨by
                 intro p hp
                 exact h1 p (by rwa [inorderI_rotateLeft] at hp), h2,
                 BSTI_rotateLeft h3, h4⟩
             | exact BSTI_rotateLeft ⟨h1, by
                 intro p hp
                 exact h2 p (by rwa [inorderI_rotateRight] at hp),
                 h3, BSTI_rotateRight h4⟩)

/-! ### Multiset behaviour of insertion and removal -/

theorem inorderI_insertI (t : ITree) (x : Nat × Nat) :
    List.Perm (inorderI (insertI t x)) (x :: inorderI t) := by
  induction t with
  | nil => exact List.Perm.refl _
  | node l rg hst ht r ihl ihr =>
      rw [insertI]
      split_ifs
      · rw [inorderI_balance, inorderI_mk2]
        have h1 := ihl.append_right (rg :: inorderI r)
        simpa [inorderI] using h1
      · rw [inorderI_balance, inorderI_mk2]
        have h1 := List.Perm.append_left (inorderI l) (List.Perm.cons rg ihr)
        have h2 := @List.perm_middle _ x (inorderI l ++ [rg]) (inorderI r)
        refine h1.trans ?_
        simpa [inorderI] using h2

theorem pLe_refl (a : Nat × Nat) : pLe a a := Or.inr ⟨rfl, Nat.le_refl _⟩

theorem mem_insertI {t : ITree} {x p : Nat × Nat}
    (hp : p ∈ inorderI (insertI t x)) : p = x ∨ p ∈ inorderI t := by
  have := (inorderI_insertI t x).mem_iff.mp hp
  simpa using this

theorem BSTI_insertI {t : ITree} (h : BSTI t) (x : Nat × Nat) :
    BSTI (insertI t x) := by
  induction t with
  | nil => exact ⟨by simp [inorderI], by simp [inorderI], trivial, trivial⟩
  | node l rg hst ht r ihl ihr =>
      obtain ⟨h1, h2, h3, h4⟩ := h
      rw [insertI]
      split_ifs with hc
      · apply BSTI_balance
        refine BSTI_mk2 ?_ h2 (ihl h3) h4
        intro p hp
        rcases mem_insertI hp with rfl | hp
        · exact pLe_iff_not_ltB.mpr hc
        · exact h1 p hp
      · apply BSTI_balance
        refine BSTI_mk2 h1 ?_ h3 (ihr h4)
        intro p hp
        rcases mem_insertI hp with rfl | hp
        · exact pLe_of_ltB (by simpa using hc)
        · exact h2 p hp

theorem HBI_insertI {t : ITree} (h : HBI t) (x : Nat × Nat) :
    HBI (insertI t x) := by
  induction t with
  | nil =>
      exact ⟨Nat.le_refl _, Nat.zero_le _, Nat.zero_le _, trivial, trivial⟩
  | node l rg hst ht r ihl ihr =>
      obtain ⟨h1, h2, h3, h4, h5⟩ := h
      rw [insertI]
      split_ifs
      · exact HBI_balance (HBI_mk2 (ihl h4) h5 rg)
      · exact HBI_balance (HBI_mk2 h4 (ihr h5) rg)

theorem getMin_cons_dropMin : ∀ {t : ITree}, t ≠ nil →
    getMinRange t :: inorderI (dropMin t) = inorderI t
  | nil, h => absurd rfl h
  | node nil rg hst ht r, _ => rfl
  | node (node a lrg lhst lh b) rg hst ht r, _ => by
      have ih := @getMin_cons_dropMin (node a lrg lhst lh b) (by simp)
      simp only [dropMin, getMinRange, inorderI_balance, inorderI_mk2]
      rw [show inorderI (node (node a lrg lhst lh b) rg hst ht r) =
        inorderI (node a lrg lhst lh b) ++ rg :: inorderI r from rfl, ← ih]
      simp

theorem getMinRange_mem {t : ITree} (h : t ≠ nil) :
    getMinRange t ∈ inorderI t := by
  rw [← getMin_cons_dropMin h]
  exact List.mem_cons_self _ _

theorem mem_dropMin {t : ITree} (h : t ≠ nil) {p : Nat × Nat}
    (hp : p ∈ inorderI (dropMin t)) : p ∈ inorderI t := by
  rw [← getMin_cons_dropMin h]
  exact List.mem_cons_of_mem _ hp

theorem BSTI_dropMin : ∀ {t : ITree}, BSTI t → BSTI (dropMin t)
  | nil, h => h
  | node nil rg hst ht r, h => h.2.2.2
  | node (node a lrg lhst lh b) rg hst ht r, h => by
      obtain ⟨h1, h2, h3, h4⟩ := h
      apply BSTI_balance
      refine BSTI_mk2 ?_ h2 (BSTI_dropMin h3) h4
      intro p hp
      exact h1 p (mem_dropMin (by simp) hp)

theorem HBI_dropMin : ∀ {t : ITree}, HBI t → HBI (dropMin t)
  | nil, h => h
  | node nil rg hst ht r, h => h.2.2.2.2
  | node (node a lrg lhst lh b) rg hst ht r, h => by
      obtain ⟨h1, h2, h3, h4, h5⟩ := h
      exact HBI_balance (HBI_mk2 (HBI_dropMin h4) h5 rg)

theorem getMinRange_le : ∀ {t : ITree}, BSTI t →
    ∀ p ∈ inorderI t, pLe (getMinRange t) p
  | nil, _, p, hp => by simp [inorderI] at hp
  | node nil rg hst ht r, h, p, hp => by
      obtain ⟨h1, h2, h3, h4⟩ := h
      simp only [inorderI, List.nil_append, List.mem_cons] at hp
      rcases hp with rfl | hp
      · exact pLe_refl _
      · exact h2 p hp
  | node (node a lrg lhst lh b) rg hst ht r, h, p, hp => by
      obtain ⟨h1, h2, h3, h4⟩ := h
      have hmem : getMinRange (node a lrg lhst lh b) ∈
          inorderI (node a lrg lhst lh b) := getMinRange_mem (by simp)
      rw [show inorderI (node (node a lrg lhst lh b) rg hst ht r) =
        inorderI (node a lrg lhst lh b) ++ rg :: inorderI r from rfl] at hp
      show pLe (getMinRange (node a lrg lhst lh b)) p
      rcases List.mem_append.mp hp with hp | hp
      · exact getMinRange_le h3 p hp
      · rcases List.mem_cons.mp hp with rfl | hp
        · exact h1 _ hmem
        · exact pLe_trans (h1 _ hmem) (h2 p hp)

/-- Helper: erasing from an appended list when the element cannot be in the
right part. -/
theorem mset_erase_append_left {β : Type} [DecidableEq β] {A B : List β}
    {x : β} (hx : x ∉ B) :
    ((A ++ B : List β) : Multiset β).erase x =
      ((A : Multiset β).erase x) + (B : Multiset β) := by
  rw [← Multiset.coe_add]
  by_cases hA : x ∈ A
  · exact Multiset.erase_add_left_pos _ (Multiset.mem_coe.mpr hA)
  · rw [Multiset.erase_of_not_mem (by
        intro hc
        rcases Multiset.mem_add.mp hc with hc | hc
        · exact hA (Multiset.mem_coe.mp hc)
        · exact hx (Multiset.mem_coe.mp hc)),
      Multiset.erase_of_not_mem (fun hc => hA (Multiset.mem_coe.mp hc))]

/-- Helper: erasing from an appended list when the element cannot be in the
left part. -/
theorem mset_erase_append_right {β : Type} [DecidableEq β] {A B : List β}
    {x : β} (hx : x ∉ A) :
    ((A ++ B : List β) : Multiset β).erase x =
      (A : Multiset β) + ((B : Multiset β).erase x) := by
  rw [← Multiset.coe_add]
  by_cases hB : x ∈ B
  · exact Multiset.erase_add_right_pos _ (Multiset.mem_coe.mpr hB)
  · rw [Multiset.erase_of_not_mem (by
        intro hc
        rcases Multiset.mem_add.mp hc with hc | hc
        · exact hx (Multiset.mem_coe.mp hc)
        · exact hB (Multiset.mem_coe.mp hc)),
      Multiset.erase_of_not_mem (fun hc => hB (Multiset.mem_coe.mp hc))]

theorem mset_remove_goLeft {l r : ITree} {rg x : Nat × Nat} {hst ht : Nat}
    (h2 : ∀ p ∈ inorderI r, pLe rg p)
    (ihl : (inorderI (removeI l x) : Multiset (Nat × Nat)) =
      (inorderI l : Multiset (Nat × Nat)).erase x)
    (hc1 : pairLtB x rg = true) :
    (inorderI (balance (mk2 (removeI l x) rg r)) : Multiset (Nat × Nat)) =
      (inorderI (node l rg hst ht r) : Multiset (Nat × Nat)).erase x := by
  have hxr : x ∉ (rg :: inorderI r) := by
    intro hmem
    rcases List.mem_cons.mp hmem with rfl | hmem
    · exact pairLtB_ne hc1 rfl
    · exact absurd (pLe_iff_not_ltB.mp (h2 x hmem)) (by simp [hc1])
  rw [inorderI_balance, inorderI_mk2,
    show inorderI (node l rg hst ht r) = inorderI l ++ rg :: inorderI r
      from rfl,
    mset_erase_append_left hxr, ← ihl, ← Multiset.coe_add]

theorem mset_remove_goRight {l r : ITree} {rg x : Nat × Nat} {hst ht : Nat}
    (h1 : ∀ p ∈ inorderI l, pLe p rg)
    (ihr : (inorderI (removeI r x) : Multiset (Nat × Nat)) =
      (inorderI r : Multiset (Nat × Nat)).erase x)
    (hc2 : pairLtB rg x = true) :
    (inorderI (balance (mk2 l rg (removeI r x))) : Multiset (Nat × Nat)) =
      (inorderI (node l rg hst ht r) : Multiset (Nat × Nat)).erase x := by
  have hxl : x ∉ inorderI l := fun hmem =>
    absurd (pLe_iff_not_ltB.mp (h1 x hmem)) (by simp [hc2])
  rw [inorderI_balance, inorderI_mk2,
    show inorderI (node l rg hst ht r) = inorderI l ++ rg :: inorderI r
      from rfl,
    mset_erase_append_right hxl, ← Multiset.cons_coe,
    Multiset.erase_cons_tail _ (pairLtB_ne hc2), ← ihr,
    Multiset.cons_coe, ← Multiset.coe_add]

theorem msetI_removeI : ∀ {t : ITree}, BSTI t → ∀ x : Nat × Nat,
    (inorderI (removeI t x) : Multiset (Nat × Nat)) =
      (inorderI t : Multiset (Nat × Nat)).erase x := by
  intro t
  induction t with
  | nil => intro _ x; simp [removeI, inorderI]
  | node l rg hst ht r ihl ihr =>
      intro h x
      obtain ⟨h1, h2, h3, h4⟩ := h
      cases l with
      | nil =>
          rw [removeI.eq_2]
          split_ifs with hc1 hc2
          · exact mset_remove_goLeft h2 (ihl h3 x) hc1
          · exact mset_remove_goRight h1 (ihr h4 x) hc2
          · have hx : x = rg :=
              eq_of_not_ltB (by simpa using hc1) (by simpa using hc2)
            subst hx
            rw [show inorderI (node nil x hst ht r) = x :: inorderI r from rfl,
              ← Multiset.cons_coe, Multiset.erase_cons_head]
      | node la lrg lhst lh lb =>
          cases r with
          | nil =>
              rw [removeI.eq_3 _ _ _ _ _ (fun hc => ITree.noConfusion hc)]
              split_ifs with hc1 hc2
              · exact mset_remove_goLeft h2 (ihl h3 x) hc1
              · exact mset_remove_goRight h1 (ihr h4 x) hc2
              · have hx : x = rg :=
                  eq_of_not_ltB (by simpa using hc1) (by simpa using hc2)
                subst hx
                rw [show inorderI (node (node la lrg lhst lh lb) x hst ht nil) =
                    inorderI (node la lrg lhst lh lb) ++ x :: inorderI nil
                      from rfl,
                  ← Multiset.coe_add, ← Multiset.cons_coe,
                  Multiset.erase_add_right_pos _ (Multiset.mem_cons_self _ _),
                  Multiset.erase_cons_head]
                simp [inorderI]
          | node ra rrg rhst rh rb =>
              rw [removeI.eq_4 _ _ _ _ _ _ (fun hc => ITree.noConfusion hc)
                (fun hc => ITree.noConfusion hc)]
              split_ifs with hc1 hc2
              · exact mset_remove_goLeft h2 (ihl h3 x) hc1
              · exact mset_remove_goRight h1 (ihr h4 x) hc2
              · have hx : x = rg :=
                  eq_of_not_ltB (by simpa using hc1) (by simpa using hc2)
                subst hx
                rw [inorderI_balance, inorderI_mk2,
                  @getMin_cons_dropMin (node ra rrg rhst rh rb) (by simp),
                  show inorderI (node (node la lrg lhst lh lb) x hst ht
                      (node ra rrg rhst rh rb)) =
                    inorderI (node la lrg lhst lh lb) ++
                      x :: inorderI (node ra rrg rhst rh rb) from rfl,
                  ← Multiset.coe_add, ← Multiset.coe_add, ← Multiset.cons_coe,
                  Multiset.erase_add_right_pos _ (Multiset.mem_cons_self _ _),
                  Multiset.erase_cons_head]

theorem mem_removeI {t : ITree} {x p : Nat × Nat} (h : BSTI t)
    (hp : p ∈ inorderI (removeI t x)) : p ∈ inorderI t := by
  have hmset := msetI_removeI h x
  have hin : p ∈ (inorderI t : Multiset (Nat × Nat)).erase x := by
    rw [← hmset]; exact Multiset.mem_coe.mpr hp
  exact Multiset.mem_coe.mp (Multiset.mem_of_mem_erase hin)

theorem BSTI_removeI : ∀ {t : ITree}, BSTI t → ∀ x : Nat × Nat,
    BSTI (removeI t x) := by
  intro t
  induction t with
  | nil => intro h _; exact h
  | node l rg hst ht r ihl ihr =>
      intro h x
      obtain ⟨h1, h2, h3, h4⟩ := h
      cases l with
      | nil =>
          rw [removeI.eq_2]
          split_ifs
          · exact BSTI_balance
              (BSTI_mk2 (fun p hp => h1 p (mem_removeI h3 hp)) h2 (ihl h3 x) h4)
          · exact BSTI_balance
              (BSTI_mk2 h1 (fun p hp => h2 p (mem_removeI h4 hp)) h3 (ihr h4 x))
          · exact h4
      | node la lrg lhst lh lb =>
          cases r with
          | nil =>
              rw [removeI.eq_3 _ _ _ _ _ (fun hc => ITree.noConfusion hc)]
              split_ifs
              · exact BSTI_balance
                  (BSTI_mk2 (fun p hp => h1 p (mem_removeI h3 hp)) h2
                    (ihl h3 x) h4)
              · exact BSTI_balance
                  (BSTI_mk2 h1 (fun p hp => h2 p (mem_removeI h4 hp)) h3
                    (ihr h4 x))
              · exact h3
          | node ra rrg rhst rh rb =>
              rw [removeI.eq_4 _ _ _ _ _ _ (fun hc => ITree.noConfusion hc)
                (fun hc => ITree.noConfusion hc)]
              split_ifs
              · exact BSTI_balance
                  (BSTI_mk2 (fun p hp => h1 p (mem_removeI h3 hp)) h2
                    (ihl h3 x) h4)
              · exact BSTI_balance
                  (BSTI_mk2 h1 (fun p hp => h2 p (mem_removeI h4 hp)) h3
                    (ihr h4 x))
              · apply BSTI_balance
                have hminmem : getMinRange (node ra rrg rhst rh rb) ∈
                    inorderI (node ra rrg rhst rh rb) := getMinRange_mem (by simp)
                refine BSTI_mk2 ?_ ?_ h3 (BSTI_dropMin h4)
                · intro p hp
                  exact pLe_trans (h1 p hp) (h2 _ hminmem)
                · intro p hp
                  exact getMinRange_le h4 p (mem_dropMin (by simp) hp)

theorem HBI_removeI : ∀ {t : ITree}, HBI t → ∀ x : Nat × Nat,
    HBI (removeI t x) := by
  intro t
  induction t with
  | nil => intro h _; exact h
  | node l rg hst ht r ihl ihr =>
      intro h x
      obtain ⟨h1, h2, h3, h4, h5⟩ := h
      cases l with
      | nil =>
          rw [removeI.eq_2]
          split_ifs
          · exact HBI_balance (HBI_mk2 (ihl h4 x) h5 rg)
          · exact HBI_balance (HBI_mk2 h4 (ihr h5 x) rg)
          · exact h5
      | node la lrg lhst lh lb =>
          cases r with
          | nil =>
              rw [removeI.eq_3 _ _ _ _ _ (fun hc => ITree.noConfusion hc)]
              split_ifs
              · exact HBI_balance (HBI_mk2 (ihl h4 x) h5 rg)
              · exact HBI_balance (HBI_mk2 h4 (ihr h5 x) rg)
              · exact h4
          | node ra rrg rhst rh rb =>
              rw [removeI.eq_4 _ _ _ _ _ _ (fun hc => ITree.noConfusion hc)
                (fun hc => ITree.noConfusion hc)]
              split_ifs
              · exact HBI_balance (HBI_mk2 (ihl h4 x) h5 rg)
              · exact HBI_balance (HBI_mk2 h4 (ihr h5 x) rg)
              · exact HBI_balance (HBI_mk2 h4 (HBI_dropMin h5) _)

theorem pLe_fst {a b : Nat × Nat} (h : pLe a b) : a.1 ≤ b.1 := by
  rcases h with h | ⟨h, _⟩ <;> omega

/-- Soundness of `collectClashes` with its two prunings: on trees satisfying
the search and augmentation invariants it returns exactly the stored
intervals overlapping the query, in order. -/
theorem collectClashes_eq_filter : ∀ {t : ITree}, BSTI t → HBI t →
    ∀ q : Nat × Nat,
      collectClashes t q = (inorderI t).filter (fun p => clashB p q) := by
  intro t
  induction t with
  | nil => intro _ _ q; rfl
  | node l rg hst ht r ihl ihr =>
      intro hb hh q
      obtain ⟨b1, b2, b3, b4⟩ := hb
      obtain ⟨g1, g2, g3, g4, g5⟩ := hh
      have hnodeHB : HBI (node l rg hst ht r) := ⟨g1, g2, g3, g4, g5⟩
      rw [collectClashes]
      have hrnil : ¬ rg.1 ≤ q.2 →
          (inorderI r).filter (fun p => clashB p q) = [] := by
        intro hrt
        rw [List.filter_eq_nil_iff]
        intro p hp
        have hle : rg.1 ≤ p.1 := pLe_fst (b2 p hp)
        simp only [clashB, Bool.and_eq_true, decide_eq_true_eq]
        omega
      have hexp : inorderI (node l rg hst ht r) =
          inorderI l ++ rg :: inorderI r := rfl
      split_ifs with hprune hmid hrt hrt
      · symm
        rw [List.filter_eq_nil_iff]
        intro p hp
        have hple : p.2 ≤ hst := HBI_all hnodeHB p hp
        simp only [clashB, Bool.and_eq_true, decide_eq_true_eq]
        omega
      · rw [hexp, List.filter_append, List.filter_cons, ihl b3 g4 q,
          ihr b4 g5 q]
        simp [hmid]
      · rw [hexp, List.filter_append, List.filter_cons, ihl b3 g4 q,
          hrnil hrt]
        simp [hmid]
      · rw [hexp, List.filter_append, List.filter_cons, ihl b3 g4 q,
          ihr b4 g5 q]
        simp [hmid]
      · rw [hexp, List.filter_append, List.filter_cons, ihl b3 g4 q,
          hrnil hrt]
        simp [hmid]

/-! ### The public interval-tree interface, over operation sequences -/

/-- One call to `IntervalTree::insert` or `IntervalTree::remove`. -/
inductive ITOp where
  | insert (low high : Nat)
  | remove (low high : Nat)
deriving DecidableEq, Repr

/-- The `assert (low <= high)` precondition of both operations. -/
def ITOp.wfB : ITOp → Bool
  | .insert low high => low ≤ high
  | .remove low high => low ≤ high

def applyITOp (t : ITree) : ITOp → ITree
  | .insert low high => insertI t (low, high)
  | .remove low high => removeI t (low, high)

/-- The tree obtained from an empty `IntervalTree` by a sequence of
insert/remove calls. -/
def applyITOps (ops : List ITOp) : ITree := ops.foldl applyITOp nil

/-- The multiset of intervals a correct container would store after the
same calls (insert adds an occurrence, remove erases one if present). -/
def storedStep (s : Multiset (Nat × Nat)) : ITOp → Multiset (Nat × Nat)
  | .insert low high => (low, high) ::ₘ s
  | .remove low high => s.erase (low, high)

def storedSet (ops : List ITOp) : Multiset (Nat × Nat) :=
  ops.foldl storedStep 0

theorem applyITOps_go : ∀ (ops : List ITOp) (t : ITree) (s : Multiset (Nat × Nat)),
    BSTI t → HBI t → (inorderI t : Multiset (Nat × Nat)) = s →
    BSTI (ops.foldl applyITOp t) ∧ HBI (ops.foldl applyITOp t) ∧
      (inorderI (ops.foldl applyITOp t) : Multiset (Nat × Nat)) =
        ops.foldl storedStep s := by
  intro ops
  induction ops with
  | nil => intro t s hb hh hs; exact ⟨hb, hh, hs⟩
  | cons op rest ih =>
      intro t s hb hh hs
      rw [List.foldl_cons, List.foldl_cons]
      match op with
      | .insert low high =>
          refine ih _ _ (BSTI_insertI hb _) (HBI_insertI hh _) ?_
          rw [show applyITOp t (ITOp.insert low high) = insertI t (low, high)
            from rfl]
          rw [Multiset.coe_eq_coe.mpr (inorderI_insertI t (low, high)),
            ← Multiset.cons_coe, hs]
          rfl
      | .remove low high =>
          refine ih _ _ (BSTI_removeI hb _) (HBI_removeI hh _) ?_
          rw [show applyITOp t (ITOp.remove low high) = removeI t (low, high)
            from rfl]
          rw [msetI_removeI hb (low, high), hs]
          rfl

theorem applyITOps_invariants (ops : List ITOp) :
    BSTI (applyITOps ops) ∧ HBI (applyITOps ops) ∧
      (inorderI (applyITOps ops) : Multiset (Nat × Nat)) = storedSet ops :=
  applyITOps_go ops nil 0 trivial trivial rfl

/-- C8: on every tree reachable by insert/remove calls (each with
`low ≤ high`), `getClashes(low, high)` returns exactly the stored occurrences
`[l, h]` with `l ≤ high ∧ low ≤ h` - one output entry per stored occurrence -
and `countClashes` returns their number. -/
theorem intervalTree_getClashes_spec (ops : List ITOp)
    (hwf : ∀ op ∈ ops, op.wfB = true) (low high : Nat) (hq : low ≤ high) :
    ((getClashes (applyITOps ops) low high : List (Nat × Nat)) :
        Multiset (Nat × Nat)) =
      (storedSet ops).filter (fun p => p.1 ≤ high ∧ low ≤ p.2) ∧
    countClashes (applyITOps ops) low high =
      Multiset.card
        ((storedSet ops).filter (fun p => p.1 ≤ high ∧ low ≤ p.2)) := by
  obtain ⟨hb, hh, hs⟩ := applyITOps_invariants ops
  have h1 : getClashes (applyITOps ops) low high =
      (inorderI (applyITOps ops)).filter (fun p => clashB p (low, high)) :=
    collectClashes_eq_filter hb hh (low, high)
  have h2 : ((getClashes (applyITOps ops) low high : List (Nat × Nat)) :
      Multiset (Nat × Nat)) =
      (storedSet ops).filter (fun p => p.1 ≤ high ∧ low ≤ p.2) := by
    have hpred : (fun p : Nat × Nat => clashB p (low, high)) =
        (fun b : Nat × Nat => decide (b.1 ≤ high ∧ low ≤ b.2)) := by
      funext p
      simp [clashB, Bool.decide_and]
    rw [h1, ← hs, Multiset.filter_coe, hpred]
  refine ⟨h2, ?_⟩
  rw [countClashes, ← Multiset.coe_card, h2]

/-- Witness for C8, at the spec's literal interval-tree scenario. -/
theorem intervalTree_getClashes_spec_witness :
    (∀ op ∈ [ITOp.insert 1 5, ITOp.insert 3 7, ITOp.insert 6 8,
        ITOp.insert 10 12], op.wfB = true) ∧ (4 : Nat) ≤ 6 ∧
    countClashes (applyITOps [ITOp.insert 1 5, ITOp.insert 3 7,
        ITOp.insert 6 8, ITOp.insert 10 12]) 4 6 =
      Multiset.card ((storedSet [ITOp.insert 1 5, ITOp.insert 3 7,
        ITOp.insert 6 8, ITOp.insert 10 12]).filter
          (fun p => p.1 ≤ 6 ∧ 4 ≤ p.2)) :=
  ⟨by decide, by decide,
    (intervalTree_getClashes_spec _ (by decide) 4 6 (by decide)).2⟩

end ITree

/-! ## The order-statistic AVL tree (`avl-tree.h` / `avl-tree.cpp`)

A balanced BST over a linearly ordered key type (the C++ template parameter
`ElemT`), where every node stores `count` (its subtree size) and `height`.
Duplicates sort left (`node->key >= key` descends left). -/

inductive ATree (α : Type) where
  | nil
  | node (left : ATree α) (key : α) (count : Nat) (height : Nat) (right : ATree α)
deriving DecidableEq, Repr

namespace ATree

variable {α : Type} [LinearOrder α]

/-- `AVLTree::getCount` (`0` for a null pointer). -/
def getCount : ATree α → Nat
  | nil => 0
  | node _ _ c _ _ => c

/-- `AVLTree::getHeight` (`0` for a null pointer). -/
def getHeight : ATree α → Nat
  | nil => 0
  | node _ _ _ h _ => h

/-- Rebuild a node, recomputing `count` and `height` exactly as
`AVLTree::updateAuxValues` does. -/
def mk2 (l : ATree α) (k : α) (r : ATree α) : ATree α :=
  node l k (1 + getCount l + getCount r) (1 + max (getHeight l) (getHeight r)) r

/-- `AVLTree::rotateRight`. -/
def rotateRight : ATree α → ATree α
  | node (node a lk _ _ b) k _ _ r => mk2 a lk (mk2 b k r)
  | t => t

/-- `AVLTree::rotateLeft`. -/
def rotateLeft : ATree α → ATree α
  | node l k _ _ (node b rk _ _ c) => mk2 (mk2 l k b) rk c
  | t => t

/-- `AVLTree::balanceTree`. -/
def balance : ATree α → ATree α
  | nil => nil
  | node l k c h r =>
      if (getHeight l : Int) - getHeight r = 2 then
        match l with
        | node ll _ _ _ lr =>
            if (getHeight ll : Int) - getHeight lr < 0 then
              rotateRight (node (rotateLeft l) k c h r)
            else rotateRight (node l k c h r)
        | nil => node l k c h r
      else if (getHeight l : Int) - getHeight r = -2 then
        match r with
        | node rl _ _ _ rr =>
            if (getHeight rl : Int) - getHeight rr > 0 then
              rotateLeft (node l k c h (rotateRight r))
            else rotateLeft (node l k c h r)
        | nil => node l k c h r
      else node l k c h r

/-- `AVLTree::insertHelper`: duplicates (`node->key >= key`) go left. -/
def insertA : ATree α → α → ATree α
  | nil, key => node nil key 1 1 nil
  | node l k c h r, key =>
      if k ≥ key then balance (mk2 (insertA l key) k r)
      else balance (mk2 l k (insertA r key))

/-- `AVLTree::getMinNode` (key of the leftmost node). -/
def getMinKey : ATree α → Option α
  | nil => none
  | node nil k _ _ _ => some k
  | node l _ _ _ _ => getMinKey l

/-- `AVLTree::dropMinNode`. -/
def dropMinA : ATree α → ATree α
  | nil => nil
  | node nil _ _ _ r => r
  | node l k _ _ r => balance (mk2 (dropMinA l) k r)

/-- `AVLTree::removeHelper`; the `Bool` records whether the key was found
(the `nodeCount--` side effect of the C++ found branch). -/
def removeA : ATree α → α → ATree α × Bool
  | nil, _ => (nil, false)
  | node l k c h r, key =>
      if k > key then
        let res := removeA l key
        (balance (mk2 res.1 k r), res.2)
      else if k < key then
        let res := removeA r key
        (balance (mk2 l k res.1), res.2)
      else
        match l with
        | nil => (r, true)
        | l' =>
            match r with
            | nil => (l', true)
            | r' => (balance (mk2 l' ((getMinKey r').getD k) (dropMinA r')), true)

/-- `AVLTree::searchNth` (0-indexed rank select via the `count` fields). -/
def searchNth : ATree α → Nat → Option α
  | nil, _ => none
  | node l k _ _ r, n =>
      if getCount l = n then some k
      else if getCount l > n then searchNth l n
      else searchNth r (n - getCount l - 1)

/-- `AVLTree::collectKeysHelper`: note the key is pushed *before* the two
recursive calls, so this is a pre-order (not in-order) traversal. -/
def collectKeys : ATree α → List α
  | nil => []
  | node l k _ _ r => k :: (collectKeys l ++ collectKeys r)

/-- In-order key sequence (proof-side notion). -/
def inorderA : ATree α → List α
  | nil => []
  | node l k _ _ r => inorderA l ++ k :: inorderA r

end ATree

/-- The `AVLTree` class state: root pointer and `nodeCount`. -/
structure AVLTree (α : Type) where
  root : ATree α
  nodeCount : Nat
deriving Repr

namespace AVLTree

variable {α : Type} [LinearOrder α]

def empty : AVLTree α := ⟨ATree.nil, 0⟩

/-- `AVLTree::insert`. -/
def insert (t : AVLTree α) (k : α) : AVLTree α :=
  ⟨ATree.insertA t.root k, t.nodeCount + 1⟩

/-- `AVLTree::remove` (the helper decrements `nodeCount` iff it found the
key). -/
def remove (t : AVLTree α) (k : α) : AVLTree α :=
  let res := ATree.removeA t.root k
  ⟨res.1, if res.2 then t.nodeCount - 1 else t.nodeCount⟩

/-- `AVLTree::getNth` (`domain_error` modelled as `none`). -/
def getNth (t : AVLTree α) (n : Nat) : Option α :=
  if t.nodeCount ≤ n then none else ATree.searchNth t.root n

/-- `AVLTree::collectKeys`. -/
def collectKeys (t : AVLTree α) : List α := ATree.collectKeys t.root

end AVLTree

namespace ATree

variable {α : Type} [LinearOrder α]

theorem inorderA_mk2 (l : ATree α) (k : α) (r : ATree α) :
    inorderA (mk2 l k r) = inorderA l ++ k :: inorderA r := rfl

theorem inorderA_rotateRight (t : ATree α) :
    inorderA t.rotateRight = inorderA t := by
  match t with
  | nil => rfl
  | node nil k c h r => rfl
  | node (node a lk lc lh b) k c h r =>
      simp [rotateRight, inorderA_mk2, inorderA, List.append_assoc]

theorem inorderA_rotateLeft (t : ATree α) :
    inorderA t.rotateLeft = inorderA t := by
  match t with
  | nil => rfl
  | node l k c h nil => rfl
  | node l k c h (node b rk rc rh d) =>
      simp [rotateLeft, inorderA_mk2, inorderA, List.append_assoc]

theorem inorderA_balance (t : ATree α) : inorderA t.balance = inorderA t := by
  cases t with
  | nil => rfl
  | node l k c h r =>
      cases l <;> cases r <;>
        (simp only [balance]
         split_ifs <;>
           first
             | rfl
             | (rw [inorderA_rotateRight]
                try simp only [inorderA, inorderA_rotateLeft])
             | (rw [inorderA_rotateLeft]
                try simp only [inorderA, inorderA_rotateRight]))

/-- The `count` fields store subtree sizes. -/
def CNT : ATree α → Prop
  | nil => True
  | node l _ c _ r =>
      c = 1 + (inorderA l).length + (inorderA r).length ∧ CNT l ∧ CNT r

theorem getCount_eq {t : ATree α} (h : CNT t) :
    getCount t = (inorderA t).length := by
  cases t with
  | nil => rfl
  | node l k c ht r =>
      obtain ⟨h1, _, _⟩ := h
      simp [getCount, inorderA, h1]
      omega

theorem CNT_mk2 {l r : ATree α} (hl : CNT l) (hr : CNT r) (k : α) :
    CNT (mk2 l k r) := by
  refine ⟨?_, hl, hr⟩
  simp [mk2, getCount_eq hl, getCount_eq hr]

theorem CNT_rotateRight {t : ATree α} (h : CNT t) : CNT t.rotateRight := by
  match t with
  | nil => exact h
  | node nil k c ht r => exact h
  | node (node a lk lc lh b) k c ht r =>
      obtain ⟨h1, ⟨g1, g2, g3⟩, h3⟩ := h
      exact CNT_mk2 g2 (CNT_mk2 g3 h3 k) lk

theorem CNT_rotateLeft {t : ATree α} (h : CNT t) : CNT t.rotateLeft := by
  match t with
  | nil => exact h
  | node l k c ht nil => exact h
  | node l k c ht (node b rk rc rh d) =>
      obtain ⟨h1, h2, g1, g2, g3⟩ := h
      exact CNT_mk2 (CNT_mk2 h2 g2 k) g3 rk

theorem CNT_balance {t : ATree α} (h : CNT t) : CNT t.balance := by
  cases t with
  | nil => exact h
  | node l k c ht r =>
      obtain ⟨h1, h2, h3⟩ := h
      cases l <;> cases r <;>
        (simp only [balance]
         split_ifs <;>
           first
             | exact ⟨h1, h2, h3⟩
             | exact CNT_rotateLeft ⟨h1, h2, h3⟩
             | exact CNT_rotateRight ⟨h1, h2, h3⟩
             | exact CNT_rotateRight ⟨by
                 rw [inorderA_rotateLeft]; exact h1,
                 CNT_rotateLeft h2, h3⟩
             | exact CNT_rotateLeft ⟨by
                 rw [inorderA_rotateRight]; exact h1,
                 h2, CNT_rotateRight h3⟩)

/-- Weak binary-search-tree invariant (duplicates admissible on both sides
of an equal key). -/
def BSTA : ATree α → Prop
  | nil => True
  | node l k _ _ r =>
      (∀ p ∈ inorderA l, p ≤ k) ∧ (∀ p ∈ inorderA r, k ≤ p) ∧ BSTA l ∧ BSTA r

theorem BSTA_mk2 {l r : ATree α} {k : α}
    (hl : ∀ p ∈ inorderA l, p ≤ k) (hr : ∀ p ∈ inorderA r, k ≤ p)
    (bl : BSTA l) (br : BSTA r) : BSTA (mk2 l k r) :=
  ⟨hl, hr, bl, br⟩

theorem inorderA_mem_mk2 {l r : ATree α} {k p : α} :
    p ∈ inorderA (mk2 l k r) ↔ p ∈ inorderA l ∨ p = k ∨ p ∈ inorderA r := by
  simp [inorderA_mk2]

theorem BSTA_rotateRight {t : ATree α} (h : BSTA t) : BSTA t.rotateRight := by
  match t with
  | nil => exact h
  | node nil k c ht r => exact h
  | node (node a lk lc lh b) k c ht r =>
      obtain ⟨hL, hR, ⟨ha, hb, ba, bb⟩, br⟩ := h
      have hlk : lk ≤ k := hL lk (by simp [inorderA])
      refine BSTA_mk2 ha ?_ ba (BSTA_mk2 ?_ hR bb br)
      · intro p hp
        rcases inorderA_mem_mk2.mp hp with hp | rfl | hp
        · exact hb p hp
        · exact hlk
        · exact le_trans hlk (hR p hp)
      · intro p hp
        exact hL p (by simp [inorderA, hp])

theorem BSTA_rotateLeft {t : ATree α} (h : BSTA t) : BSTA t.rotateLeft := by
  match t with
  | nil => exact h
  | node l k c ht nil => exact h
  | node l k c ht (node b rk rc rh d) =>
      obtain ⟨hL, hR, bl, ⟨hb, hd, bb, bd⟩⟩ := h
      have hrk : k ≤ rk := hR rk (by simp [inorderA])
      refine BSTA_mk2 ?_ hd (BSTA_mk2 hL ?_ bl bb) bd
      · intro p hp
        rcases inorderA_mem_mk2.mp hp with hp | rfl | hp
        · exact le_trans (hL p hp) hrk
        · exact hrk
        · exact hb p hp
      · intro p hp
        exact hR p (by simp [inorderA, hp])

theorem BSTA_balance {t : ATree α} (h : BSTA t) : BSTA t.balance := by
  cases t with
  | nil => exact h
  | node l k c ht r =>
      obtain ⟨h1, h2, h3, h4⟩ := h
      cases l <;> cases r <;>
        (simp only [balance]
         split_ifs <;>
           first
             | exact ⟨h1, h2, h3, h4⟩
             | exact BSTA_rotateLeft ⟨h1, h2, h3, h4⟩
             | exact BSTA_rotateRight ⟨h1, h2, h3, h4⟩
             | exact BSTA_rotateRight ⟨by
                 intro p hp
                 exact h1 p (by rwa [inorderA_rotateLeft] at hp), h2,
                 BSTA_rotateLeft h3, h4⟩
             | exact BSTA_rotateLeft ⟨h1, by
                 intro p hp
                 exact h2 p (by rwa [inorderA_rotateRight] at hp),
                 h3, BSTA_rotateRight h4⟩)

theorem inorderA_insertA (t : ATree α) (x : α) :
    List.Perm (inorderA (insertA t x)) (x :: inorderA t) := by
  induction t with
  | nil => exact List.Perm.refl _
  | node l k c h r ihl ihr =>
      rw [insertA]
      split_ifs
      · rw [inorderA_balance, inorderA_mk2]
        have h1 := ihl.append_right (k :: inorderA r)
        simpa [inorderA] using h1
      · rw [inorderA_balance, inorderA_mk2]
        have h1 := List.Perm.append_left (inorderA l) (List.Perm.cons k ihr)
        have h2 := @List.perm_middle _ x (inorderA l ++ [k]) (inorderA r)
        refine h1.trans ?_
        simpa [inorderA] using h2

theorem mem_insertA {t : ATree α} {x p : α}
    (hp : p ∈ inorderA (insertA t x)) : p = x ∨ p ∈ inorderA t := by
  have := (inorderA_insertA t x).mem_iff.mp hp
  simpa using this

theorem BSTA_insertA {t : ATree α} (h : BSTA t) (x : α) :
    BSTA (insertA t x) := by
  induction t with
  | nil => exact ⟨by simp [inorderA], by simp [inorderA], trivial, trivial⟩
  | node l k c ht r ihl ihr =>
      obtain ⟨h1, h2, h3, h4⟩ := h
      rw [insertA]
      split_ifs with hc
      · apply BSTA_balance
        refine BSTA_mk2 ?_ h2 (ihl h3) h4
        intro p hp
        rcases mem_insertA hp with rfl | hp
        · exact hc
        · exact h1 p hp
      · apply BSTA_balance
        refine BSTA_mk2 h1 ?_ h3 (ihr h4)
        intro p hp
        rcases mem_insertA hp with rfl | hp
        · exact le_of_not_le hc
        · exact h2 p hp

theorem CNT_insertA {t : ATree α} (h : CNT t) (x : α) : CNT (insertA t x) := by
  induction t with
  | nil => exact ⟨rfl, trivial, trivial⟩
  | node l k c ht r ihl ihr =>
      obtain ⟨h1, h2, h3⟩ := h
      rw [insertA]
      split_ifs
      · exact CNT_balance (CNT_mk2 (ihl h2) h3 k)
      · exact CNT_balance (CNT_mk2 h2 (ihr h3) k)

theorem getMin_cons_dropMinA : ∀ {t : ATree α}, t ≠ nil →
    ∃ m, getMinKey t = some m ∧ m :: inorderA (dropMinA t) = inorderA t
  | nil, h => absurd rfl h
  | node nil k c ht r, _ => ⟨k, rfl, rfl⟩
  | node (node a lk lc lh b) k c ht r, _ => by
      obtain ⟨m, hm, hcons⟩ :=
        getMin_cons_dropMinA (show (node a lk lc lh b : ATree α) ≠ nil by simp)
      refine ⟨m, ?_, ?_⟩
      · rw [show getMinKey (node (node a lk lc lh b) k c ht r) =
          getMinKey (node a lk lc lh b) from rfl, hm]
      · simp only [dropMinA, inorderA_balance, inorderA_mk2]
        rw [show inorderA (node (node a lk lc lh b) k c ht r) =
          inorderA (node a lk lc lh b) ++ k :: inorderA r from rfl, ← hcons]
        simp

theorem mem_dropMinA {t : ATree α} (h : t ≠ nil) {p : α}
    (hp : p ∈ inorderA (dropMinA t)) : p ∈ inorderA t := by
  obtain ⟨m, _, hcons⟩ := getMin_cons_dropMinA h
  rw [← hcons]
  exact List.mem_cons_of_mem _ hp

theorem BSTA_dropMinA : ∀ {t : ATree α}, BSTA t → BSTA (dropMinA t)
  | nil, h => h
  | node nil k c ht r, h => h.2.2.2
  | node (node a lk lc lh b) k c ht r, h => by
      obtain ⟨h1, h2, h3, h4⟩ := h
      apply BSTA_balance
      refine BSTA_mk2 ?_ h2 (BSTA_dropMinA h3) h4
      intro p hp
      exact h1 p (mem_dropMinA (by simp) hp)

theorem CNT_dropMinA : ∀ {t : ATree α}, CNT t → CNT (dropMinA t)
  | nil, h => h
  | node nil k c ht r, h => h.2.2
  | node (node a lk lc lh b) k c ht r, h => by
      obtain ⟨h1, h2, h3⟩ := h
      exact CNT_balance (CNT_mk2 (CNT_dropMinA h2) h3 k)

theorem getMinKey_le : ∀ {t : ATree α}, BSTA t → ∀ m, getMinKey t = some m →
    ∀ p ∈ inorderA t, m ≤ p
  | nil, _, m, hm => by simp [getMinKey] at hm
  | node nil k c ht r, h, m, hm => by
      obtain ⟨h1, h2, h3, h4⟩ := h
      simp only [getMinKey, Option.some.injEq] at hm
      subst hm
      intro p hp
      simp only [inorderA, List.nil_append, List.mem_cons] at hp
      rcases hp with rfl | hp
      · exact le_refl _
      · exact h2 p hp
  | node (node a lk lc lh b) k c ht r, h, m, hm => by
      obtain ⟨h1, h2, h3, h4⟩ := h
      rw [show getMinKey (node (node a lk lc lh b) k c ht r) =
        getMinKey (node a lk lc lh b) from rfl] at hm
      have hmem : m ∈ inorderA (node a lk lc lh b) := by
        obtain ⟨m', hm', hcons⟩ :=
          @getMin_cons_dropMinA _ _ (node a lk lc lh b) (by simp)
        rw [hm'] at hm
        obtain rfl : m' = m := Option.some.injEq .. ▸ hm
        rw [← hcons]
        exact List.mem_cons_self _ _
      intro p hp
      rw [show inorderA (node (node a lk lc lh b) k c ht r) =
        inorderA (node a lk lc lh b) ++ k :: inorderA r from rfl] at hp
      rcases List.mem_append.mp hp with hp | hp
      · exact getMinKey_le h3 m hm p hp
      · rcases List.mem_cons.mp hp with rfl | hp
        · exact h1 _ hmem
        · exact le_trans (h1 _ hmem) (h2 p hp)

theorem msetA_remove_goLeft {l r : ATree α} {k key : α} {c h : Nat}
    (h2 : ∀ p ∈ inorderA r, k ≤ p)
    (ihl : (inorderA (removeA l key).1 : Multiset α) =
        (inorderA l : Multiset α).erase key ∧
      ((removeA l key).2 = true ↔ key ∈ inorderA l))
    (hc1 : key < k) :
    (inorderA (balance (mk2 (removeA l key).1 k r)) : Multiset α) =
        (inorderA (node l k c h r) : Multiset α).erase key ∧
      ((removeA l key).2 = true ↔ key ∈ inorderA (node l k c h r)) := by
  have hxr : key ∉ (k :: inorderA r) := by
    intro hmem
    rcases List.mem_cons.mp hmem with rfl | hmem
    · exact lt_irrefl _ hc1
    · exact absurd (h2 key hmem) (not_le.mpr hc1)
  constructor
  · rw [inorderA_balance, inorderA_mk2,
      show inorderA (node l k c h r) = inorderA l ++ k :: inorderA r from rfl,
      ITree.mset_erase_append_left hxr, ← ihl.1, ← Multiset.coe_add]
  · rw [ihl.2,
      show inorderA (node l k c h r) = inorderA l ++ k :: inorderA r from rfl]
    constructor
    · intro hm
      exact List.mem_append.mpr (Or.inl hm)
    · intro hm
      rcases List.mem_append.mp hm with hm | hm
      · exact hm
      · exact absurd hm hxr

theorem msetA_remove_goRight {l r : ATree α} {k key : α} {c h : Nat}
    (h1 : ∀ p ∈ inorderA l, p ≤ k)
    (ihr : (inorderA (removeA r key).1 : Multiset α) =
        (inorderA r : Multiset α).erase key ∧
      ((removeA r key).2 = true ↔ key ∈ inorderA r))
    (hc2 : k < key) :
    (inorderA (balance (mk2 l k (removeA r key).1)) : Multiset α) =
        (inorderA (node l k c h r) : Multiset α).erase key ∧
      ((removeA r key).2 = true ↔ key ∈ inorderA (node l k c h r)) := by
  have hxl : key ∉ inorderA l := fun hmem =>
    absurd (h1 key hmem) (not_le.mpr hc2)
  constructor
  · rw [inorderA_balance, inorderA_mk2,
      show inorderA (node l k c h r) = inorderA l ++ k :: inorderA r from rfl,
      ITree.mset_erase_append_right hxl, ← Multiset.cons_coe,
      Multiset.erase_cons_tail _ (ne_of_lt hc2), ← ihr.1,
      Multiset.cons_coe, ← Multiset.coe_add]
  · rw [ihr.2,
      show inorderA (node l k c h r) = inorderA l ++ k :: inorderA r from rfl]
    constructor
    · intro hm
      exact List.mem_append.mpr (Or.inr (List.mem_cons_of_mem _ hm))
    · intro hm
      rcases List.mem_append.mp hm with hm | hm
      · exact absurd hm hxl
      · rcases List.mem_cons.mp hm with rfl | hm
        · exact absurd hc2 (lt_irrefl _)
        · exact hm

theorem removeA_spec : ∀ {t : ATree α}, BSTA t → ∀ key : α,
    ((inorderA (removeA t key).1 : Multiset α) =
        (inorderA t : Multiset α).erase key) ∧
      ((removeA t key).2 = true ↔ key ∈ inorderA t) := by
  intro t
  induction t with
  | nil =>
      intro _ key
      exact ⟨by simp [removeA, inorderA], by simp [removeA, inorderA]⟩
  | node l k c h r ihl ihr =>
      intro hb key
      obtain ⟨h1, h2, h3, h4⟩ := hb
      cases l with
      | nil =>
          rw [removeA.eq_2]
          split_ifs with hc1 hc2
          · exact msetA_remove_goLeft h2 (ihl h3 key) hc1
          · exact msetA_remove_goRight h1 (ihr h4 key) hc2
          · have hk : k = key := le_antisymm (not_lt.mp hc1) (not_lt.mp hc2)
            subst hk
            constructor
            · rw [show inorderA (node nil k c h r) = k :: inorderA r from rfl,
                ← Multiset.cons_coe, Multiset.erase_cons_head]
            · simp [inorderA]
      | node la lk lc lh lb =>
          cases r with
          | nil =>
              rw [removeA.eq_3 _ _ _ _ _ (fun hc => ATree.noConfusion hc)]
              split_ifs with hc1 hc2
              · exact msetA_remove_goLeft h2 (ihl h3 key) hc1
              · exact msetA_remove_goRight h1 (ihr h4 key) hc2
              · have hk : k = key := le_antisymm (not_lt.mp hc1) (not_lt.mp hc2)
                subst hk
                constructor
                · rw [show inorderA (node (node la lk lc lh lb) k c h nil) =
                      inorderA (node la lk lc lh lb) ++ k :: inorderA nil
                        from rfl,
                    ← Multiset.coe_add, ← Multiset.cons_coe,
                    Multiset.erase_add_right_pos _ (Multiset.mem_cons_self _ _),
                    Multiset.erase_cons_head]
                  simp [inorderA]
                · simp [inorderA]
          | node ra rk rc rh rb =>
              rw [removeA.eq_4 _ _ _ _ _ _ (fun hc => ATree.noConfusion hc)
                (fun hc => ATree.noConfusion hc)]
              split_ifs with hc1 hc2
              · exact msetA_remove_goLeft h2 (ihl h3 key) hc1
              · exact msetA_remove_goRight h1 (ihr h4 key) hc2
              · have hk : k = key := le_antisymm (not_lt.mp hc1) (not_lt.mp hc2)
                subst hk
                obtain ⟨m, hm, hcons⟩ := getMin_cons_dropMinA
                  (show (node ra rk rc rh rb : ATree α) ≠ nil by simp)
                constructor
                · show (inorderA (balance (mk2 (node la lk lc lh lb)
                      ((getMinKey (node ra rk rc rh rb)).getD k)
                      (dropMinA (node ra rk rc rh rb)))) : Multiset α) = _
                  rw [inorderA_balance, inorderA_mk2, hm, Option.getD_some,
                    hcons,
                    show inorderA (node (node la lk lc lh lb) k c h
                        (node ra rk rc rh rb)) =
                      inorderA (node la lk lc lh lb) ++
                        k :: inorderA (node ra rk rc rh rb) from rfl,
                    ← Multiset.coe_add, ← Multiset.coe_add, ← Multiset.cons_coe,

                    Multiset.erase_add_right_pos _ (Multiset.mem_cons_self _ _),
                    Multiset.erase_cons_head]
                · simp [inorderA]

theorem mem_removeA {t : ATree α} {key p : α} (h : BSTA t)
    (hp : p ∈ inorderA (removeA t key).1) : p ∈ inorderA t := by
  have hmset := (removeA_spec h key).1
  have hin : p ∈ (inorderA t : Multiset α).erase key := by
    rw [← hmset]
    exact Multiset.mem_coe.mpr hp
  exact Multiset.mem_coe.mp (Multiset.mem_of_mem_erase hin)

theorem BSTA_removeA : ∀ {t : ATree α}, BSTA t → ∀ key : α,
    BSTA (removeA t key).1 := by
  intro t
  induction t with
  | nil => intro h _; exact h
  | node l k c h r ihl ihr =>
      intro hb key
      obtain ⟨h1, h2, h3, h4⟩ := hb
      cases l with
      | nil =>
          rw [removeA.eq_2]
          split_ifs
          · exact BSTA_balance (BSTA_mk2
              (fun p hp => h1 p (mem_removeA h3 hp)) h2 (ihl h3 key) h4)
          · exact BSTA_balance (BSTA_mk2 h1
              (fun p hp => h2 p (mem_removeA h4 hp)) h3 (ihr h4 key))
          · exact h4
      | node la lk lc lh lb =>
          cases r with
          | nil =>
              rw [removeA.eq_3 _ _ _ _ _ (fun hc => ATree.noConfusion hc)]
              split_ifs
              · exact BSTA_balance (BSTA_mk2
                  (fun p hp => h1 p (mem_removeA h3 hp)) h2 (ihl h3 key) h4)
              · exact BSTA_balance (BSTA_mk2 h1
                  (fun p hp => h2 p (mem_removeA h4 hp)) h3 (ihr h4 key))
              · exact h3
          | node ra rk rc rh rb =>
              rw [removeA.eq_4 _ _ _ _ _ _ (fun hc => ATree.noConfusion hc)
                (fun hc => ATree.noConfusion hc)]
              split_ifs with hc1 hc2
              · exact BSTA_balance (BSTA_mk2
                  (fun p hp => h1 p (mem_removeA h3 hp)) h2 (ihl h3 key) h4)
              · exact BSTA_balance (BSTA_mk2 h1
                  (fun p hp => h2 p (mem_removeA h4 hp)) h3 (ihr h4 key))
              · show BSTA (balance (mk2 (node la lk lc lh lb)
                  ((getMinKey (node ra rk rc rh rb)).getD k)
                  (dropMinA (node ra rk rc rh rb))))
                apply BSTA_balance
                obtain ⟨m, hm, hcons⟩ := getMin_cons_dropMinA
                  (show (node ra rk rc rh rb : ATree α) ≠ nil by simp)
                have hmmem : m ∈ inorderA (node ra rk rc rh rb) := by
                  rw [← hcons]
                  exact List.mem_cons_self _ _
                rw [hm, Option.getD_some]
                refine BSTA_mk2 ?_ ?_ h3 (BSTA_dropMinA h4)
                · intro p hp
                  exact le_trans (h1 p hp) (h2 _ hmmem)
                · intro p hp
                  exact getMinKey_le h4 m hm p (mem_dropMinA (by simp) hp)

theorem CNT_removeA : ∀ {t : ATree α}, CNT t → ∀ key : α,
    CNT (removeA t key).1 := by
  intro t
  induction t with
  | nil => intro h _; exact h
  | node l k c h r ihl ihr =>
      intro hb key
      obtain ⟨h1, h2, h3⟩ := hb
      cases l with
      | nil =>
          rw [removeA.eq_2]
          split_ifs
          · exact CNT_balance (CNT_mk2 (ihl h2 key) h3 k)
          · exact CNT_balance (CNT_mk2 h2 (ihr h3 key) k)
          · exact h3
      | node la lk lc lh lb =>
          cases r with
          | nil =>
              rw [removeA.eq_3 _ _ _ _ _ (fun hc => ATree.noConfusion hc)]
              split_ifs
              · exact CNT_balance (CNT_mk2 (ihl h2 key) h3 k)
              · exact CNT_balance (CNT_mk2 h2 (ihr h3 key) k)
              · exact h2
          | node ra rk rc rh rb =>
              rw [removeA.eq_4 _ _ _ _ _ _ (fun hc => ATree.noConfusion hc)
                (fun hc => ATree.noConfusion hc)]
              split_ifs
              · exact CNT_balance (CNT_mk2 (ihl h2 key) h3 k)
              · exact CNT_balance (CNT_mk2 h2 (ihr h3 key) k)
              · exact CNT_balance (CNT_mk2 h2 (CNT_dropMinA h3) _)

theorem searchNth_eq : ∀ {t : ATree α}, CNT t → ∀ n : Nat,
    searchNth t n = (inorderA t).get? n := by
  intro t
  induction t with
  | nil => intro _ n; simp [searchNth, inorderA]
  | node l k c h r ihl ihr =>
      intro hc n
      obtain ⟨h1, h2, h3⟩ := hc
      rw [show searchNth (node l k c h r) n =
          (if getCount l = n then some k
           else if getCount l > n then searchNth l n
           else searchNth r (n - getCount l - 1)) from rfl,
        show inorderA (node l k c h r) = inorderA l ++ k :: inorderA r
          from rfl]
      rw [getCount_eq h2]
      split_ifs with he hl
      · rw [List.get?_append_right (le_of_eq he), he, Nat.sub_self]
        rfl
      · rw [List.get?_append hl]
        exact ihl h2 n
      · have hge : (inorderA l).length < n := by omega
        rw [List.get?_append_right (le_of_lt hge),
          show n - (inorderA l).length =
            (n - (inorderA l).length - 1) + 1 by omega,
          List.get?_cons_succ]
        exact ihr h3 _

theorem sorted_inorderA : ∀ {t : ATree α}, BSTA t →
    (inorderA t).Pairwise (fun a b => a ≤ b)
  | nil, _ => List.Pairwise.nil
  | node l k c h r, ⟨h1, h2, h3, h4⟩ => by
      rw [show inorderA (node l k c h r) = inorderA l ++ k :: inorderA r
        from rfl]
      rw [List.pairwise_append]
      refine ⟨sorted_inorderA h3, ?_, ?_⟩
      · rw [List.pairwise_cons]
        exact ⟨h2, sorted_inorderA h4⟩
      · intro a ha b hb
        rcases List.mem_cons.mp hb with rfl | hb
        · exact h1 a ha
        · exact le_trans (h1 a ha) (h2 b hb)

theorem collectKeys_perm (t : ATree α) :
    List.Perm (collectKeys t) (inorderA t) := by
  induction t with
  | nil => exact List.Perm.refl _
  | node l k c h r ihl ihr =>
      show List.Perm (k :: (collectKeys l ++ collectKeys r))
        (inorderA l ++ k :: inorderA r)
      exact (List.Perm.cons k (ihl.append ihr)).trans List.perm_middle.symm

end ATree

/-- One `AVLTree` client call (the public mutating interface). -/
inductive AVLOp (α : Type) where
  | ins : α → AVLOp α
  | rem : α → AVLOp α
deriving Repr

def applyAVLOp {α : Type} [LinearOrder α] (t : AVLTree α) :
    AVLOp α → AVLTree α
  | AVLOp.ins k => t.insert k
  | AVLOp.rem k => t.remove k

def applyAVLOps {α : Type} [LinearOrder α] (t : AVLTree α) :
    List (AVLOp α) → AVLTree α
  | [] => t
  | op :: ops => applyAVLOps (applyAVLOp t op) ops

namespace AVLTree

variable {α : Type} [LinearOrder α]

/-- The class invariant of `AVLTree`: the root is a (weak) binary search
tree, the cached `count` fields are correct, and `nodeCount` equals the
number of stored keys. -/
def WF (t : AVLTree α) : Prop :=
  ATree.BSTA t.root ∧ ATree.CNT t.root ∧
    t.nodeCount = (ATree.inorderA t.root).length

theorem WF_empty : (empty : AVLTree α).WF :=
  ⟨trivial, trivial, rfl⟩

theorem WF_insert {t : AVLTree α} (h : t.WF) (k : α) : (t.insert k).WF := by
  obtain ⟨h1, h2, h3⟩ := h
  refine ⟨ATree.BSTA_insertA h1 k, ATree.CNT_insertA h2 k, ?_⟩
  show t.nodeCount + 1 = (ATree.inorderA (ATree.insertA t.root k)).length
  rw [(ATree.inorderA_insertA t.root k).length_eq, List.length_cons, h3]

theorem WF_remove {t : AVLTree α} (h : t.WF) (k : α) : (t.remove k).WF := by
  obtain ⟨h1, h2, h3⟩ := h
  obtain ⟨hmset, hfound⟩ := ATree.removeA_spec h1 k
  refine ⟨ATree.BSTA_removeA h1 k, ATree.CNT_removeA h2 k, ?_⟩
  show (if (ATree.removeA t.root k).2 then t.nodeCount - 1 else t.nodeCount) =
    (ATree.inorderA (ATree.removeA t.root k).1).length
  have hcard : (ATree.inorderA (ATree.removeA t.root k).1).length =
      Multiset.card ((ATree.inorderA t.root : Multiset α).erase k) := by
    rw [← hmset, Multiset.coe_card]
  by_cases hmem : k ∈ ATree.inorderA t.root
  · rw [if_pos (hfound.mpr hmem), hcard,
      Multiset.card_erase_of_mem (Multiset.mem_coe.mpr hmem),
      Multiset.coe_card, h3]
    rfl
  · rw [if_neg (by simp [hfound, hmem]), hcard,
      Multiset.erase_of_not_mem (fun hc => hmem (Multiset.mem_coe.mp hc)),
      Multiset.coe_card, h3]

theorem WF_applyAVLOps {t : AVLTree α} (h : t.WF) :
    ∀ ops : List (AVLOp α), (applyAVLOps t ops).WF := by
  intro ops
  induction ops generalizing t with
  | nil => exact h
  | cons op ops ih =>
      show (applyAVLOps (applyAVLOp t op) ops).WF
      cases op with
      | ins k => exact ih (WF_insert h k)
      | rem k => exact ih (WF_remove h k)

theorem getNth_eq {t : AVLTree α} (h : t.WF) (n : Nat) :
    t.getNth n = (ATree.inorderA t.root).get? n := by
  rw [show t.getNth n =
    (if t.nodeCount ≤ n then none else ATree.searchNth t.root n) from rfl]
  split_ifs with hn
  · rw [eq_comm, List.get?_eq_none]
    rw [h.2.2] at hn
    exact hn
  · exact ATree.searchNth_eq h.2.1 n

end AVLTree

def avlCex : AVLTree Nat := AVLTree.insert (AVLTree.insert AVLTree.empty 2) 1

/-- C9: the claim that `collectKeys` lists the stored keys in in-order
(sorted) sequence, with the i-th element equal to `getNth i`, is FALSE:
`collectKeysHelper` pushes the node key before recursing, so the traversal
is pre-order.  After inserting 2 then 1, `collectKeys` returns `[2, 1]`
while `getNth` enumerates `1, 2`. -/
theorem avlTree_collectKeys_claim_false :
    ¬ (∀ i, i < avlCex.nodeCount →
        avlCex.collectKeys.get? i = avlCex.getNth i) := by
  decide

/-- C9 (amended): for every AVL tree reachable from an empty tree by any
sequence of `insert`/`remove` calls, `collectKeys` returns exactly the
stored keys, but as a pre-order permutation of the in-order sequence;
the in-order sequence itself is sorted (nondecreasing), `nodeCount` is
the number of stored keys, and it is `getNth` that enumerates the keys in
in-order (sorted) order. -/
theorem avlTree_collectKeys_amended {α : Type} [LinearOrder α]
    (ops : List (AVLOp α)) :
    List.Perm (AVLTree.collectKeys (applyAVLOps AVLTree.empty ops))
        (ATree.inorderA (applyAVLOps AVLTree.empty ops).root) ∧
      (ATree.inorderA (applyAVLOps AVLTree.empty ops).root).Pairwise
        (fun a b => a ≤ b) ∧
      (applyAVLOps AVLTree.empty ops).nodeCount =
        (ATree.inorderA (applyAVLOps AVLTree.empty ops).root).length ∧
      ∀ i, (applyAVLOps AVLTree.empty ops).getNth i =
        (ATree.inorderA (applyAVLOps AVLTree.empty ops).root).get? i := by
  have hwf := AVLTree.WF_applyAVLOps (AVLTree.WF_empty (α := α)) ops
  exact ⟨ATree.collectKeys_perm _, ATree.sorted_inorderA hwf.1, hwf.2.2,
    fun i => AVLTree.getNth_eq hwf i⟩


namespace Seg

/-- A `SegmentTreeNode<ElemT>`: `value`, `lazy`, the range `[lo, hi]`, and
either no children yet (`leafless`, both pointers null) or both children
(`branch`; `allocateChildren` always allocates the two together). -/
inductive SNode where
  | leafless : Nat → Nat → Nat → Nat → SNode
  | branch : Nat → Nat → Nat → Nat → SNode → SNode → SNode
deriving Repr

def SNode.value : SNode → Nat
  | SNode.leafless v _ _ _ => v
  | SNode.branch v _ _ _ _ _ => v

def SNode.lazyAcc : SNode → Nat
  | SNode.leafless _ lz _ _ => lz
  | SNode.branch _ lz _ _ _ _ => lz

def SNode.lo : SNode → Nat
  | SNode.leafless _ _ lo _ => lo
  | SNode.branch _ _ lo _ _ _ => lo

def SNode.hi : SNode → Nat
  | SNode.leafless _ _ _ hi => hi
  | SNode.branch _ _ _ hi _ _ => hi

def SNode.range (nd : SNode) : Nat × Nat := (nd.lo, nd.hi)

/-- The three virtuals of a `SegmentTree<ElemT>` subclass together with the
`neutral` element (the element type is embedded into `Nat`). -/
structure SegOps where
  update : Nat → Nat → Nat
  accum : Nat → Nat → Nat
  multiAcc : Nat → Nat → Nat
  neutral : Nat

/-- `SegmentTreePlusMax<ElemT>` for an unbounded unsigned element type:
`update = +`, `accumulate = max`, `multiAccumulate(times, v) = v`,
`neutral = numeric_limits::min() = 0`. -/
def plusMaxOps : SegOps :=
  ⟨fun x y => x + y, fun x y => max x y, fun _ v => v, 0⟩

/-- `SegmentTreePlusMax<uint8_t>`: the same virtuals with the addition
performed on 8-bit unsigned values, i.e. modulo 256. -/
def plusMaxU8Ops : SegOps :=
  ⟨fun x y => (x + y) % 256, fun x y => max x y, fun _ v => v, 0⟩

/-- `SegmentTree::contains(segA, segB)`. -/
def containsB (segA segB : Nat × Nat) : Bool :=
  decide (segA.1 ≤ segB.1 ∧ segB.2 ≤ segA.2)

/-- `SegmentTree::nonemptyOverlap(segA, segB)`. -/
def nonemptyOverlapB (segA segB : Nat × Nat) : Bool :=
  decide (max segA.1 segB.1 ≤ min segA.2 segB.2)

/-- `SegmentTree::overlapSize` (only ever evaluated on overlapping
segments; `Nat` subtraction truncates otherwise). -/
def overlapSize (segA segB : Nat × Nat) : Nat :=
  min segA.2 segB.2 - max segA.1 segB.1 + 1

/-- `SegmentTree::segmentSize`. -/
def segmentSize (range : Nat × Nat) : Nat := range.2 - range.1 + 1

/-- `SegmentTree::allocateChildren`: a no-op on an inner node that already
has children and on a leaf; otherwise splits `[lo, hi]` at
`lo + (hi - lo) / 2` into two fresh zero-initialised children. -/
def allocateChildren : SNode → SNode
  | SNode.leafless v lz lo hi =>
      if lo = hi then SNode.leafless v lz lo hi
      else
        SNode.branch v lz lo hi
          (SNode.leafless 0 0 lo (lo + (hi - lo) / 2))
          (SNode.leafless 0 0 (lo + (hi - lo) / 2 + 1) hi)
  | SNode.branch v lz lo hi l r => SNode.branch v lz lo hi l r

/-- Add a lazy amount to a child node exactly as `propagateDown` does:
`lazy = update(lazy, amt)` and `value = update(value, multiAccumulate(sz, amt))`. -/
def SNode.addLazy (ops : SegOps) (amt sz : Nat) : SNode → SNode
  | SNode.leafless v lz lo hi =>
      SNode.leafless (ops.update v (ops.multiAcc sz amt)) (ops.update lz amt) lo hi
  | SNode.branch v lz lo hi l r =>
      SNode.branch (ops.update v (ops.multiAcc sz amt)) (ops.update lz amt) lo hi l r

/-- `SegmentTree::propagateDown`. -/
def propagateDown (ops : SegOps) : SNode → SNode
  | SNode.leafless v _ lo hi => SNode.leafless v 0 lo hi
  | SNode.branch v lz lo hi l r =>
      SNode.branch v 0 lo hi
        (SNode.addLazy ops lz (segmentSize (lo, hi) / 2) l)
        (SNode.addLazy ops lz (segmentSize (lo, hi) / 2) r)

/-- `SegmentTree::insertHelper` (fuel-indexed: the range of any child is
strictly shorter than its parent's, so `hi - lo` units of fuel always
suffice; the fuel-exhausted and non-`branch` fallbacks are unreachable
under the well-formedness invariant). -/
def insertGo (ops : SegOps) : Nat → SNode → Nat × Nat → Nat → SNode
  | fuel, nd, q, v =>
    if containsB q nd.range then
      match nd with
      | SNode.leafless nv lz lo hi =>
          SNode.leafless (ops.update nv (ops.multiAcc (overlapSize q (lo, hi)) v))
            (ops.update lz v) lo hi
      | SNode.branch nv lz lo hi l r =>
          SNode.branch (ops.update nv (ops.multiAcc (overlapSize q (lo, hi)) v))
            (ops.update lz v) lo hi l r
    else if nonemptyOverlapB q nd.range then
      match fuel with
      | 0 => nd
      | fuel + 1 =>
        match propagateDown ops (allocateChildren nd) with
        | SNode.branch nv lz lo hi l r =>
            let l2 := insertGo ops fuel l q v
            let r2 := insertGo ops fuel r q v
            SNode.branch (ops.accum l2.value r2.value) lz lo hi l2 r2
        | nd2 => nd2
    else nd

/-- `SegmentTree::queryHelper` (also returns the mutated tree: the C++
routine allocates children and pushes lazy values down as side effects). -/
def queryGo (ops : SegOps) : Nat → SNode → Nat × Nat → Nat × SNode
  | fuel, nd, q =>
    if containsB q nd.range then (nd.value, nd)
    else if nonemptyOverlapB q nd.range then
      match fuel with
      | 0 => (ops.neutral, nd)
      | fuel + 1 =>
        match propagateDown ops (allocateChildren nd) with
        | SNode.branch nv lz lo hi l r =>
            let lres := queryGo ops fuel l q
            let rres := queryGo ops fuel r q
            (ops.accum lres.1 rres.1, SNode.branch nv lz lo hi lres.2 rres.2)
        | nd2 => (ops.neutral, nd2)
    else (ops.neutral, nd)

/-- The `while (p < size) p *= 2` loop of `SegmentTree::getRootRange`
(fuel-indexed; `size` iterations always suffice since `p` doubles). -/
def powGo (sz : Nat) : Nat → Nat → Nat
  | 0, p => p
  | fuel + 1, p => if p < sz then powGo sz fuel (p * 2) else p

/-- `SegmentTree::getRootRange`. -/
def getRootRange (sz : Nat) : Nat × Nat := (0, powGo sz sz 1 - 1)

/-- The `SegmentTree` object: declared size and root node (the `neutral`
and the virtuals live in `SegOps`). -/
structure SegTree where
  size : Nat
  root : SNode
deriving Repr

/-- The `SegmentTree(size, neutral)` constructor. -/
def mkTree (sz : Nat) : SegTree :=
  ⟨sz, SNode.leafless 0 0 (getRootRange sz).1 (getRootRange sz).2⟩

/-- `SegmentTree::insert` (the asserts `0 ≤ l ≤ r < size` are hypotheses
of the theorems below). -/
def SegTree.insert (ops : SegOps) (t : SegTree) (l r v : Nat) : SegTree :=
  ⟨t.size, insertGo ops (t.root.hi - t.root.lo) t.root (l, r) v⟩

/-- `SegmentTree::query`. -/
def SegTree.query (ops : SegOps) (t : SegTree) (l r : Nat) : Nat × SegTree :=
  let res := queryGo ops (t.root.hi - t.root.lo) t.root (l, r)
  (res.1, ⟨t.size, res.2⟩)

/-- One public `SegmentTree` call. -/
inductive SegAct where
  | ins : Nat → Nat → Nat → SegAct
  | qry : Nat → Nat → SegAct
deriving Repr

/-- Bounds checks of the public interface (`assert`s in `insert`/`query`). -/
def SegAct.okB (sz : Nat) : SegAct → Bool
  | SegAct.ins l r _ => decide (l ≤ r ∧ r < sz)
  | SegAct.qry l r => decide (l ≤ r ∧ r < sz)

/-- Run an interleaved sequence of inserts and queries, collecting the
query results in order. -/
def runSeg (ops : SegOps) (t : SegTree) : List SegAct → List Nat × SegTree
  | [] => ([], t)
  | SegAct.ins l r v :: acts => runSeg ops (t.insert ops l r v) acts
  | SegAct.qry l r :: acts =>
      let res := t.query ops l r
      let rest := runSeg ops res.2 acts
      (res.1 :: rest.1, rest.2)

/-- Pointwise effect of one range update on the specification function. -/
def applyUpd (f : Nat → Nat) (l r v : Nat) : Nat → Nat :=
  fun i => if l ≤ i ∧ i ≤ r then f i + v else f i

def rangeMaxGo (f : Nat → Nat) : Nat → Nat → Nat
  | 0, _ => 0
  | n + 1, i => max (f i) (rangeMaxGo f n (i + 1))

/-- `max` of `f` over the index window `[lo, hi]` (`0` if empty). -/
def rangeMaxF (f : Nat → Nat) (lo hi : Nat) : Nat :=
  rangeMaxGo f (hi + 1 - lo) lo

/-- Specification run: each query answers the max over its window of the
pointwise sum of all prior updates covering the index. -/
def specRun (f : Nat → Nat) : List SegAct → List Nat
  | [] => []
  | SegAct.ins l r v :: acts => specRun (applyUpd f l r v) acts
  | SegAct.qry l r :: acts => rangeMaxF f l r :: specRun f acts


/-- Structural well-formedness: each inner node's children halve its
range exactly as `allocateChildren` builds them. -/
def WFS : SNode → Prop
  | SNode.leafless _ _ lo hi => lo ≤ hi
  | SNode.branch _ _ lo hi l r =>
      lo < hi ∧ l.lo = lo ∧ l.hi = lo + (hi - lo) / 2 ∧
        r.lo = lo + (hi - lo) / 2 + 1 ∧ r.hi = hi ∧ WFS l ∧ WFS r

/-- Value/lazy invariant of the (+, max) instantiation over `Nat`. -/
def VINV : SNode → Prop
  | SNode.leafless v lz _ _ => v = lz
  | SNode.branch v lz _ _ l r => v = lz + max l.value r.value ∧ VINV l ∧ VINV r

/-- The pointwise index function represented by a subtree (only its
values on `[lo, hi]` are meaningful). -/
def reprF : SNode → Nat → Nat
  | SNode.leafless _ lz _ _, _ => lz
  | SNode.branch _ lz _ _ l r, i =>
      lz + (if i ≤ l.hi then reprF l i else reprF r i)

theorem rangeMaxGo_congr {f g : Nat → Nat} : ∀ n i,
    (∀ j, j < n → f (i + j) = g (i + j)) →
    rangeMaxGo f n i = rangeMaxGo g n i
  | 0, _, _ => rfl
  | n + 1, i, h => by
      have h0 : f i = g i := by simpa using h 0 (Nat.succ_pos n)
      have hrec : rangeMaxGo f n (i + 1) = rangeMaxGo g n (i + 1) :=
        rangeMaxGo_congr n (i + 1) (fun j hj => by
          have h2 := h (j + 1) (by omega)
          rw [show i + (j + 1) = i + 1 + j by omega] at h2
          exact h2)
      show max (f i) (rangeMaxGo f n (i + 1)) =
        max (g i) (rangeMaxGo g n (i + 1))
      rw [h0, hrec]

theorem rangeMaxGo_zero : ∀ n i, rangeMaxGo (fun _ => 0) n i = 0
  | 0, _ => rfl
  | n + 1, i => by
      show max 0 (rangeMaxGo (fun _ => 0) n (i + 1)) = 0
      rw [rangeMaxGo_zero n (i + 1)]
      omega

theorem rangeMaxGo_const (c : Nat) : ∀ n i,
    rangeMaxGo (fun _ => c) (n + 1) i = c
  | 0, i => by
      show max c (rangeMaxGo (fun _ => c) 0 (i + 1)) = c
      show max c 0 = c
      exact Nat.max_zero c
  | n + 1, i => by
      show max c (rangeMaxGo (fun _ => c) (n + 1) (i + 1)) = c
      rw [rangeMaxGo_const c n (i + 1), Nat.max_self]

theorem rangeMaxGo_split (f : Nat → Nat) : ∀ a b i,
    rangeMaxGo f (a + b) i =
      max (rangeMaxGo f a i) (rangeMaxGo f b (i + a))
  | 0, b, i => by
      show rangeMaxGo f (0 + b) i = max (rangeMaxGo f 0 i) (rangeMaxGo f b (i + 0))
      rw [Nat.zero_add, Nat.add_zero]
      show rangeMaxGo f b i = max 0 (rangeMaxGo f b i)
      rw [Nat.zero_max]
  | a + 1, b, i => by
      rw [show a + 1 + b = (a + b) + 1 by omega]
      show max (f i) (rangeMaxGo f (a + b) (i + 1)) =
        max (rangeMaxGo f (a + 1) i) (rangeMaxGo f b (i + (a + 1)))
      rw [rangeMaxGo_split f a b (i + 1),
        show i + 1 + a = i + (a + 1) by omega,
        show rangeMaxGo f (a + 1) i = max (f i) (rangeMaxGo f a (i + 1))
          from rfl]
      omega

theorem rangeMaxGo_addc (c : Nat) (f : Nat → Nat) : ∀ n i,
    rangeMaxGo (fun j => c + f j) (n + 1) i = c + rangeMaxGo f (n + 1) i
  | 0, i => by
      show max (c + f i) (rangeMaxGo (fun j => c + f j) 0 (i + 1)) =
        c + max (f i) (rangeMaxGo f 0 (i + 1))
      show max (c + f i) 0 = c + max (f i) 0
      omega
  | n + 1, i => by
      show max (c + f i) (rangeMaxGo (fun j => c + f j) (n + 1) (i + 1)) =
        c + max (f i) (rangeMaxGo f (n + 1) (i + 1))
      rw [rangeMaxGo_addc c f n (i + 1)]
      omega

theorem rangeMaxF_congr {f g : Nat → Nat} {lo hi : Nat}
    (h : ∀ i, lo ≤ i → i ≤ hi → f i = g i) :
    rangeMaxF f lo hi = rangeMaxF g lo hi := by
  exact rangeMaxGo_congr (hi + 1 - lo) lo (fun j hj =>
    h (lo + j) (by omega) (by omega))

theorem rangeMaxF_zeroF (lo hi : Nat) : rangeMaxF (fun _ => 0) lo hi = 0 :=
  rangeMaxGo_zero _ _

theorem rangeMaxF_const (c : Nat) {lo hi : Nat} (h : lo ≤ hi) :
    rangeMaxF (fun _ => c) lo hi = c := by
  rw [show rangeMaxF (fun _ => c) lo hi =
    rangeMaxGo (fun _ => c) (hi + 1 - lo) lo from rfl,
    show hi + 1 - lo = (hi - lo) + 1 by omega]
  exact rangeMaxGo_const c (hi - lo) lo

theorem rangeMaxF_add (c : Nat) (f : Nat → Nat) {lo hi : Nat} (h : lo ≤ hi) :
    rangeMaxF (fun i => c + f i) lo hi = c + rangeMaxF f lo hi := by
  rw [show rangeMaxF (fun i => c + f i) lo hi =
    rangeMaxGo (fun i => c + f i) (hi + 1 - lo) lo from rfl,
    show rangeMaxF f lo hi = rangeMaxGo f (hi + 1 - lo) lo from rfl,
    show hi + 1 - lo = (hi - lo) + 1 by omega]
  exact rangeMaxGo_addc c f (hi - lo) lo

theorem rangeMaxF_split (f : Nat → Nat) {lo m hi : Nat}
    (h1 : lo ≤ m) (h2 : m < hi) :
    rangeMaxF f lo hi = max (rangeMaxF f lo m) (rangeMaxF f (m + 1) hi) := by
  rw [show rangeMaxF f lo hi = rangeMaxGo f (hi + 1 - lo) lo from rfl,
    show rangeMaxF f lo m = rangeMaxGo f (m + 1 - lo) lo from rfl,
    show rangeMaxF f (m + 1) hi = rangeMaxGo f (hi + 1 - (m + 1)) (m + 1)
      from rfl,
    show hi + 1 - lo = (m + 1 - lo) + (hi + 1 - (m + 1)) by omega,
    rangeMaxGo_split f (m + 1 - lo) (hi + 1 - (m + 1)) lo,
    show lo + (m + 1 - lo) = m + 1 by omega]

theorem rangeMaxF_window (f : Nat → Nat) {lo l r hi : Nat}
    (h1 : lo ≤ l) (h2 : l ≤ r) (h3 : r ≤ hi) :
    rangeMaxF (fun i => if l ≤ i ∧ i ≤ r then f i else 0) lo hi =
      rangeMaxF f l r := by
  have hmid : ∀ lo2, l ≤ lo2 →
      rangeMaxF (fun i => if l ≤ i ∧ i ≤ r then f i else 0) lo2 r =
        rangeMaxF f lo2 r :=
    fun lo2 hlo2 => rangeMaxF_congr (fun i hi1 hi2 => by
      rw [if_pos ⟨le_trans hlo2 hi1, hi2⟩])
  have hstep1 : rangeMaxF (fun i => if l ≤ i ∧ i ≤ r then f i else 0) lo hi =
      rangeMaxF (fun i => if l ≤ i ∧ i ≤ r then f i else 0) l hi := by
    rcases Nat.eq_or_lt_of_le h1 with heq | hlt
    · rw [heq]
    · rw [rangeMaxF_split _ (show lo ≤ l - 1 by omega) (show l - 1 < hi by omega),
        show l - 1 + 1 = l by omega,
        show rangeMaxF (fun i => if l ≤ i ∧ i ≤ r then f i else 0) lo (l - 1) =
          rangeMaxF (fun _ => 0) lo (l - 1) from
          rangeMaxF_congr (fun i hi1 hi2 => by
            rw [if_neg (by omega)]),
        rangeMaxF_zeroF, Nat.zero_max]
  rw [hstep1]
  rcases Nat.eq_or_lt_of_le h3 with heq | hlt
  · rw [← heq]
    exact hmid l (le_refl l)
  · rw [rangeMaxF_split _ (show l ≤ r by omega) hlt,
      show rangeMaxF (fun i => if l ≤ i ∧ i ≤ r then f i else 0) (r + 1) hi =
        rangeMaxF (fun _ => 0) (r + 1) hi from
        rangeMaxF_congr (fun i hi1 hi2 => by
          rw [if_neg (by omega)]),
      rangeMaxF_zeroF, Nat.max_zero, hmid l (le_refl l)]

theorem addLazy_lo (ops : SegOps) (amt sz : Nat) (c : SNode) :
    (SNode.addLazy ops amt sz c).lo = c.lo := by
  cases c <;> rfl

theorem addLazy_hi (ops : SegOps) (amt sz : Nat) (c : SNode) :
    (SNode.addLazy ops amt sz c).hi = c.hi := by
  cases c <;> rfl

theorem addLazy_WFS {c : SNode} (hw : WFS c) (ops : SegOps) (amt sz : Nat) :
    WFS (SNode.addLazy ops amt sz c) := by
  cases c with
  | leafless v lz lo hi => exact hw
  | branch v lz lo hi l r => exact hw

theorem addLazy_value (amt sz : Nat) (c : SNode) :
    (SNode.addLazy plusMaxOps amt sz c).value = c.value + amt := by
  cases c <;> rfl

theorem addLazy_VINV {c : SNode} (hv : VINV c) (amt sz : Nat) :
    VINV (SNode.addLazy plusMaxOps amt sz c) := by
  cases c with
  | leafless v lz lo hi =>
      show v + amt = lz + amt
      rw [show v = lz from hv]
  | branch v lz lo hi l r =>
      obtain ⟨h1, h2, h3⟩ := hv
      refine ⟨?_, h2, h3⟩
      show v + amt = (lz + amt) + max l.value r.value
      omega

theorem addLazy_reprF (amt sz : Nat) (c : SNode) (i : Nat) :
    reprF (SNode.addLazy plusMaxOps amt sz c) i = amt + reprF c i := by
  cases c with
  | leafless v lz lo hi =>
      show lz + amt = amt + lz
      omega
  | branch v lz lo hi l r =>
      show (lz + amt) + (if i ≤ l.hi then reprF l i else reprF r i) =
        amt + (lz + (if i ≤ l.hi then reprF l i else reprF r i))
      omega

/-- Effect of `allocateChildren` followed by `propagateDown` on a
non-leaf node: the result is a `branch` with zero lazy, the same value,
range and represented function, and intact invariants. -/
theorem allocProp_spec {nd : SNode} (hw : WFS nd) (hv : VINV nd)
    (hlt : nd.lo < nd.hi) :
    ∃ l r, propagateDown plusMaxOps (allocateChildren nd) =
        SNode.branch nd.value 0 nd.lo nd.hi l r ∧
      WFS (SNode.branch nd.value 0 nd.lo nd.hi l r) ∧
      VINV (SNode.branch nd.value 0 nd.lo nd.hi l r) ∧
      ∀ i, reprF (SNode.branch nd.value 0 nd.lo nd.hi l r) i = reprF nd i := by
  cases nd with
  | leafless v lz lo hi =>
      have hlt2 : lo < hi := hlt
      refine ⟨SNode.leafless (0 + lz) (0 + lz) lo (lo + (hi - lo) / 2),
        SNode.leafless (0 + lz) (0 + lz) (lo + (hi - lo) / 2 + 1) hi, ?_, ?_, ?_, ?_⟩
      · show propagateDown plusMaxOps (allocateChildren (SNode.leafless v lz lo hi)) = _
        rw [show allocateChildren (SNode.leafless v lz lo hi) =
          SNode.branch v lz lo hi
            (SNode.leafless 0 0 lo (lo + (hi - lo) / 2))
            (SNode.leafless 0 0 (lo + (hi - lo) / 2 + 1) hi) from by
            rw [allocateChildren, if_neg (by show ¬ lo = hi; omega)]]
        rfl
      · exact ⟨hlt, rfl, rfl, rfl, rfl, by show lo ≤ lo + (hi - lo) / 2; omega,
          by show lo + (hi - lo) / 2 + 1 ≤ hi
             have : (hi - lo) / 2 < hi - lo := Nat.div_lt_self (by omega) (by omega)
             omega⟩
      · refine ⟨?_, rfl, rfl⟩
        show v = 0 + max (0 + lz) (0 + lz)
        rw [show v = lz from hv]
        omega
      · intro i
        show 0 + (if i ≤ lo + (hi - lo) / 2 then 0 + lz else 0 + lz) = lz
        split_ifs <;> omega
  | branch v lz lo hi l r =>
      obtain ⟨hlt2, hllo, hlhi, hrlo, hrhi, hwl, hwr⟩ := hw
      obtain ⟨hveq, hvl, hvr⟩ := hv
      refine ⟨SNode.addLazy plusMaxOps lz (segmentSize (lo, hi) / 2) l,
        SNode.addLazy plusMaxOps lz (segmentSize (lo, hi) / 2) r, rfl, ?_, ?_, ?_⟩
      · exact ⟨hlt2, by rw [addLazy_lo]; exact hllo, by rw [addLazy_hi]; exact hlhi,
          by rw [addLazy_lo]; exact hrlo, by rw [addLazy_hi]; exact hrhi,
          addLazy_WFS hwl _ _ _, addLazy_WFS hwr _ _ _⟩
      · refine ⟨?_, addLazy_VINV hvl _ _, addLazy_VINV hvr _ _⟩
        show v = 0 + max (SNode.addLazy plusMaxOps lz _ l).value
          (SNode.addLazy plusMaxOps lz _ r).value
        rw [addLazy_value, addLazy_value, hveq]
        omega
      · intro i
        show 0 + (if i ≤ (SNode.addLazy plusMaxOps lz _ l).hi
            then reprF (SNode.addLazy plusMaxOps lz _ l) i
            else reprF (SNode.addLazy plusMaxOps lz _ r) i) =
          lz + (if i ≤ l.hi then reprF l i else reprF r i)
        rw [addLazy_hi]
        split_ifs
        · rw [addLazy_reprF]
          omega
        · rw [addLazy_reprF]
          omega


theorem WFS_le {nd : SNode} (hw : WFS nd) : nd.lo ≤ nd.hi := by
  cases nd with
  | leafless v lz lo hi => exact hw
  | branch v lz lo hi l r => exact le_of_lt hw.1

theorem guards_lt {nd : SNode} {q : Nat × Nat} (hw : WFS nd)
    (hc : ¬ containsB q nd.range = true)
    (ho : nonemptyOverlapB q nd.range = true) : nd.lo < nd.hi := by
  have h1 : ¬ (q.1 ≤ nd.lo ∧ nd.hi ≤ q.2) := by
    simpa [containsB, SNode.range] using hc
  have h2 : max q.1 nd.lo ≤ min q.2 nd.hi := by
    simpa [nonemptyOverlapB, SNode.range] using ho
  have h3 := WFS_le hw
  omega

theorem insert_contains_leafless {nv lz lo hi : Nat} (q : Nat × Nat) (v : Nat)
    (hv : VINV (SNode.leafless nv lz lo hi))
    (hc : containsB q (SNode.leafless nv lz lo hi).range = true)
    (hwle : lo ≤ hi) :
    WFS (SNode.leafless
        (plusMaxOps.update nv (plusMaxOps.multiAcc (overlapSize q (lo, hi)) v))
        (plusMaxOps.update lz v) lo hi) ∧
    VINV (SNode.leafless
        (plusMaxOps.update nv (plusMaxOps.multiAcc (overlapSize q (lo, hi)) v))
        (plusMaxOps.update lz v) lo hi) ∧
    lo = lo ∧ hi = hi ∧
    (∀ i, lo ≤ i → i ≤ hi →
      reprF (SNode.leafless
          (plusMaxOps.update nv (plusMaxOps.multiAcc (overlapSize q (lo, hi)) v))
          (plusMaxOps.update lz v) lo hi) i =
        if q.1 ≤ i ∧ i ≤ q.2 then reprF (SNode.leafless nv lz lo hi) i + v
        else reprF (SNode.leafless nv lz lo hi) i) := by
  have hcc : q.1 ≤ lo ∧ hi ≤ q.2 := by
    simpa [containsB, SNode.range] using hc
  have hveq : nv = lz := hv
  refine ⟨hwle, ?_, rfl, rfl, ?_⟩
  · show plusMaxOps.update nv (plusMaxOps.multiAcc (overlapSize q (lo, hi)) v) =
      plusMaxOps.update lz v
    simp only [plusMaxOps]
    omega
  · intro i h1 h2
    rw [if_pos ⟨le_trans hcc.1 h1, le_trans h2 hcc.2⟩]
    show plusMaxOps.update lz v = lz + v
    simp only [plusMaxOps]

theorem insert_contains_branch {nv lz lo hi : Nat} {l r : SNode}
    (q : Nat × Nat) (v : Nat)
    (hw : WFS (SNode.branch nv lz lo hi l r))
    (hv : VINV (SNode.branch nv lz lo hi l r))
    (hc : containsB q (SNode.branch nv lz lo hi l r).range = true) :
    WFS (SNode.branch
        (plusMaxOps.update nv (plusMaxOps.multiAcc (overlapSize q (lo, hi)) v))
        (plusMaxOps.update lz v) lo hi l r) ∧
    VINV (SNode.branch
        (plusMaxOps.update nv (plusMaxOps.multiAcc (overlapSize q (lo, hi)) v))
        (plusMaxOps.update lz v) lo hi l r) ∧
    lo = lo ∧ hi = hi ∧
    (∀ i, lo ≤ i → i ≤ hi →
      reprF (SNode.branch
          (plusMaxOps.update nv (plusMaxOps.multiAcc (overlapSize q (lo, hi)) v))
          (plusMaxOps.update lz v) lo hi l r) i =
        if q.1 ≤ i ∧ i ≤ q.2 then reprF (SNode.branch nv lz lo hi l r) i + v
        else reprF (SNode.branch nv lz lo hi l r) i) := by
  have hcc : q.1 ≤ lo ∧ hi ≤ q.2 := by
    simpa [containsB, SNode.range] using hc
  have hveq : nv = lz + max l.value r.value := hv.1
  refine ⟨hw, ⟨?_, hv.2.1, hv.2.2⟩, rfl, rfl, ?_⟩
  · show plusMaxOps.update nv (plusMaxOps.multiAcc (overlapSize q (lo, hi)) v) =
      plusMaxOps.update lz v + max l.value r.value
    simp only [plusMaxOps]
    omega
  · intro i h1 h2
    rw [if_pos ⟨le_trans hcc.1 h1, le_trans h2 hcc.2⟩]
    show plusMaxOps.update lz v + (if i ≤ l.hi then reprF l i else reprF r i) =
      (lz + (if i ≤ l.hi then reprF l i else reprF r i)) + v
    split_ifs <;> (simp only [plusMaxOps]; omega)

theorem insertGo_spec (q : Nat × Nat) (v : Nat) : ∀ (fuel : Nat) (nd : SNode),
    WFS nd → VINV nd → nd.hi - nd.lo ≤ fuel →
    WFS (insertGo plusMaxOps fuel nd q v) ∧
    VINV (insertGo plusMaxOps fuel nd q v) ∧
    (insertGo plusMaxOps fuel nd q v).lo = nd.lo ∧
    (insertGo plusMaxOps fuel nd q v).hi = nd.hi ∧
    (∀ i, nd.lo ≤ i → i ≤ nd.hi →
      reprF (insertGo plusMaxOps fuel nd q v) i =
        if q.1 ≤ i ∧ i ≤ q.2 then reprF nd i + v else reprF nd i) := by
  intro fuel
  induction fuel with
  | zero =>
      intro nd hw hv hf
      simp only [insertGo]
      split_ifs with hc ho
      · cases nd with
        | leafless nv lz lo hi => exact insert_contains_leafless q v hv hc hw
        | branch nv lz lo hi l r => exact insert_contains_branch q v hw hv hc
      · exact absurd hf (by have := guards_lt hw hc ho; omega)
      · refine ⟨hw, hv, rfl, rfl, ?_⟩
        intro i h1 h2
        have h2o : ¬ max q.1 nd.lo ≤ min q.2 nd.hi := by
          simpa [nonemptyOverlapB, SNode.range] using ho
        rw [if_neg (by omega)]
  | succ fuel ih =>
      intro nd hw hv hf
      simp only [insertGo]
      split_ifs with hc ho
      · cases nd with
        | leafless nv lz lo hi => exact insert_contains_leafless q v hv hc hw
        | branch nv lz lo hi l r => exact insert_contains_branch q v hw hv hc
      · have hlt : nd.lo < nd.hi := guards_lt hw hc ho
        obtain ⟨l, r, heq, hwB, hvB, hrep⟩ := allocProp_spec hw hv hlt
        rw [heq]
        obtain ⟨hltB, hllo, hlhi, hrlo, hrhi, hwl, hwr⟩ := hwB
        obtain ⟨hveqB, hvl, hvr⟩ := hvB
        obtain ⟨hwl2, hvl2, hlol2, hhil2, hrepl2⟩ :=
          ih l hwl hvl (by rw [hlhi, hllo]; omega)
        obtain ⟨hwr2, hvr2, hlor2, hhir2, hrepr2⟩ :=
          ih r hwr hvr (by rw [hrhi, hrlo]; omega)
        refine ⟨⟨hlt, by rw [hlol2, hllo], by rw [hhil2, hlhi],
            by rw [hlor2, hrlo], by rw [hhir2, hrhi], hwl2, hwr2⟩,
          ⟨?_, hvl2, hvr2⟩, rfl, rfl, ?_⟩
        · show plusMaxOps.accum (insertGo plusMaxOps fuel l q v).value
            (insertGo plusMaxOps fuel r q v).value = 0 +
            max (insertGo plusMaxOps fuel l q v).value
              (insertGo plusMaxOps fuel r q v).value
          simp only [plusMaxOps]
          omega
        · intro i h1 h2
          show 0 + (if i ≤ (insertGo plusMaxOps fuel l q v).hi
              then reprF (insertGo plusMaxOps fuel l q v) i
              else reprF (insertGo plusMaxOps fuel r q v) i) = _
          rw [hhil2]
          by_cases hil : i ≤ l.hi
          · have hnd : reprF nd i = reprF l i := by
              rw [← hrep i]
              show 0 + (if i ≤ l.hi then reprF l i else reprF r i) = reprF l i
              rw [if_pos hil]
              omega
            rw [if_pos hil,
              hrepl2 i (by rw [hllo]; exact h1) (by rw [hlhi]; omega), hnd]
            split_ifs <;> omega
          · have hnd : reprF nd i = reprF r i := by
              rw [← hrep i]
              show 0 + (if i ≤ l.hi then reprF l i else reprF r i) = reprF r i
              rw [if_neg hil]
              omega
            rw [if_neg hil,
              hrepr2 i (by rw [hrlo]; rw [hlhi] at hil; omega)
                (by rw [hrhi]; exact h2),
              hnd]
            split_ifs <;> omega
      · refine ⟨hw, hv, rfl, rfl, ?_⟩
        intro i h1 h2
        have h2o : ¬ max q.1 nd.lo ≤ min q.2 nd.hi := by
          simpa [nonemptyOverlapB, SNode.range] using ho
        rw [if_neg (by omega)]


theorem value_eq_rangeMax : ∀ {nd : SNode}, WFS nd → VINV nd →
    nd.value = rangeMaxF (reprF nd) nd.lo nd.hi
  | SNode.leafless v lz lo hi, hw, hv => by
      show v = rangeMaxF (reprF (SNode.leafless v lz lo hi)) lo hi
      rw [show reprF (SNode.leafless v lz lo hi) = fun _ => lz from rfl,
        rangeMaxF_const lz hw]
      exact hv
  | SNode.branch v lz lo hi l r, hw, hv => by
      obtain ⟨hlt, hllo, hlhi, hrlo, hrhi, hwl, hwr⟩ := hw
      obtain ⟨hveq, hvl, hvr⟩ := hv
      have hIl := value_eq_rangeMax hwl hvl
      have hIr := value_eq_rangeMax hwr hvr
      have h1 : lo ≤ l.hi := by rw [hlhi]; omega
      have h2 : l.hi < hi := by rw [hlhi]; omega
      show v = rangeMaxF (reprF (SNode.branch v lz lo hi l r)) lo hi
      rw [show reprF (SNode.branch v lz lo hi l r) =
          (fun i => lz + (if i ≤ l.hi then reprF l i else reprF r i))
          from rfl,
        rangeMaxF_add lz _ (le_of_lt hlt), rangeMaxF_split _ h1 h2]
      have hL : rangeMaxF (fun i => if i ≤ l.hi then reprF l i else reprF r i)
          lo l.hi = rangeMaxF (reprF l) l.lo l.hi := by
        rw [hllo]
        exact rangeMaxF_congr (fun i hi1 hi2 => if_pos hi2)
      have hR : rangeMaxF (fun i => if i ≤ l.hi then reprF l i else reprF r i)
          (l.hi + 1) hi = rangeMaxF (reprF r) r.lo r.hi := by
        rw [show r.lo = l.hi + 1 from by rw [hrlo, hlhi], hrhi]
        exact rangeMaxF_congr (fun i hi1 hi2 => if_neg (by omega))
      rw [hL, hR, ← hIl, ← hIr]
      exact hveq

theorem queryGo_spec (q : Nat × Nat) : ∀ (fuel : Nat) (nd : SNode),
    WFS nd → VINV nd → nd.hi - nd.lo ≤ fuel →
    WFS (queryGo plusMaxOps fuel nd q).2 ∧
    VINV (queryGo plusMaxOps fuel nd q).2 ∧
    (queryGo plusMaxOps fuel nd q).2.lo = nd.lo ∧
    (queryGo plusMaxOps fuel nd q).2.hi = nd.hi ∧
    (queryGo plusMaxOps fuel nd q).2.value = nd.value ∧
    (∀ i, reprF (queryGo plusMaxOps fuel nd q).2 i = reprF nd i) ∧
    (queryGo plusMaxOps fuel nd q).1 =
      rangeMaxF (fun i => if q.1 ≤ i ∧ i ≤ q.2 then reprF nd i else 0)
        nd.lo nd.hi := by
  intro fuel
  induction fuel with
  | zero =>
      intro nd hw hv hf
      simp only [queryGo]
      split_ifs with hc ho
      · refine ⟨hw, hv, rfl, rfl, rfl, fun _ => rfl, ?_⟩
        have hcc : q.1 ≤ nd.lo ∧ nd.hi ≤ q.2 := by
          simpa [containsB, SNode.range] using hc
        show nd.value = _
        rw [value_eq_rangeMax hw hv]
        exact rangeMaxF_congr (fun i h1 h2 =>
          (if_pos ⟨le_trans hcc.1 h1, le_trans h2 hcc.2⟩).symm)
      · exact absurd hf (by have := guards_lt hw hc ho; omega)
      · refine ⟨hw, hv, rfl, rfl, rfl, fun _ => rfl, ?_⟩
        have h2o : ¬ max q.1 nd.lo ≤ min q.2 nd.hi := by
          simpa [nonemptyOverlapB, SNode.range] using ho
        show plusMaxOps.neutral = _
        rw [show (rangeMaxF (fun i => if q.1 ≤ i ∧ i ≤ q.2 then reprF nd i
              else 0) nd.lo nd.hi) =
            rangeMaxF (fun _ => 0) nd.lo nd.hi from
            rangeMaxF_congr (fun i h1 h2 => if_neg (by omega)),
          rangeMaxF_zeroF]
        rfl
  | succ fuel ih =>
      intro nd hw hv hf
      simp only [queryGo]
      split_ifs with hc ho
      · refine ⟨hw, hv, rfl, rfl, rfl, fun _ => rfl, ?_⟩
        have hcc : q.1 ≤ nd.lo ∧ nd.hi ≤ q.2 := by
          simpa [containsB, SNode.range] using hc
        show nd.value = _
        rw [value_eq_rangeMax hw hv]
        exact rangeMaxF_congr (fun i h1 h2 =>
          (if_pos ⟨le_trans hcc.1 h1, le_trans h2 hcc.2⟩).symm)
      · have hlt : nd.lo < nd.hi := guards_lt hw hc ho
        obtain ⟨l, r, heq, hwB, hvB, hrep⟩ := allocProp_spec hw hv hlt
        rw [heq]
        dsimp only
        obtain ⟨hltB, hllo, hlhi, hrlo, hrhi, hwl, hwr⟩ := hwB
        obtain ⟨hveqB, hvl, hvr⟩ := hvB
        obtain ⟨hwl2, hvl2, hlol2, hhil2, hvall2, hrepl2, hresl2⟩ :=
          ih l hwl hvl (by rw [hlhi, hllo]; omega)
        obtain ⟨hwr2, hvr2, hlor2, hhir2, hvalr2, hrepr2, hresr2⟩ :=
          ih r hwr hvr (by rw [hrhi, hrlo]; omega)
        have h1 : nd.lo ≤ l.hi := by rw [hlhi]; omega
        have h2 : l.hi < nd.hi := by rw [hlhi]; omega
        refine ⟨⟨hlt, by rw [hlol2, hllo], by rw [hhil2, hlhi],
            by rw [hlor2, hrlo], by rw [hhir2, hrhi], hwl2, hwr2⟩,
          ⟨?_, hvl2, hvr2⟩, rfl, rfl, rfl, ?_, ?_⟩
        · show nd.value = 0 + max (queryGo plusMaxOps fuel l q).2.value
            (queryGo plusMaxOps fuel r q).2.value
          rw [hvall2, hvalr2]
          exact hveqB
        · intro i
          show 0 + (if i ≤ (queryGo plusMaxOps fuel l q).2.hi
              then reprF (queryGo plusMaxOps fuel l q).2 i
              else reprF (queryGo plusMaxOps fuel r q).2 i) = reprF nd i
          rw [hhil2, ← hrep i]
          show _ = 0 + (if i ≤ l.hi then reprF l i else reprF r i)
          split_ifs with hil
          · rw [hrepl2 i]
          · rw [hrepr2 i]
        · show plusMaxOps.accum (queryGo plusMaxOps fuel l q).1
            (queryGo plusMaxOps fuel r q).1 = _
          have hstep : rangeMaxF
              (fun i => if q.1 ≤ i ∧ i ≤ q.2 then reprF nd i else 0)
                nd.lo nd.hi =
              rangeMaxF (fun i => if q.1 ≤ i ∧ i ≤ q.2
                then reprF (SNode.branch nd.value 0 nd.lo nd.hi l r) i
                else 0) nd.lo nd.hi :=
            rangeMaxF_congr (fun i hi1 hi2 => by rw [hrep i])
          have hwin1 : rangeMaxF (fun i => if q.1 ≤ i ∧ i ≤ q.2
              then reprF (SNode.branch nd.value 0 nd.lo nd.hi l r) i
              else 0) nd.lo l.hi =
              rangeMaxF (fun i => if q.1 ≤ i ∧ i ≤ q.2 then reprF l i else 0)
                l.lo l.hi := by
            rw [hllo]
            refine rangeMaxF_congr (fun i hi1 hi2 => ?_)
            rw [show reprF (SNode.branch nd.value 0 nd.lo nd.hi l r) i =
              reprF l i from by
              show 0 + (if i ≤ l.hi then reprF l i else reprF r i) = reprF l i
              rw [if_pos hi2]
              omega]
          have hwin2 : rangeMaxF (fun i => if q.1 ≤ i ∧ i ≤ q.2
              then reprF (SNode.branch nd.value 0 nd.lo nd.hi l r) i
              else 0) (l.hi + 1) nd.hi =
              rangeMaxF (fun i => if q.1 ≤ i ∧ i ≤ q.2 then reprF r i else 0)
                r.lo r.hi := by
            rw [show r.lo = l.hi + 1 from by rw [hrlo, hlhi], hrhi]
            refine rangeMaxF_congr (fun i hi1 hi2 => ?_)
            rw [show reprF (SNode.branch nd.value 0 nd.lo nd.hi l r) i =
              reprF r i from by
              show 0 + (if i ≤ l.hi then reprF l i else reprF r i) = reprF r i
              rw [if_neg (by omega)]
              omega]
          rw [hstep, rangeMaxF_split _ h1 h2, hwin1, hwin2, ← hresl2, ← hresr2]
          rfl
      · refine ⟨hw, hv, rfl, rfl, rfl, fun _ => rfl, ?_⟩
        have h2o : ¬ max q.1 nd.lo ≤ min q.2 nd.hi := by
          simpa [nonemptyOverlapB, SNode.range] using ho
        show plusMaxOps.neutral = _
        rw [show (rangeMaxF (fun i => if q.1 ≤ i ∧ i ≤ q.2 then reprF nd i
              else 0) nd.lo nd.hi) =
            rangeMaxF (fun _ => 0) nd.lo nd.hi from
            rangeMaxF_congr (fun i h1 h2 => if_neg (by omega)),
          rangeMaxF_zeroF]
        rfl


/-- The public-level invariant tying a tree to the pointwise sum `f` of
all updates applied so far. -/
def TWF (f : Nat → Nat) (t : SegTree) : Prop :=
  WFS t.root ∧ VINV t.root ∧ t.root.lo = 0 ∧ t.size ≤ t.root.hi + 1 ∧
    ∀ i, i ≤ t.root.hi → reprF t.root i = f i

theorem powGo_pos (sz : Nat) : ∀ fuel p, 1 ≤ p → 1 ≤ powGo sz fuel p
  | 0, _, h => h
  | fuel + 1, p, h => by
      show 1 ≤ if p < sz then powGo sz fuel (p * 2) else p
      split_ifs with hp
      · exact powGo_pos sz fuel (p * 2) (by omega)
      · exact h

theorem powGo_ge (sz : Nat) : ∀ fuel p, sz ≤ p * 2 ^ fuel → sz ≤ powGo sz fuel p
  | 0, p, h => by simpa using h
  | fuel + 1, p, h => by
      show sz ≤ if p < sz then powGo sz fuel (p * 2) else p
      split_ifs with hp
      · refine powGo_ge sz fuel (p * 2) ?_
        have hps : p * 2 ^ (fuel + 1) = (p * 2) * 2 ^ fuel := by ring
        omega
      · omega

theorem TWF_mkTree (sz : Nat) : TWF (fun _ => 0) (mkTree sz) := by
  have hge : sz ≤ powGo sz sz 1 := powGo_ge sz sz 1 (by
    have h2 := Nat.lt_two_pow sz
    omega)
  have hpos : 1 ≤ powGo sz sz 1 := powGo_pos sz sz 1 (le_refl 1)
  refine ⟨Nat.zero_le _, rfl, rfl, ?_, fun i h => rfl⟩
  show sz ≤ powGo sz sz 1 - 1 + 1
  omega

theorem TWF_insert {f : Nat → Nat} {t : SegTree} (h : TWF f t) {l r : Nat}
    (v : Nat) (h1 : l ≤ r) (h2 : r < t.size) :
    TWF (applyUpd f l r v) (t.insert plusMaxOps l r v) := by
  obtain ⟨hw, hv, hlo, hsz, hrep⟩ := h
  obtain ⟨hw2, hv2, hlo2, hhi2, hrep2⟩ :=
    insertGo_spec (l, r) v (t.root.hi - t.root.lo) t.root hw hv (le_refl _)
  refine ⟨hw2, hv2, by rw [show (t.insert plusMaxOps l r v).root =
      insertGo plusMaxOps (t.root.hi - t.root.lo) t.root (l, r) v from rfl,
      hlo2, hlo],
    by rw [show (t.insert plusMaxOps l r v).root =
      insertGo plusMaxOps (t.root.hi - t.root.lo) t.root (l, r) v from rfl,
      hhi2]; exact hsz, ?_⟩
  intro i hile
  rw [show (t.insert plusMaxOps l r v).root =
    insertGo plusMaxOps (t.root.hi - t.root.lo) t.root (l, r) v from rfl]
  rw [show (t.insert plusMaxOps l r v).root =
    insertGo plusMaxOps (t.root.hi - t.root.lo) t.root (l, r) v from rfl,
    hhi2] at hile
  rw [hrep2 i (by rw [hlo]; exact Nat.zero_le i) hile, hrep i hile]
  rfl

theorem TWF_query {f : Nat → Nat} {t : SegTree} (h : TWF f t) {l r : Nat}
    (h1 : l ≤ r) (h2 : r < t.size) :
    (t.query plusMaxOps l r).1 = rangeMaxF f l r ∧
      TWF f (t.query plusMaxOps l r).2 := by
  obtain ⟨hw, hv, hlo, hsz, hrep⟩ := h
  obtain ⟨hw2, hv2, hlo2, hhi2, hval2, hrep2, hres2⟩ :=
    queryGo_spec (l, r) (t.root.hi - t.root.lo) t.root hw hv (le_refl _)
  constructor
  · show (queryGo plusMaxOps (t.root.hi - t.root.lo) t.root (l, r)).1 = _
    rw [hres2,
      show (rangeMaxF (fun i => if (l, r).1 ≤ i ∧ i ≤ (l, r).2
          then reprF t.root i else 0) t.root.lo t.root.hi) =
        rangeMaxF (fun i => if l ≤ i ∧ i ≤ r then f i else 0)
          t.root.lo t.root.hi from
        rangeMaxF_congr (fun i hi1 hi2 => by rw [hrep i hi2]),
      hlo]
    exact rangeMaxF_window f (Nat.zero_le l) h1 (by omega)
  · refine ⟨hw2, hv2, by rw [show (t.query plusMaxOps l r).2.root =
        (queryGo plusMaxOps (t.root.hi - t.root.lo) t.root (l, r)).2 from rfl,
        hlo2, hlo],
      by rw [show (t.query plusMaxOps l r).2.root =
        (queryGo plusMaxOps (t.root.hi - t.root.lo) t.root (l, r)).2 from rfl,
        hhi2]; exact hsz, ?_⟩
    intro i hile
    rw [show (t.query plusMaxOps l r).2.root =
      (queryGo plusMaxOps (t.root.hi - t.root.lo) t.root (l, r)).2 from rfl]
    rw [show (t.query plusMaxOps l r).2.root =
      (queryGo plusMaxOps (t.root.hi - t.root.lo) t.root (l, r)).2 from rfl,
      hhi2] at hile
    rw [hrep2 i, hrep i hile]

theorem runSeg_spec : ∀ (acts : List SegAct) (f : Nat → Nat) (t : SegTree),
    TWF f t → (∀ a ∈ acts, SegAct.okB t.size a = true) →
    (runSeg plusMaxOps t acts).1 = specRun f acts := by
  intro acts
  induction acts with
  | nil => intro f t h hok; rfl
  | cons a acts ih =>
      intro f t h hok
      cases a with
      | ins l r v =>
          have hab : l ≤ r ∧ r < t.size := by
            simpa [SegAct.okB] using hok _ (List.mem_cons_self _ _)
          show (runSeg plusMaxOps (t.insert plusMaxOps l r v) acts).1 =
            specRun (applyUpd f l r v) acts
          exact ih _ _ (TWF_insert h v hab.1 hab.2)
            (fun b hb => hok b (List.mem_cons_of_mem _ hb))
      | qry l r =>
          have hab : l ≤ r ∧ r < t.size := by
            simpa [SegAct.okB] using hok _ (List.mem_cons_self _ _)
          obtain ⟨hres, htwf⟩ := TWF_query h hab.1 hab.2
          show ((t.query plusMaxOps l r).1 ::
              (runSeg plusMaxOps (t.query plusMaxOps l r).2 acts).1) =
            rangeMaxF f l r :: specRun f acts
          rw [hres, ih _ _ htwf (fun b hb => hok b (List.mem_cons_of_mem _ hb))]

end Seg

/-- C7: over the (+, max) segment tree on `[0, size)`, any interleaving of
`insert(l, r, v)` updates and `query(l, r)` calls (all with
`0 ≤ l ≤ r < size`) makes every query return the maximum over `i ∈ [l, r]`
of the pointwise sum of all prior updates covering `i` (`0` where no update
applies); in particular for size 8 after `insert(1,4,3)` and
`insert(3,6,2)`, the queries `(0,7)`, `(0,2)`, `(5,7)` return `5`, `3`,
`2`. -/
theorem segmentTree_plusMax_spec (sz : Nat) (acts : List Seg.SegAct)
    (hok : ∀ a ∈ acts, Seg.SegAct.okB sz a = true) :
    (Seg.runSeg Seg.plusMaxOps (Seg.mkTree sz) acts).1 =
        Seg.specRun (fun _ => 0) acts ∧
      (Seg.runSeg Seg.plusMaxOps (Seg.mkTree 8)
          [Seg.SegAct.ins 1 4 3, Seg.SegAct.ins 3 6 2, Seg.SegAct.qry 0 7,
            Seg.SegAct.qry 0 2, Seg.SegAct.qry 5 7]).1 = [5, 3, 2] :=
  ⟨Seg.runSeg_spec acts (fun _ => 0) (Seg.mkTree sz) (Seg.TWF_mkTree sz) hok,
    by decide⟩

/-- C7 witness: the size-8 scenario of the spec satisfies the bounds
hypothesis, and the theorem instantiates to it. -/
theorem segmentTree_plusMax_spec_witness :
    (∀ a ∈ [Seg.SegAct.ins 1 4 3, Seg.SegAct.ins 3 6 2, Seg.SegAct.qry 0 7,
        Seg.SegAct.qry 0 2, Seg.SegAct.qry 5 7],
      Seg.SegAct.okB 8 a = true) ∧
    (Seg.runSeg Seg.plusMaxOps (Seg.mkTree 8)
        [Seg.SegAct.ins 1 4 3, Seg.SegAct.ins 3 6 2, Seg.SegAct.qry 0 7,
          Seg.SegAct.qry 0 2, Seg.SegAct.qry 5 7]).1 =
      Seg.specRun (fun _ => 0)
        [Seg.SegAct.ins 1 4 3, Seg.SegAct.ins 3 6 2, Seg.SegAct.qry 0 7,
          Seg.SegAct.qry 0 2, Seg.SegAct.qry 5 7] :=
  ⟨by decide,
    (segmentTree_plusMax_spec 8
      [Seg.SegAct.ins 1 4 3, Seg.SegAct.ins 3 6 2, Seg.SegAct.qry 0 7,
        Seg.SegAct.qry 0 2, Seg.SegAct.qry 5 7] (by decide)).1⟩

/-! ## The AMC solver (`solver.cpp` / `solver.h`)

`solveInstance` keeps, per vertex, an interval tree of already-assigned
intervals (`setIntervals`), an interval tree of still-unprocessed incident
intervals (`notsetIntervals`), and a `SegmentTreePlusMax<uint8_t>` outdegree
timeline (`OutdegManager`); a score-ordered `std::set` of pointers to the
unprocessed intervals serves as priority queue.  The state is modelled with
explicit lists indexed by vertex; the queue is modelled by the list of
unprocessed interval indices, with the `std::set` minimum recomputed from
the current scores via `ScoreComparator` (the C++ code erases an entry
before every score mutation and reinserts it, so the set order always
agrees with the current scores).  The element type of the outdegree trees
is a parameter `ops`: the source instantiates `uint8_t`, i.e.
`Seg.plusMaxU8Ops`. -/

namespace Seg

theorem rangeMaxGo_le {f : Nat → Nat} {B : Nat} : ∀ n i,
    (∀ j, j < n → f (i + j) ≤ B) → rangeMaxGo f n i ≤ B
  | 0, i, _ => Nat.zero_le B
  | n + 1, i, h => by
      show max (f i) (rangeMaxGo f n (i + 1)) ≤ B
      have h0 : f i ≤ B := by simpa using h 0 (Nat.succ_pos n)
      have h1 : rangeMaxGo f n (i + 1) ≤ B :=
        rangeMaxGo_le n (i + 1) (fun j hj => by
          rw [show i + 1 + j = i + (j + 1) by omega]
          exact h (j + 1) (by omega))
      omega

theorem le_rangeMaxGo {f : Nat → Nat} : ∀ n i j, j < n →
    f (i + j) ≤ rangeMaxGo f n i
  | 0, i, j, hj => absurd hj (by omega)
  | n + 1, i, j, hj => by
      show f (i + j) ≤ max (f i) (rangeMaxGo f n (i + 1))
      match j with
      | 0 => simp
      | j + 1 =>
          have h1 := le_rangeMaxGo (f := f) n (i + 1) j (by omega)
          rw [show i + 1 + j = i + (j + 1) by omega] at h1
          omega

theorem rangeMaxGo_attained {f : Nat → Nat} : ∀ n i, 0 < n →
    ∃ j, j < n ∧ rangeMaxGo f n i = f (i + j)
  | 0, i, h => absurd h (by omega)
  | n + 1, i, _ => by
      match n with
      | 0 => exact ⟨0, by omega, by show max (f i) 0 = f (i + 0); simp⟩
      | n + 1 =>
          obtain ⟨j, hj, heq⟩ := rangeMaxGo_attained (f := f) (n + 1) (i + 1)
            (Nat.succ_pos n)
          show ∃ j2, j2 < n + 1 + 1 ∧
            max (f i) (rangeMaxGo f (n + 1) (i + 1)) = f (i + j2)
          rcases Nat.le_total (f i) (rangeMaxGo f (n + 1) (i + 1)) with hle | hle
          · refine ⟨j + 1, by omega, ?_⟩
            rw [Nat.max_eq_right hle, heq,
              show i + (j + 1) = i + 1 + j by omega]
          · exact ⟨0, by omega, by rw [Nat.max_eq_left hle]; simp⟩

theorem rangeMaxF_le {f : Nat → Nat} {lo hi B : Nat}
    (h : ∀ i, lo ≤ i → i ≤ hi → f i ≤ B) : rangeMaxF f lo hi ≤ B :=
  rangeMaxGo_le _ _ (fun j hj => h (lo + j) (by omega) (by omega))

theorem le_rangeMaxF {f : Nat → Nat} {lo hi j : Nat} (h1 : lo ≤ j)
    (h2 : j ≤ hi) : f j ≤ rangeMaxF f lo hi := by
  have := le_rangeMaxGo (f := f) (hi + 1 - lo) lo (j - lo) (by omega)
  rw [show lo + (j - lo) = j by omega] at this
  exact this

theorem rangeMaxGo_mono {f g : Nat → Nat} : ∀ n i,
    (∀ j, j < n → f (i + j) ≤ g (i + j)) →
    rangeMaxGo f n i ≤ rangeMaxGo g n i := by
  intro n i h
  refine rangeMaxGo_le n i (fun j hj => ?_)
  exact le_trans (h j hj) (le_rangeMaxGo n i j hj)

theorem rangeMaxF_mono {f g : Nat → Nat} {lo hi : Nat}
    (h : ∀ j, lo ≤ j → j ≤ hi → f j ≤ g j) :
    rangeMaxF f lo hi ≤ rangeMaxF g lo hi :=
  rangeMaxGo_mono _ _ (fun j hj => h (lo + j) (by omega) (by omega))

theorem rangeMaxF_attained {f : Nat → Nat} {lo hi : Nat} (h : lo ≤ hi) :
    ∃ j, lo ≤ j ∧ j ≤ hi ∧ rangeMaxF f lo hi = f j := by
  obtain ⟨j, hj, heq⟩ := rangeMaxGo_attained (hi + 1 - lo) lo (by omega)
  exact ⟨lo + j, by omega, by omega, heq⟩

theorem TWF_congr {f g : Nat → Nat} {t : SegTree} (h : ∀ i, f i = g i)
    (hw : TWF f t) : TWF g t := by
  obtain ⟨w1, w2, w3, w4, w5⟩ := hw
  exact ⟨w1, w2, w3, w4, fun i hi => (w5 i hi).trans (h i)⟩

end Seg

namespace Solver

def dfltInterval : Interval := ⟨0, 0, (0, 0), IntervalStatus.NOT_SET, 0⟩

/-- Dereference the pointer to interval number `i`. -/
def ivGet (ivs : List Interval) (i : Nat) : Interval := ivs.getD i dfltInterval

/-- `vector<IntervalTree>` indexing. -/
def treeAt (ts : List ITree) (v : Nat) : ITree := ts.getD v ITree.nil

/-- `OutdegManager` indexing. -/
def segAt (ss : List Seg.SegTree) (v : Nat) : Seg.SegTree :=
  ss.getD v (Seg.mkTree 0)

/-- `ScoreComparator`: highest score first, `Interval::operator<` as
tiebreaker. -/
def scoreLtB (a b : Interval) : Bool :=
  decide (b.score < a.score) || (a.score == b.score && Interval.ltB a b)

/-- `Interval::getAssignedNode`. -/
def getAssignedNode (iv : Interval) : Nat :=
  if iv.status = IntervalStatus.FIRST_NODE_SELECTED then iv.nodes.1
  else iv.nodes.2

/-- `*queue.begin()`: the `ScoreComparator`-least of the still-enqueued
interval indices (the running best is kept on comparator failure, matching
the set's handling of its least element). -/
def queueMinGo (ivs : List Interval) : Nat → List Nat → Nat
  | best, [] => best
  | best, j :: js =>
      if scoreLtB (ivGet ivs j) (ivGet ivs best) then queueMinGo ivs j js
      else queueMinGo ivs best js

def queueMin (ivs : List Interval) : List Nat → Option Nat
  | [] => none
  | j :: js => some (queueMinGo ivs j js)

/-- `tag->score++` through the `IntervalDict` lookup by time bounds: the
interval(s) with exactly these bounds get their score incremented (the
dict is keyed by `TimeBoundsComparator`, and time bounds are unique). -/
def bumpScore (ivs : List Interval) (b : Nat × Nat) : List Interval :=
  ivs.map (fun iv =>
    if iv.startTime = b.1 ∧ iv.endTime = b.2 then
      ⟨iv.startTime, iv.endTime, iv.nodes, iv.status, iv.score + 1⟩
    else iv)

/-- The mutable state of `solveInstance`. -/
structure SolState where
  intervals : List Interval
  V : Nat
  timeframe : Nat
  setTrees : List ITree
  notsetTrees : List ITree
  outdeg : List Seg.SegTree
  queue : List Nat
  maxOutdegree : Nat
deriving Repr

/-- One iteration of the `while (!queue.empty())` loop of `solveInstance`,
processing interval number `cur`. -/
def stepState (ops : Seg.SegOps) (s : SolState) (cur : Nat) : SolState :=
  let iv := ivGet s.intervals cur
  let nst1 := s.notsetTrees.set iv.nodes.1
    (ITree.removeI (treeAt s.notsetTrees iv.nodes.1) (iv.startTime, iv.endTime))
  let nst2 := nst1.set iv.nodes.2
    (ITree.removeI (treeAt nst1 iv.nodes.2) (iv.startTime, iv.endTime))
  let fstCollisions :=
    ITree.countClashes (treeAt s.setTrees iv.nodes.1) iv.startTime iv.endTime
  let sndCollisions :=
    ITree.countClashes (treeAt s.setTrees iv.nodes.2) iv.startTime iv.endTime
  let iv2 : Interval := ⟨iv.startTime, iv.endTime, iv.nodes,
    if sndCollisions < fstCollisions then IntervalStatus.SECOND_NODE_SELECTED
    else IntervalStatus.FIRST_NODE_SELECTED, iv.score⟩
  let ivs2 := s.intervals.set cur iv2
  let assigned := getAssignedNode iv2
  let odT := (segAt s.outdeg assigned).insert ops iv.startTime iv.endTime 1
  let qres := odT.query ops iv.startTime iv.endTime
  let od2 := s.outdeg.set assigned qres.2
  let st2 := s.setTrees.set assigned
    (ITree.insertI (treeAt s.setTrees assigned) (iv.startTime, iv.endTime))
  let clashes := ITree.getClashes (treeAt nst2 assigned) iv.startTime iv.endTime
  let ivs3 := clashes.foldl bumpScore ivs2
  ⟨ivs3, s.V, s.timeframe, st2, nst2, od2, s.queue.erase cur,
    max qres.1 s.maxOutdegree⟩

/-- The solver loop (fuel-indexed; one queue entry is erased per iteration,
so `|queue|` units of fuel suffice). -/
def solveLoop (ops : Seg.SegOps) : Nat → SolState → SolState
  | 0, s => s
  | fuel + 1, s =>
      match queueMin s.intervals s.queue with
      | none => s
      | some cur => solveLoop ops fuel (stepState ops s cur)

def buildEmptyIntervalTrees (ipi : IntervalProblemInstance) : List ITree :=
  List.replicate ipi.V ITree.nil

def insertBoth (ts : List ITree) (iv : Interval) : List ITree :=
  let ts1 := ts.set iv.nodes.1
    (ITree.insertI (treeAt ts iv.nodes.1) (iv.startTime, iv.endTime))
  ts1.set iv.nodes.2
    (ITree.insertI (treeAt ts1 iv.nodes.2) (iv.startTime, iv.endTime))

def buildFullIntervalTrees (ipi : IntervalProblemInstance) : List ITree :=
  ipi.intervals.foldl insertBoth (List.replicate ipi.V ITree.nil)

def buildOutdegManager (ipi : IntervalProblemInstance) : List Seg.SegTree :=
  List.replicate ipi.V (Seg.mkTree ipi.timeframe)

def initState (ipi : IntervalProblemInstance) (m0 : Nat) : SolState :=
  ⟨ipi.intervals, ipi.V, ipi.timeframe, buildEmptyIntervalTrees ipi,
    buildFullIntervalTrees ipi, buildOutdegManager ipi,
    List.range ipi.intervals.length, m0⟩

/-- `solveInstance(ipi, maxOutdegree)`: runs the loop to completion and
returns the final state (`maxOutdegree` starts at the caller's value
`m0`). -/
def solveInstance (ops : Seg.SegOps) (ipi : IntervalProblemInstance)
    (m0 : Nat) : SolState :=
  solveLoop ops ipi.intervals.length (initState ipi m0)

/-! ### Specification-side notions -/

/-- Is the interval assigned to vertex `v`? -/
def assignedToB (iv : Interval) (v : Nat) : Bool :=
  (iv.status == IntervalStatus.FIRST_NODE_SELECTED && iv.nodes.1 == v) ||
    (iv.status == IntervalStatus.SECOND_NODE_SELECTED && iv.nodes.2 == v)

/-- Number of intervals assigned to `v` whose timespan contains `t`. -/
def outCount (ivs : List Interval) (v t : Nat) : Nat :=
  (ivs.filter (fun iv => assignedToB iv v && decide (iv.startTime ≤ t) &&
    decide (t ≤ iv.endTime))).length

/-- Peak load of vertex `v` over the timeframe. -/
def vertexPeak (ivs : List Interval) (timeframe v : Nat) : Nat :=
  Seg.rangeMaxF (fun t => outCount ivs v t) 0 (timeframe - 1)

/-- True peak: `max` over vertices and times of the assigned cover count. -/
def peakF (ivs : List Interval) (V timeframe : Nat) : Nat :=
  Seg.rangeMaxGo (fun v => vertexPeak ivs timeframe v) V 0

/-- Validity of an interval problem instance as the solver requires it
(and as the converter produces it): pairwise-distinct time bounds,
endpoints within range, `startTime ≤ endTime < timeframe`, and all
statuses still unset. -/
def validIpiB (ipi : IntervalProblemInstance) : Bool :=
  decide ((ipi.intervals.map (fun iv => (iv.startTime, iv.endTime))).Nodup) &&
    ipi.intervals.all (fun iv =>
      decide (iv.nodes.1 < ipi.V) && decide (iv.nodes.2 < ipi.V) &&
        decide (iv.startTime ≤ iv.endTime) &&
        decide (iv.endTime < ipi.timeframe) &&
        (iv.status == IntervalStatus.NOT_SET))


theorem getD_set_self {α : Type} (xs : List α) (i : Nat) (x d : α)
    (h : i < xs.length) : (xs.set i x).getD i d = x := by
  rw [List.getD_eq_getElem _ _ (by simpa using h), List.getElem_set_self]

theorem getD_set_other {α : Type} (xs : List α) {i j : Nat} (x d : α)
    (h : i ≠ j) : (xs.set i x).getD j d = xs.getD j d := by
  by_cases hj : j < xs.length
  · rw [List.getD_eq_getElem _ _ (by simpa using hj),
      List.getD_eq_getElem _ _ hj, List.getElem_set_ne h]
  · rw [List.getD_eq_default _ _ (by simp only [List.length_set]; omega),
      List.getD_eq_default _ _ (by omega)]

/-- The identity of an interval apart from its mutable `status`/`score`. -/
def skel (iv : Interval) : Nat × Nat × Nat × Nat :=
  (iv.startTime, iv.endTime, iv.nodes.1, iv.nodes.2)

theorem scoreLtB_iff {a b : Interval} : scoreLtB a b = true ↔
    (b.score < a.score ∨ (a.score = b.score ∧
      (a.startTime < b.startTime ∨
        (a.startTime = b.startTime ∧ a.endTime < b.endTime)))) := by
  simp [scoreLtB, Interval.ltB]

theorem scoreLtB_trans {a b c : Interval} (h1 : scoreLtB a b = true)
    (h2 : scoreLtB b c = true) : scoreLtB a c = true := by
  rw [scoreLtB_iff] at h1 h2 ⊢
  omega

theorem scoreLtB_antisymm_bounds {a b : Interval}
    (h1 : scoreLtB a b = false) (h2 : scoreLtB b a = false) :
    a.startTime = b.startTime ∧ a.endTime = b.endTime := by
  have g1 : ¬ (scoreLtB a b = true) := by simp [h1]
  have g2 : ¬ (scoreLtB b a = true) := by simp [h2]
  rw [scoreLtB_iff] at g1 g2
  omega

theorem queueMinGo_mem (ivs : List Interval) : ∀ (js : List Nat) (best : Nat),
    queueMinGo ivs best js = best ∨ queueMinGo ivs best js ∈ js
  | [], best => Or.inl rfl
  | j :: js, best => by
      have hstep : queueMinGo ivs best (j :: js) =
          (if scoreLtB (ivGet ivs j) (ivGet ivs best)
            then queueMinGo ivs j js else queueMinGo ivs best js) := rfl
      rw [hstep]
      split_ifs
      · rcases queueMinGo_mem ivs js j with h | h
        · exact Or.inr (by rw [h]; exact List.mem_cons_self _ _)
        · exact Or.inr (List.mem_cons_of_mem _ h)
      · rcases queueMinGo_mem ivs js best with h | h
        · exact Or.inl h
        · exact Or.inr (List.mem_cons_of_mem _ h)

theorem leS_goal {m k : Interval}
    (h : k.score < m.score ∨ (m.score = k.score ∧ (m.startTime < k.startTime ∨
      (m.startTime = k.startTime ∧ m.endTime ≤ k.endTime)))) :
    scoreLtB m k = true ∨
      (scoreLtB m k = false ∧ scoreLtB k m = false) := by
  simp only [Bool.eq_false_iff, Ne, scoreLtB_iff]
  omega

theorem leS_arith {m k : Interval}
    (h : scoreLtB m k = true ∨
      (scoreLtB m k = false ∧ scoreLtB k m = false)) :
    k.score < m.score ∨ (m.score = k.score ∧ (m.startTime < k.startTime ∨
      (m.startTime = k.startTime ∧ m.endTime ≤ k.endTime))) := by
  simp only [Bool.eq_false_iff, Ne, scoreLtB_iff] at h
  omega

/-- Minimality of the recomputed `std::set` minimum: every other enqueued
index loses to it under `ScoreComparator`, or agrees with it on score and
time bounds. -/
theorem queueMinGo_min (ivs : List Interval) : ∀ (js : List Nat) (best : Nat),
    ∀ k, k ∈ best :: js →
      k = queueMinGo ivs best js ∨
      scoreLtB (ivGet ivs (queueMinGo ivs best js)) (ivGet ivs k) = true ∨
      (scoreLtB (ivGet ivs (queueMinGo ivs best js)) (ivGet ivs k) = false ∧
        scoreLtB (ivGet ivs k) (ivGet ivs (queueMinGo ivs best js)) = false)
  | [], best, k, hk => by
      rcases List.mem_cons.mp hk with hkb | hk
      · exact Or.inl hkb
      · exact absurd hk (List.not_mem_nil k)
  | j :: js, best, k, hk => by
      have hstep : queueMinGo ivs best (j :: js) =
          (if scoreLtB (ivGet ivs j) (ivGet ivs best)
            then queueMinGo ivs j js else queueMinGo ivs best js) := rfl
      rw [hstep]
      split_ifs with hcmp
      · rcases List.mem_cons.mp hk with hkb | hk2
        · -- k is the dethroned best; the result is at least as good as j,
          -- and j strictly beats best.
          rcases queueMinGo_min ivs js j j (List.mem_cons_self _ _)
            with hjm | hrest
          · refine Or.inr (Or.inl ?_)
            rw [hkb, ← hjm]
            exact hcmp
          · have harith := leS_arith hrest
            rw [scoreLtB_iff] at hcmp
            refine Or.inr (Or.inl ?_)
            rw [hkb, scoreLtB_iff]
            omega
        · exact queueMinGo_min ivs js j k hk2
      · have hcf : scoreLtB (ivGet ivs j) (ivGet ivs best) = false := by
          simpa using hcmp
        rcases List.mem_cons.mp hk with hkb | hk2
        · rw [hkb]
          exact queueMinGo_min ivs js best best (List.mem_cons_self _ _)
        · rcases List.mem_cons.mp hk2 with hkj | hk3
          · -- k is the rejected candidate j; the result is at least as good
            -- as best, and j does not beat best.
            have hbase : best = queueMinGo ivs best js ∨
                scoreLtB (ivGet ivs (queueMinGo ivs best js))
                  (ivGet ivs best) = true ∨
                (scoreLtB (ivGet ivs (queueMinGo ivs best js))
                    (ivGet ivs best) = false ∧
                  scoreLtB (ivGet ivs best)
                    (ivGet ivs (queueMinGo ivs best js)) = false) :=
              queueMinGo_min ivs js best best (List.mem_cons_self _ _)
            have hLeS : scoreLtB (ivGet ivs (queueMinGo ivs best js))
                (ivGet ivs best) = true ∨
                (scoreLtB (ivGet ivs (queueMinGo ivs best js))
                    (ivGet ivs best) = false ∧
                  scoreLtB (ivGet ivs best)
                    (ivGet ivs (queueMinGo ivs best js)) = false) := by
              rcases hbase with hbm | hrest
              · refine Or.inr ⟨?_, ?_⟩ <;>
                  (rw [← hbm]
                   simp only [Bool.eq_false_iff, Ne, scoreLtB_iff]
                   omega)
              · exact hrest
            have harith := leS_arith hLeS
            rw [Bool.eq_false_iff, Ne, scoreLtB_iff] at hcf
            refine Or.inr ?_
            rw [hkj]
            exact leS_goal (by omega)
          · exact queueMinGo_min ivs js best k (List.mem_cons_of_mem _ hk3)

theorem queueMin_mem {ivs : List Interval} {q : List Nat} {c : Nat}
    (h : queueMin ivs q = some c) : c ∈ q := by
  cases q with
  | nil => exact absurd h (by simp [queueMin])
  | cons j js =>
      have hc : queueMinGo ivs j js = c := by simpa [queueMin] using h
      rw [← hc]
      rcases queueMinGo_mem ivs js j with h2 | h2
      · rw [h2]; exact List.mem_cons_self _ _
      · exact List.mem_cons_of_mem _ h2

theorem queueMin_min {ivs : List Interval} {q : List Nat} {c : Nat}
    (h : queueMin ivs q = some c) :
    ∀ k, k ∈ q → k = c ∨ scoreLtB (ivGet ivs c) (ivGet ivs k) = true ∨
      (scoreLtB (ivGet ivs c) (ivGet ivs k) = false ∧
        scoreLtB (ivGet ivs k) (ivGet ivs c) = false) := by
  cases q with
  | nil => intro k hk; exact absurd hk (List.not_mem_nil k)
  | cons j js =>
      have hc : queueMinGo ivs j js = c := by simpa [queueMin] using h
      rw [← hc]
      exact fun k hk => queueMinGo_min ivs js j k hk



theorem ivGet_set_self {ivs : List Interval} {cur : Nat} (iv2 : Interval)
    (h : cur < ivs.length) : ivGet (ivs.set cur iv2) cur = iv2 :=
  getD_set_self ivs cur iv2 dfltInterval h

theorem ivGet_set_other {ivs : List Interval} {cur j : Nat} (iv2 : Interval)
    (h : cur ≠ j) : ivGet (ivs.set cur iv2) j = ivGet ivs j :=
  getD_set_other ivs iv2 dfltInterval h

theorem ivGet_map_lt (g : Interval → Interval) (ivs : List Interval) (i : Nat)
    (h : i < ivs.length) : ivGet (ivs.map g) i = g (ivGet ivs i) := by
  rw [ivGet, ivGet, List.getD_eq_getElem _ _ (by simpa using h),
    List.getD_eq_getElem _ _ h, List.getElem_map]

theorem map_skelStat_bumpScore (ivs : List Interval) (b : Nat × Nat) :
    (bumpScore ivs b).map (fun iv => (skel iv, iv.status)) =
      ivs.map (fun iv => (skel iv, iv.status)) := by
  rw [bumpScore, List.map_map]
  refine List.map_congr_left ?_
  intro iv _
  by_cases hc : iv.startTime = b.1 ∧ iv.endTime = b.2 <;>
    simp [skel, Function.comp, hc]

theorem map_skelStat_bumps (bs : List (Nat × Nat)) :
    ∀ (ivs : List Interval),
      (bs.foldl bumpScore ivs).map (fun iv => (skel iv, iv.status)) =
        ivs.map (fun iv => (skel iv, iv.status)) := by
  induction bs with
  | nil => intro ivs; rfl
  | cons b bs ih =>
      intro ivs
      rw [List.foldl_cons, ih (bumpScore ivs b), map_skelStat_bumpScore]

theorem length_eq_of_map_skelStat {l1 l2 : List Interval}
    (h : l1.map (fun iv => (skel iv, iv.status)) =
      l2.map (fun iv => (skel iv, iv.status))) : l1.length = l2.length := by
  have := congrArg List.length h
  simpa using this

theorem length_eq_of_map_skel {l1 l2 : List Interval}
    (h : l1.map skel = l2.map skel) : l1.length = l2.length := by
  have := congrArg List.length h
  simpa using this

theorem skel_eq_of_map {l1 l2 : List Interval}
    (h : l1.map skel = l2.map skel) (i : Nat) (hi : i < l1.length) :
    skel (ivGet l1 i) = skel (ivGet l2 i) := by
  have hlen := length_eq_of_map_skel h
  have h2 := congrArg (fun l => l.getD i ((0 : Nat), (0 : Nat), (0 : Nat),
    (0 : Nat))) h
  simp only at h2
  rw [List.getD_eq_getElem _ _ (show i < (l1.map skel).length by
      simpa using hi),
    List.getD_eq_getElem _ _ (show i < (l2.map skel).length by
      simp only [List.length_map]; omega),
    List.getElem_map, List.getElem_map] at h2
  rw [ivGet, ivGet, List.getD_eq_getElem _ _ hi,
    List.getD_eq_getElem _ _ (by omega)]
  exact h2

theorem map_skel_of_skelStat {l1 l2 : List Interval}
    (h : l1.map (fun iv => (skel iv, iv.status)) =
      l2.map (fun iv => (skel iv, iv.status))) :
    l1.map skel = l2.map skel := by
  have h2 := congrArg (List.map Prod.fst) h
  rw [List.map_map, List.map_map] at h2
  exact h2

theorem set_skel_self : ∀ (l : List Interval) (n : Nat) (iv2 : Interval),
    n < l.length → skel iv2 = skel (ivGet l n) →
    (l.set n iv2).map skel = l.map skel
  | [], n, _, h, _ => by simp at h
  | a :: l, 0, iv2, _, hsk => by
      rw [List.set_cons_zero, List.map_cons, List.map_cons,
        show skel (ivGet (a :: l) 0) = skel a from rfl] at *
      rw [hsk]
  | a :: l, n + 1, iv2, h, hsk => by
      rw [List.set_cons_succ, List.map_cons, List.map_cons,
        set_skel_self l n iv2 (by simpa using h)
          (by rw [hsk]; rfl)]

theorem skelStat_eq_of_map {l1 l2 : List Interval}
    (h : l1.map (fun iv => (skel iv, iv.status)) =
      l2.map (fun iv => (skel iv, iv.status))) (i : Nat) (hi : i < l1.length) :
    skel (ivGet l1 i) = skel (ivGet l2 i) ∧
      (ivGet l1 i).status = (ivGet l2 i).status := by
  have hlen := length_eq_of_map_skelStat h
  have h2 := congrArg
    (fun l => l.getD i ((0, 0, 0, 0), IntervalStatus.NOT_SET)) h
  have hb1 : i < (l1.map (fun iv => (skel iv, iv.status))).length := by
    simpa using hi
  have hb2 : i < (l2.map (fun iv => (skel iv, iv.status))).length := by
    simp only [List.length_map]
    omega
  simp only at h2
  rw [List.getD_eq_getElem _ _ hb1, List.getD_eq_getElem _ _ hb2,
    List.getElem_map, List.getElem_map] at h2
  rw [ivGet, ivGet, List.getD_eq_getElem _ _ hi,
    List.getD_eq_getElem _ _ (by omega)]
  exact ⟨congrArg Prod.fst h2, congrArg Prod.snd h2⟩

theorem proj_eq_imp_filtermap {β : Type} (p : Interval → Bool)
    (f : Interval → β)
    (hp : ∀ a b, skel a = skel b → a.status = b.status → p a = p b)
    (hf : ∀ a b, skel a = skel b → a.status = b.status → f a = f b) :
    ∀ (l1 l2 : List Interval),
      l1.map (fun iv => (skel iv, iv.status)) =
        l2.map (fun iv => (skel iv, iv.status)) →
      (l1.filter p).map f = (l2.filter p).map f
  | [], [], _ => rfl
  | [], b :: l2, h => by simp at h
  | a :: l1, [], h => by simp at h
  | a :: l1, b :: l2, h => by
      simp only [List.map_cons, List.cons.injEq] at h
      have hsk : skel a = skel b := congrArg Prod.fst h.1
      have hst : a.status = b.status := congrArg Prod.snd h.1
      rw [List.filter_cons, List.filter_cons, hp a b hsk hst]
      split_ifs with hc
      · rw [List.map_cons, List.map_cons, hf a b hsk hst,
          proj_eq_imp_filtermap p f hp hf l1 l2 h.2]
      · exact proj_eq_imp_filtermap p f hp hf l1 l2 h.2

theorem countP_set : ∀ (p : Interval → Bool) (ivs : List Interval)
    (cur : Nat) (iv2 : Interval), cur < ivs.length →
    (ivs.set cur iv2).countP p + (if p (ivGet ivs cur) then 1 else 0) =
      ivs.countP p + (if p iv2 then 1 else 0)
  | p, [], cur, iv2, h => by simp at h
  | p, a :: ivs, 0, iv2, h => by
      rw [List.set_cons_zero, List.countP_cons, List.countP_cons,
        show ivGet (a :: ivs) 0 = a from rfl]
      omega
  | p, a :: ivs, cur + 1, iv2, h => by
      rw [List.set_cons_succ, List.countP_cons, List.countP_cons,
        show ivGet (a :: ivs) (cur + 1) = ivGet ivs cur from rfl]
      have hrec := countP_set p ivs cur iv2 (by simpa using h)
      omega

theorem filtermap_set_mset {β : Type} :
    ∀ (p : Interval → Bool) (f : Interval → β) (ivs : List Interval)
      (cur : Nat) (iv2 : Interval),
      cur < ivs.length → p (ivGet ivs cur) = false →
      (((ivs.set cur iv2).filter p).map f : Multiset β) =
        ((ivs.filter p).map f : Multiset β) +
          (if p iv2 then {f iv2} else 0)
  | p, f, [], cur, iv2, h, _ => by simp at h
  | p, f, a :: ivs, 0, iv2, h, hold => by
      have ha : p a = false := by
        rw [show ivGet (a :: ivs) 0 = a from rfl] at hold
        exact hold
      rw [List.set_cons_zero, List.filter_cons, List.filter_cons, ha]
      simp only [Bool.false_eq_true, if_false]
      by_cases hc : p iv2 = true
      · rw [if_pos hc, List.map_cons, ← Multiset.cons_coe, if_pos hc,
          show ({f iv2} : Multiset β) = f iv2 ::ₘ 0 from rfl,
          Multiset.add_cons, add_zero]
      · rw [if_neg hc, if_neg hc, add_zero]
  | p, f, a :: ivs, cur + 1, iv2, h, hold => by
      have hold2 : p (ivGet ivs cur) = false := by
        rw [show ivGet (a :: ivs) (cur + 1) = ivGet ivs cur from rfl] at hold
        exact hold
      have hstep := filtermap_set_mset p f ivs cur iv2 (by simpa using h) hold2
      rw [List.set_cons_succ, List.filter_cons, List.filter_cons]
      by_cases hc : p a = true
      · rw [if_pos hc, if_pos hc, List.map_cons, List.map_cons,
          ← Multiset.cons_coe, ← Multiset.cons_coe, hstep, Multiset.cons_add]
      · rw [if_neg hc, if_neg hc, hstep]

/-- The loop invariant of `solveInstance` (run with exact `Nat` counters):
skeletons never change, the queue holds exactly the unset interval
indices, each `setIntervals[v]` stores exactly the spans assigned to `v`,
each `outdeg[v]` represents the current out-degree timeline of `v`, and
`maxOutdegree` is the running peak. -/
def SInv (ipi : IntervalProblemInstance) (m0 : Nat) (s : SolState) : Prop :=
  s.V = ipi.V ∧ s.timeframe = ipi.timeframe ∧
  s.intervals.map skel = ipi.intervals.map skel ∧
  s.queue.Nodup ∧
  (∀ j, j ∈ s.queue ↔ j < s.intervals.length ∧
    (ivGet s.intervals j).status = IntervalStatus.NOT_SET) ∧
  s.setTrees.length = ipi.V ∧
  (∀ v, v < ipi.V →
    ITree.BSTI (treeAt s.setTrees v) ∧ ITree.HBI (treeAt s.setTrees v) ∧
    ((ITree.inorderI (treeAt s.setTrees v) : Multiset (Nat × Nat)) =
      (((s.intervals.filter (fun iv => assignedToB iv v)).map
        (fun iv => (iv.startTime, iv.endTime)) : List (Nat × Nat)) :
          Multiset (Nat × Nat)))) ∧
  s.outdeg.length = ipi.V ∧
  (∀ v, v < ipi.V →
    Seg.TWF (fun t => outCount s.intervals v t) (segAt s.outdeg v) ∧
    (segAt s.outdeg v).size = ipi.timeframe) ∧
  s.maxOutdegree = max m0 (peakF s.intervals ipi.V ipi.timeframe)


theorem assignedToB_notset {iv : Interval}
    (h : iv.status = IntervalStatus.NOT_SET) (v : Nat) :
    assignedToB iv v = false := by
  simp [assignedToB, h]

theorem validIpi_parts {ipi : IntervalProblemInstance}
    (h : validIpiB ipi = true) :
    (ipi.intervals.map (fun iv => (iv.startTime, iv.endTime))).Nodup ∧
    ∀ iv ∈ ipi.intervals, iv.nodes.1 < ipi.V ∧ iv.nodes.2 < ipi.V ∧
      iv.startTime ≤ iv.endTime ∧ iv.endTime < ipi.timeframe ∧
      iv.status = IntervalStatus.NOT_SET := by
  simp only [validIpiB, Bool.and_eq_true, List.all_eq_true,
    decide_eq_true_eq, beq_iff_eq] at h
  obtain ⟨h1, h2⟩ := h
  refine ⟨h1, fun iv hiv => ?_⟩
  have := h2 iv hiv
  tauto

theorem treeAt_replicate : ∀ (n v : Nat),
    treeAt (List.replicate n ITree.nil) v = ITree.nil
  | 0, _ => rfl
  | _ + 1, 0 => rfl
  | n + 1, v + 1 => treeAt_replicate n v

theorem outCount_of_unset {ivs : List Interval}
    (h : ∀ iv ∈ ivs, iv.status = IntervalStatus.NOT_SET) (v t : Nat) :
    outCount ivs v t = 0 := by
  rw [outCount, List.length_eq_zero]
  refine List.filter_eq_nil_iff.mpr (fun iv hiv => ?_)
  rw [assignedToB_notset (h iv hiv)]
  simp

theorem peak_of_unset {ivs : List Interval}
    (h : ∀ iv ∈ ivs, iv.status = IntervalStatus.NOT_SET) (V tf : Nat) :
    peakF ivs V tf = 0 := by
  have hvx : ∀ j, j < V →
      vertexPeak ivs tf (0 + j) = (fun _ : Nat => (0 : Nat)) (0 + j) := by
    intro j hj
    show vertexPeak ivs tf (0 + j) = 0
    rw [vertexPeak,
      Seg.rangeMaxF_congr (fun i h1 h2 => outCount_of_unset h _ i),
      Seg.rangeMaxF_zeroF]
  rw [peakF, @Seg.rangeMaxGo_congr (fun v => vertexPeak ivs tf v)
    (fun _ => 0) V 0 hvx, Seg.rangeMaxGo_zero]

theorem SInv_init (ipi : IntervalProblemInstance) (m0 : Nat)
    (hval : validIpiB ipi = true) : SInv ipi m0 (initState ipi m0) := by
  obtain ⟨hnodup, hall⟩ := validIpi_parts hval
  have hstat : ∀ iv ∈ ipi.intervals, iv.status = IntervalStatus.NOT_SET :=
    fun iv hiv => (hall iv hiv).2.2.2.2
  refine ⟨rfl, rfl, rfl, List.nodup_range _, ?_, List.length_replicate _ _,
    ?_, List.length_replicate _ _, ?_, ?_⟩
  · intro j
    constructor
    · intro hj
      have hjl : j < ipi.intervals.length := List.mem_range.mp hj
      refine ⟨hjl, ?_⟩
      rw [show ivGet (initState ipi m0).intervals j = ivGet ipi.intervals j
        from rfl, ivGet, List.getD_eq_getElem _ _ hjl]
      exact hstat _ (List.getElem_mem hjl)
    · intro hj
      exact List.mem_range.mpr hj.1
  · intro v hv
    rw [show treeAt (initState ipi m0).setTrees v =
      treeAt (List.replicate ipi.V ITree.nil) v from rfl, treeAt_replicate]
    refine ⟨trivial, trivial, ?_⟩
    rw [show (initState ipi m0).intervals = ipi.intervals from rfl,
      List.filter_eq_nil_iff.mpr (fun iv hiv => by
        rw [assignedToB_notset (hstat iv hiv)]; simp)]
    rfl
  · intro v hv
    have hseg : segAt (initState ipi m0).outdeg v = Seg.mkTree ipi.timeframe := by
      rw [show (initState ipi m0).outdeg =
        List.replicate ipi.V (Seg.mkTree ipi.timeframe) from rfl, segAt,
        List.getD_eq_getElem _ _ (by simpa using hv), List.getElem_replicate]
    rw [hseg]
    obtain ⟨w1, w2, w3, w4, w5⟩ := Seg.TWF_mkTree ipi.timeframe
    refine ⟨⟨w1, w2, w3, w4, ?_⟩, rfl⟩
    intro i hile
    rw [w5 i hile]
    exact (outCount_of_unset hstat v i).symm
  · show m0 = max m0 (peakF ipi.intervals ipi.V ipi.timeframe)
    rw [peak_of_unset hstat, Nat.max_zero]


theorem skel_fields {a b : Interval} (hsk : skel a = skel b) :
    a.startTime = b.startTime ∧ a.endTime = b.endTime ∧
      a.nodes.1 = b.nodes.1 ∧ a.nodes.2 = b.nodes.2 :=
  ⟨congrArg (fun x => x.1) hsk, congrArg (fun x => x.2.1) hsk,
    congrArg (fun x => x.2.2.1) hsk, congrArg (fun x => x.2.2.2) hsk⟩

theorem assignedToB_congr {a b : Interval} (hsk : skel a = skel b)
    (hst : a.status = b.status) (v : Nat) :
    assignedToB a v = assignedToB b v := by
  obtain ⟨h1, h2, h3, h4⟩ := skel_fields hsk
  rw [assignedToB, assignedToB, h3, h4, hst]

theorem outCount_proj_eq {l1 l2 : List Interval}
    (h : l1.map (fun iv => (skel iv, iv.status)) =
      l2.map (fun iv => (skel iv, iv.status))) (v t : Nat) :
    outCount l1 v t = outCount l2 v t := by
  rw [outCount, outCount]
  have hfm := proj_eq_imp_filtermap
    (fun iv => assignedToB iv v && decide (iv.startTime ≤ t) &&
      decide (t ≤ iv.endTime)) (fun _ => (0 : Nat))
    (fun a b hsk hst => by
      obtain ⟨h1, h2, h3, h4⟩ := skel_fields hsk
      show (assignedToB a v && decide (a.startTime ≤ t) &&
          decide (t ≤ a.endTime)) =
        (assignedToB b v && decide (b.startTime ≤ t) &&
          decide (t ≤ b.endTime))
      rw [assignedToB_congr hsk hst, h1, h2])
    (fun _ _ _ _ => rfl) l1 l2 h
  have hlen := congrArg List.length hfm
  simpa using hlen

theorem outCount_set {ivs : List Interval} {cur : Nat} {iv2 : Interval}
    (hlt : cur < ivs.length)
    (hold : (ivGet ivs cur).status = IntervalStatus.NOT_SET) (v t : Nat) :
    outCount (ivs.set cur iv2) v t =
      outCount ivs v t +
        (if assignedToB iv2 v && decide (iv2.startTime ≤ t) &&
            decide (t ≤ iv2.endTime) then 1 else 0) := by
  have h := countP_set (fun iv => assignedToB iv v &&
    decide (iv.startTime ≤ t) && decide (t ≤ iv.endTime)) ivs cur iv2 hlt
  simp only [] at h
  simp only [assignedToB_notset hold, Bool.false_and, Bool.false_eq_true,
    if_false, Nat.add_zero] at h
  rw [outCount, outCount, ← List.countP_eq_length_filter,
    ← List.countP_eq_length_filter]
  omega

theorem assignedToB_self {iv : Interval}
    (h : iv.status ≠ IntervalStatus.NOT_SET) :
    assignedToB iv (getAssignedNode iv) = true := by
  cases hst : iv.status with
  | NOT_SET => exact absurd hst h
  | FIRST_NODE_SELECTED => simp [assignedToB, getAssignedNode, hst]
  | SECOND_NODE_SELECTED => simp [assignedToB, getAssignedNode, hst]

theorem assignedToB_ne {iv : Interval} {v : Nat}
    (h : iv.status ≠ IntervalStatus.NOT_SET)
    (hne : v ≠ getAssignedNode iv) : assignedToB iv v = false := by
  cases hst : iv.status with
  | NOT_SET => exact absurd hst h
  | FIRST_NODE_SELECTED =>
      have hga : getAssignedNode iv = iv.nodes.1 := by
        simp [getAssignedNode, hst]
      rw [hga] at hne
      simp only [assignedToB, hst]
      simp [Ne.symm hne]
  | SECOND_NODE_SELECTED =>
      have hga : getAssignedNode iv = iv.nodes.2 := by
        simp [getAssignedNode, hst]
      rw [hga] at hne
      simp only [assignedToB, hst]
      simp [Ne.symm hne]

theorem outCount_ne_tf {ivs : List Interval} {tf : Nat}
    (hend : ∀ iv ∈ ivs, iv.endTime < tf) {t : Nat} (ht : tf ≤ t) (v : Nat) :
    outCount ivs v t = 0 := by
  rw [outCount, List.length_eq_zero]
  refine List.filter_eq_nil_iff.mpr (fun iv hiv => ?_)
  have := hend iv hiv
  simp only [Bool.and_eq_true, decide_eq_true_eq, not_and]
  intro _ _
  omega

theorem peak_step {ivs : List Interval} {cur : Nat} {iv2 : Interval}
    {V tf : Nat} (hlt : cur < ivs.length)
    (hold : (ivGet ivs cur).status = IntervalStatus.NOT_SET)
    (hasg : iv2.status ≠ IntervalStatus.NOT_SET)
    (ha : getAssignedNode iv2 < V)
    (hse : iv2.startTime ≤ iv2.endTime) (hte : iv2.endTime ≤ tf - 1) :
    peakF (ivs.set cur iv2) V tf =
      max (peakF ivs V tf)
        (Seg.rangeMaxF
          (fun t => outCount (ivs.set cur iv2) (getAssignedNode iv2) t)
          iv2.startTime iv2.endTime) := by
  have hmono : ∀ v t, outCount ivs v t ≤ outCount (ivs.set cur iv2) v t := by
    intro v t
    rw [outCount_set hlt hold]
    omega
  have hother : ∀ v t, v ≠ getAssignedNode iv2 →
      outCount (ivs.set cur iv2) v t = outCount ivs v t := by
    intro v t hv
    rw [outCount_set hlt hold, assignedToB_ne hasg hv]
    simp
  have houtside : ∀ t, t < iv2.startTime ∨ iv2.endTime < t →
      outCount (ivs.set cur iv2) (getAssignedNode iv2) t =
        outCount ivs (getAssignedNode iv2) t := by
    intro t ht
    rw [outCount_set hlt hold]
    rcases ht with ht | ht
    · rw [show (decide (iv2.startTime ≤ t)) = false by simp; omega]
      simp
    · rw [show (decide (t ≤ iv2.endTime)) = false by simp; omega]
      simp
  refine Nat.le_antisymm ?_ ?_
  · rw [peakF]
    refine Seg.rangeMaxGo_le V 0 (fun v0 hv0 => ?_)
    rw [vertexPeak]
    refine Seg.rangeMaxF_le (fun t0 ht0l ht0r => ?_)
    by_cases hv : 0 + v0 = getAssignedNode iv2
    · by_cases htw : iv2.startTime ≤ t0 ∧ t0 ≤ iv2.endTime
      · refine le_trans ?_ (Nat.le_max_right _ _)
        rw [hv]
        exact Seg.le_rangeMaxF htw.1 htw.2
      · refine le_trans ?_ (Nat.le_max_left _ _)
        rw [hv, houtside t0 (by omega), ← hv, peakF]
        refine le_trans (Seg.le_rangeMaxF ht0l ht0r) ?_
        exact Seg.le_rangeMaxGo (f := fun v => vertexPeak ivs tf v) V 0 v0 hv0
    · refine le_trans ?_ (Nat.le_max_left _ _)
      rw [hother _ _ hv, peakF]
      refine le_trans (Seg.le_rangeMaxF ht0l ht0r) ?_
      exact Seg.le_rangeMaxGo (f := fun v => vertexPeak ivs tf v) V 0 v0 hv0
  · refine Nat.max_le.mpr ⟨?_, ?_⟩
    · rw [peakF, peakF]
      refine Seg.rangeMaxGo_mono V 0 (fun v0 hv0 => ?_)
      rw [vertexPeak, vertexPeak]
      exact Seg.rangeMaxF_mono (fun j h1 h2 => hmono _ j)
    · obtain ⟨t1, ht1l, ht1r, ht1⟩ := Seg.rangeMaxF_attained
        (f := fun t => outCount (ivs.set cur iv2) (getAssignedNode iv2) t) hse
      rw [ht1, peakF]
      refine le_trans ?_ (Seg.le_rangeMaxGo
        (f := fun v => vertexPeak (ivs.set cur iv2) tf v) V 0
        (getAssignedNode iv2) (by omega))
      show outCount (ivs.set cur iv2) (getAssignedNode iv2) t1 ≤
        vertexPeak (ivs.set cur iv2) tf (0 + getAssignedNode iv2)
      rw [show (0 : Nat) + getAssignedNode iv2 = getAssignedNode iv2
        by omega, vertexPeak]
      exact Seg.le_rangeMaxF (Nat.zero_le t1) (by omega)



/-! ### Named pieces of one loop iteration (for the proofs) -/

/-- The status chosen for the processed interval. -/
def newStatus (s : SolState) (cur : Nat) : IntervalStatus :=
  if ITree.countClashes (treeAt s.setTrees (ivGet s.intervals cur).nodes.2)
      (ivGet s.intervals cur).startTime (ivGet s.intervals cur).endTime <
    ITree.countClashes (treeAt s.setTrees (ivGet s.intervals cur).nodes.1)
      (ivGet s.intervals cur).startTime (ivGet s.intervals cur).endTime
  then IntervalStatus.SECOND_NODE_SELECTED
  else IntervalStatus.FIRST_NODE_SELECTED

def newIv (s : SolState) (cur : Nat) : Interval :=
  ⟨(ivGet s.intervals cur).startTime, (ivGet s.intervals cur).endTime,
    (ivGet s.intervals cur).nodes, newStatus s cur,
    (ivGet s.intervals cur).score⟩

def ivsTwo (s : SolState) (cur : Nat) : List Interval :=
  s.intervals.set cur (newIv s cur)

def asgV (s : SolState) (cur : Nat) : Nat := getAssignedNode (newIv s cur)

def nstTwo (s : SolState) (cur : Nat) : List ITree :=
  let iv := ivGet s.intervals cur
  let nst1 := s.notsetTrees.set iv.nodes.1
    (ITree.removeI (treeAt s.notsetTrees iv.nodes.1)
      (iv.startTime, iv.endTime))
  nst1.set iv.nodes.2
    (ITree.removeI (treeAt nst1 iv.nodes.2) (iv.startTime, iv.endTime))

def clashList (s : SolState) (cur : Nat) : List (Nat × Nat) :=
  ITree.getClashes (treeAt (nstTwo s cur) (asgV s cur))
    (ivGet s.intervals cur).startTime (ivGet s.intervals cur).endTime

def ivsThree (s : SolState) (cur : Nat) : List Interval :=
  (clashList s cur).foldl bumpScore (ivsTwo s cur)

def odTree (ops : Seg.SegOps) (s : SolState) (cur : Nat) : Seg.SegTree :=
  (segAt s.outdeg (asgV s cur)).insert ops (ivGet s.intervals cur).startTime
    (ivGet s.intervals cur).endTime 1

def qRes (ops : Seg.SegOps) (s : SolState) (cur : Nat) : Nat × Seg.SegTree :=
  (odTree ops s cur).query ops (ivGet s.intervals cur).startTime
    (ivGet s.intervals cur).endTime

theorem stepState_intervals (ops : Seg.SegOps) (s : SolState) (cur : Nat) :
    (stepState ops s cur).intervals = ivsThree s cur := rfl

theorem stepState_V (ops : Seg.SegOps) (s : SolState) (cur : Nat) :
    (stepState ops s cur).V = s.V := rfl

theorem stepState_timeframe (ops : Seg.SegOps) (s : SolState) (cur : Nat) :
    (stepState ops s cur).timeframe = s.timeframe := rfl

theorem stepState_queue (ops : Seg.SegOps) (s : SolState) (cur : Nat) :
    (stepState ops s cur).queue = s.queue.erase cur := rfl

theorem stepState_setTrees (ops : Seg.SegOps) (s : SolState) (cur : Nat) :
    (stepState ops s cur).setTrees = s.setTrees.set (asgV s cur)
      (ITree.insertI (treeAt s.setTrees (asgV s cur))
        ((ivGet s.intervals cur).startTime,
          (ivGet s.intervals cur).endTime)) := rfl

theorem stepState_notsetTrees (ops : Seg.SegOps) (s : SolState) (cur : Nat) :
    (stepState ops s cur).notsetTrees = nstTwo s cur := rfl

theorem stepState_outdeg (ops : Seg.SegOps) (s : SolState) (cur : Nat) :
    (stepState ops s cur).outdeg =
      s.outdeg.set (asgV s cur) (qRes ops s cur).2 := rfl

theorem stepState_maxOutdegree (ops : Seg.SegOps) (s : SolState) (cur : Nat) :
    (stepState ops s cur).maxOutdegree =
      max (qRes ops s cur).1 s.maxOutdegree := rfl

theorem newStatus_ne (s : SolState) (cur : Nat) :
    newStatus s cur ≠ IntervalStatus.NOT_SET := by
  rw [newStatus]
  split_ifs <;> simp

theorem newIv_status_ne (s : SolState) (cur : Nat) :
    (newIv s cur).status ≠ IntervalStatus.NOT_SET := newStatus_ne s cur

theorem peakF_outCount_congr {l1 l2 : List Interval}
    (h : ∀ v t, outCount l1 v t = outCount l2 v t) (V tf : Nat) :
    peakF l1 V tf = peakF l2 V tf := by
  rw [peakF, peakF]
  refine @Seg.rangeMaxGo_congr (fun v => vertexPeak l1 tf v)
    (fun v => vertexPeak l2 tf v) V 0 (fun j hj => ?_)
  show vertexPeak l1 tf (0 + j) = vertexPeak l2 tf (0 + j)
  rw [vertexPeak, vertexPeak]
  exact Seg.rangeMaxF_congr (fun i h1 h2 => h (0 + j) i)


theorem SInv_step {ipi : IntervalProblemInstance} {m0 : Nat} {s : SolState}
    {cur : Nat} (hval : validIpiB ipi = true) (hinv : SInv ipi m0 s)
    (hcur : queueMin s.intervals s.queue = some cur) :
    SInv ipi m0 (stepState Seg.plusMaxOps s cur) := by
  obtain ⟨hV, hT, hmap, hnd, hq, hstl, hst, hodl, hod, hmax⟩ := hinv
  obtain ⟨hnodup, hall⟩ := validIpi_parts hval
  have hcq := queueMin_mem hcur
  have hlt : cur < s.intervals.length := ((hq cur).mp hcq).1
  have hcst : (ivGet s.intervals cur).status = IntervalStatus.NOT_SET :=
    ((hq cur).mp hcq).2
  have hlen : s.intervals.length = ipi.intervals.length :=
    length_eq_of_map_skel hmap
  have hskc := skel_eq_of_map hmap cur hlt
  have hivmem : ivGet ipi.intervals cur ∈ ipi.intervals := by
    rw [ivGet, List.getD_eq_getElem _ _ (by omega)]
    exact List.getElem_mem _
  obtain ⟨hn1, hn2, hsse, hetf, _⟩ := hall _ hivmem
  obtain ⟨hb1, hb2, hb3, hb4⟩ := skel_fields hskc
  have hse : (ivGet s.intervals cur).startTime ≤
      (ivGet s.intervals cur).endTime := by omega
  have het : (ivGet s.intervals cur).endTime < ipi.timeframe := by omega
  have hasgV : asgV s cur < ipi.V := by
    have hasgn : asgV s cur = (ivGet s.intervals cur).nodes.1 ∨
        asgV s cur = (ivGet s.intervals cur).nodes.2 := by
      rw [asgV, getAssignedNode]
      split_ifs
      · exact Or.inl rfl
      · exact Or.inr rfl
    rcases hasgn with h | h <;> (rw [h]; omega)
  have hms32 : (ivsThree s cur).map (fun iv => (skel iv, iv.status)) =
      (ivsTwo s cur).map (fun iv => (skel iv, iv.status)) :=
    map_skelStat_bumps (clashList s cur) (ivsTwo s cur)
  have hsk2 : (ivsTwo s cur).map skel = s.intervals.map skel :=
    set_skel_self s.intervals cur (newIv s cur) hlt rfl
  have hsk3 : (ivsThree s cur).map skel = ipi.intervals.map skel := by
    rw [map_skel_of_skelStat hms32, hsk2, hmap]
  have hlen2 : (ivsTwo s cur).length = s.intervals.length :=
    List.length_set s.intervals cur (newIv s cur)
  have hlen3 : (ivsThree s cur).length = s.intervals.length := by
    rw [length_eq_of_map_skelStat hms32, hlen2]
  have hstat3 : ∀ j, j < s.intervals.length →
      (ivGet (ivsThree s cur) j).status = (ivGet (ivsTwo s cur) j).status :=
    fun j hj => (skelStat_eq_of_map hms32 j (by omega)).2
  have hstat2o : ∀ j, j ≠ cur →
      (ivGet (ivsTwo s cur) j).status = (ivGet s.intervals j).status :=
    fun j hj => by rw [ivsTwo, ivGet_set_other _ (fun hc => hj hc.symm)]
  have hcur2 : ivGet (ivsTwo s cur) cur = newIv s cur := by
    rw [ivsTwo]
    exact ivGet_set_self _ hlt
  have hout32 : ∀ v t, outCount (ivsThree s cur) v t =
      outCount (ivsTwo s cur) v t :=
    fun v t => outCount_proj_eq hms32 v t
  have hout2 : ∀ v t, outCount (ivsTwo s cur) v t =
      outCount s.intervals v t +
        (if assignedToB (newIv s cur) v &&
            decide ((newIv s cur).startTime ≤ t) &&
            decide (t ≤ (newIv s cur).endTime) then 1 else 0) :=
    fun v t => outCount_set hlt hcst v t
  have hasgB : assignedToB (newIv s cur) (asgV s cur) = true :=
    assignedToB_self (newIv_status_ne s cur)
  have houtA : ∀ t, outCount (ivsThree s cur) (asgV s cur) t =
      Seg.applyUpd (fun t2 => outCount s.intervals (asgV s cur) t2)
        (ivGet s.intervals cur).startTime
        (ivGet s.intervals cur).endTime 1 t := by
    intro t
    rw [hout32, hout2, hasgB, Seg.applyUpd]
    by_cases hc : (ivGet s.intervals cur).startTime ≤ t ∧
        t ≤ (ivGet s.intervals cur).endTime
    · rw [if_pos (show (true && decide ((newIv s cur).startTime ≤ t) &&
          decide (t ≤ (newIv s cur).endTime)) = true from by
          show (true && decide ((ivGet s.intervals cur).startTime ≤ t) &&
            decide (t ≤ (ivGet s.intervals cur).endTime)) = true
          simp [hc.1, hc.2]), if_pos hc]
    · rw [if_neg (show ¬ (true && decide ((newIv s cur).startTime ≤ t) &&
          decide (t ≤ (newIv s cur).endTime)) = true from by
          show ¬ (true && decide ((ivGet s.intervals cur).startTime ≤ t) &&
            decide (t ≤ (ivGet s.intervals cur).endTime)) = true
          simp only [Bool.true_and, Bool.and_eq_true, decide_eq_true_eq,
            not_and]
          intro hx hy
          exact hc ⟨hx, hy⟩), if_neg hc]
      omega
  have houtO : ∀ v, v ≠ asgV s cur → ∀ t,
      outCount (ivsThree s cur) v t = outCount s.intervals v t := by
    intro v hv t
    rw [hout32, hout2, assignedToB_ne (newIv_status_ne s cur) hv]
    simp
  refine ⟨?_, ?_, ?_, ?_, ?_, ?_, ?_, ?_, ?_, ?_⟩
  · rw [stepState_V]; exact hV
  · rw [stepState_timeframe]; exact hT
  · rw [stepState_intervals]; exact hsk3
  · rw [stepState_queue]; exact hnd.erase cur
  · intro j
    rw [stepState_queue, stepState_intervals, hnd.mem_erase_iff]
    constructor
    · rintro ⟨hjc, hjq⟩
      obtain ⟨hjl, hjs⟩ := (hq j).mp hjq
      refine ⟨by omega, ?_⟩
      rw [hstat3 j hjl, hstat2o j hjc, hjs]
    · rintro ⟨hjl, hjs⟩
      have hjl2 : j < s.intervals.length := by omega
      by_cases hjc : j = cur
      · exfalso
        rw [hjc] at hjs
        rw [hstat3 cur hlt, hcur2] at hjs
        exact newIv_status_ne s cur hjs
      · rw [hstat3 j hjl2, hstat2o j hjc] at hjs
        exact ⟨hjc, (hq j).mpr ⟨hjl2, hjs⟩⟩
  · rw [stepState_setTrees, List.length_set]; exact hstl
  · intro v hv
    rw [stepState_setTrees, stepState_intervals]
    have hspec32 : ((ivsThree s cur).filter (fun iv => assignedToB iv v)).map
        (fun iv => (iv.startTime, iv.endTime)) =
        ((ivsTwo s cur).filter (fun iv => assignedToB iv v)).map
          (fun iv => (iv.startTime, iv.endTime)) :=
      proj_eq_imp_filtermap _ _
        (fun a b hsk hst2 => assignedToB_congr hsk hst2 v)
        (fun a b hsk hst2 => by
          obtain ⟨g1, g2, g3, g4⟩ := skel_fields hsk
          rw [g1, g2]) _ _ hms32
    have hspec2 := filtermap_set_mset (fun iv => assignedToB iv v)
      (fun iv => (iv.startTime, iv.endTime)) s.intervals cur (newIv s cur)
      hlt (assignedToB_notset hcst v)
    by_cases hveq : v = asgV s cur
    · subst hveq
      rw [treeAt, getD_set_self _ _ _ _ (by rw [hstl]; exact hasgV)]
      obtain ⟨hB, hH, hM⟩ := hst _ hasgV
      refine ⟨ITree.BSTI_insertI hB _, ITree.HBI_insertI hH _, ?_⟩
      rw [Multiset.coe_eq_coe.mpr (ITree.inorderI_insertI _ _),
        ← Multiset.cons_coe, hM, hspec32, ivsTwo, hspec2]
      simp only []
      rw [hasgB, if_pos rfl,
        show ({((newIv s cur).startTime, (newIv s cur).endTime)} :
            Multiset (Nat × Nat)) =
          ((ivGet s.intervals cur).startTime,
            (ivGet s.intervals cur).endTime) ::ₘ 0 from rfl,
        Multiset.add_cons, add_zero]
    · rw [treeAt, getD_set_other _ _ _ (fun hc => hveq hc.symm)]
      obtain ⟨hB, hH, hM⟩ := hst v hv
      refine ⟨hB, hH, ?_⟩
      rw [hspec32, ivsTwo, hspec2]
      simp only []
      rw [assignedToB_ne (newIv_status_ne s cur) hveq]
      simp only [Bool.false_eq_true, if_false, add_zero]
      exact hM
  · rw [stepState_outdeg, List.length_set]; exact hodl
  · intro v hv
    rw [stepState_outdeg, stepState_intervals]
    by_cases hveq : v = asgV s cur
    · subst hveq
      rw [segAt, getD_set_self _ _ _ _ (by rw [hodl]; exact hasgV)]
      obtain ⟨hTW, hSZ⟩ := hod _ hasgV
      have hTW2 := Seg.TWF_insert hTW 1 hse (by rw [hSZ]; exact het)
      have hq12 := Seg.TWF_query hTW2 hse
        (show (ivGet s.intervals cur).endTime <
            ((segAt s.outdeg (asgV s cur)).insert Seg.plusMaxOps
              (ivGet s.intervals cur).startTime
              (ivGet s.intervals cur).endTime 1).size from by
          show (ivGet s.intervals cur).endTime <
            (segAt s.outdeg (asgV s cur)).size
          rw [hSZ]
          exact het)
      refine ⟨Seg.TWF_congr (fun t2 => (houtA t2).symm) hq12.2, ?_⟩
      show (qRes Seg.plusMaxOps s cur).2.size = ipi.timeframe
      rw [show (qRes Seg.plusMaxOps s cur).2.size =
        (segAt s.outdeg (asgV s cur)).size from rfl]
      exact hSZ
    · rw [segAt, getD_set_other _ _ _ (fun hc => hveq hc.symm)]
      obtain ⟨hTW, hSZ⟩ := hod v hv
      exact ⟨Seg.TWF_congr (fun t2 => (houtO v hveq t2).symm) hTW, hSZ⟩
  · rw [stepState_maxOutdegree, stepState_intervals]
    obtain ⟨hTW, hSZ⟩ := hod _ hasgV
    have hTW2 := Seg.TWF_insert hTW 1 hse (by rw [hSZ]; exact het)
    have hq12 := Seg.TWF_query hTW2 hse
      (show (ivGet s.intervals cur).endTime <
          ((segAt s.outdeg (asgV s cur)).insert Seg.plusMaxOps
            (ivGet s.intervals cur).startTime
            (ivGet s.intervals cur).endTime 1).size from by
        show (ivGet s.intervals cur).endTime <
          (segAt s.outdeg (asgV s cur)).size
        rw [hSZ]
        exact het)
    have hq1v : (qRes Seg.plusMaxOps s cur).1 =
        Seg.rangeMaxF (fun t => outCount (ivsThree s cur) (asgV s cur) t)
          (ivGet s.intervals cur).startTime
          (ivGet s.intervals cur).endTime := by
      rw [show (qRes Seg.plusMaxOps s cur).1 =
        (Seg.SegTree.query Seg.plusMaxOps
          (Seg.SegTree.insert Seg.plusMaxOps (segAt s.outdeg (asgV s cur))
            (ivGet s.intervals cur).startTime
            (ivGet s.intervals cur).endTime 1)
          (ivGet s.intervals cur).startTime
          (ivGet s.intervals cur).endTime).1 from rfl, hq12.1]
      exact Seg.rangeMaxF_congr (fun i h1 h2 => (houtA i).symm)
    have hpk3 : peakF (ivsThree s cur) ipi.V ipi.timeframe =
        peakF (ivsTwo s cur) ipi.V ipi.timeframe :=
      peakF_outCount_congr hout32 _ _
    have hpk2 : peakF (ivsTwo s cur) ipi.V ipi.timeframe =
        max (peakF s.intervals ipi.V ipi.timeframe)
          (Seg.rangeMaxF (fun t => outCount (ivsTwo s cur) (asgV s cur) t)
            (ivGet s.intervals cur).startTime
            (ivGet s.intervals cur).endTime) := by
      rw [ivsTwo]
      exact peak_step hlt hcst (newIv_status_ne s cur) hasgV hse
        (show (ivGet s.intervals cur).endTime ≤ ipi.timeframe - 1 by omega)
    have hrm : Seg.rangeMaxF
        (fun t => outCount (ivsTwo s cur) (asgV s cur) t)
        (ivGet s.intervals cur).startTime
        (ivGet s.intervals cur).endTime =
        Seg.rangeMaxF (fun t => outCount (ivsThree s cur) (asgV s cur) t)
          (ivGet s.intervals cur).startTime
          (ivGet s.intervals cur).endTime :=
      Seg.rangeMaxF_congr (fun i h1 h2 => (hout32 _ i).symm)
    rw [hmax, hq1v, hpk3, hpk2, hrm]
    omega


theorem queueMin_none {ivs : List Interval} {q : List Nat} :
    queueMin ivs q = none ↔ q = [] := by
  cases q <;> simp [queueMin]

theorem SInv_loop {ipi : IntervalProblemInstance} {m0 : Nat}
    (hval : validIpiB ipi = true) :
    ∀ (fuel : Nat) (s : SolState), SInv ipi m0 s →
      SInv ipi m0 (solveLoop Seg.plusMaxOps fuel s) ∧
      (s.queue.length ≤ fuel →
        (solveLoop Seg.plusMaxOps fuel s).queue = []) := by
  intro fuel
  induction fuel with
  | zero =>
      intro s hs
      refine ⟨hs, fun h => List.length_eq_zero.mp ?_⟩
      show s.queue.length = 0
      omega
  | succ fuel ih =>
      intro s hs
      cases hqm : queueMin s.intervals s.queue with
      | none =>
          have hq0 : s.queue = [] := queueMin_none.mp hqm
          have hres : solveLoop Seg.plusMaxOps (fuel + 1) s = s := by
            rw [solveLoop, hqm]
          rw [hres]
          exact ⟨hs, fun _ => hq0⟩
      | some cur =>
          have hres : solveLoop Seg.plusMaxOps (fuel + 1) s =
              solveLoop Seg.plusMaxOps fuel
                (stepState Seg.plusMaxOps s cur) := by
            rw [solveLoop, hqm]
          rw [hres]
          have hstep := SInv_step hval hs hqm
          have hqlen : (stepState Seg.plusMaxOps s cur).queue.length =
              s.queue.length - 1 := by
            rw [stepState_queue]
            exact List.length_erase_of_mem (queueMin_mem hqm)
          have hpos : 0 < s.queue.length :=
            List.length_pos.mpr (List.ne_nil_of_mem (queueMin_mem hqm))
          obtain ⟨ih1, ih2⟩ := ih _ hstep
          exact ⟨ih1, fun hle => ih2 (by omega)⟩

theorem solveInstance_final {ipi : IntervalProblemInstance} {m0 : Nat}
    (hval : validIpiB ipi = true) :
    SInv ipi m0 (solveInstance Seg.plusMaxOps ipi m0) ∧
      (solveInstance Seg.plusMaxOps ipi m0).queue = [] := by
  obtain ⟨h1, h2⟩ := SInv_loop hval ipi.intervals.length (initState ipi m0)
    (SInv_init ipi m0 hval)
  refine ⟨h1, h2 ?_⟩
  show (List.range ipi.intervals.length).length ≤ ipi.intervals.length
  rw [List.length_range]

theorem solveInstance_statuses {ipi : IntervalProblemInstance} {m0 : Nat}
    (hval : validIpiB ipi = true) :
    ∀ j, j < (solveInstance Seg.plusMaxOps ipi m0).intervals.length →
      (ivGet (solveInstance Seg.plusMaxOps ipi m0).intervals j).status ≠
        IntervalStatus.NOT_SET := by
  obtain ⟨hinv, hq0⟩ := solveInstance_final hval
  intro j hj hs
  have := (hinv.2.2.2.2.1 j).mpr ⟨hj, hs⟩
  rw [hq0] at this
  exact List.not_mem_nil j this


theorem length_filter_map_filter {α β : Type} (p : α → Bool) (f : α → β)
    (q : β → Bool) : ∀ l : List α,
    (((l.filter p).map f).filter q).length =
      (l.filter (fun a => p a && q (f a))).length
  | [] => rfl
  | a :: l => by
      rw [List.filter_cons, List.filter_cons]
      by_cases hp : p a = true
      · rw [if_pos hp, List.map_cons, List.filter_cons]
        by_cases hq : q (f a) = true
        · rw [if_pos hq, if_pos (by rw [hp, hq]; rfl), List.length_cons,
            List.length_cons, length_filter_map_filter p f q l]
        · rw [if_neg hq, if_neg (by rw [hp]; simpa using hq),
            length_filter_map_filter p f q l]
      · rw [if_neg hp,
          if_neg (by rw [show p a = false by simpa using hp]; simp),
          length_filter_map_filter p f q l]

/-- `setIntervals[v].countClashes(low, high)` counts exactly the intervals
currently assigned to `v` whose timespan clashes with `[low, high]`. -/
theorem countClashes_spec {ipi : IntervalProblemInstance} {m0 : Nat}
    {s : SolState} (hinv : SInv ipi m0 s) {v : Nat} (hv : v < ipi.V)
    (low high : Nat) :
    ITree.countClashes (treeAt s.setTrees v) low high =
      (s.intervals.filter (fun jv => assignedToB jv v &&
        ITree.clashB (jv.startTime, jv.endTime) (low, high))).length := by
  obtain ⟨hB, hH, hM⟩ := hinv.2.2.2.2.2.2.1 v hv
  have hperm : List.Perm (ITree.inorderI (treeAt s.setTrees v))
      ((s.intervals.filter (fun iv => assignedToB iv v)).map
        (fun iv => (iv.startTime, iv.endTime))) :=
    Multiset.coe_eq_coe.mp hM
  rw [ITree.countClashes, ITree.getClashes,
    ITree.collectClashes_eq_filter hB hH (low, high),
    (hperm.filter (fun p => ITree.clashB p (low, high))).length_eq,
    length_filter_map_filter]

theorem ivGet_cur_stepState (ops : Seg.SegOps) {s : SolState} {cur : Nat}
    (hlt : cur < s.intervals.length) :
    (ivGet (stepState ops s cur).intervals cur).status = newStatus s cur := by
  rw [stepState_intervals]
  have hlen2 : (ivsTwo s cur).length = s.intervals.length :=
    List.length_set s.intervals cur (newIv s cur)
  have hlen3 : (ivsThree s cur).length = (ivsTwo s cur).length :=
    length_eq_of_map_skelStat (map_skelStat_bumps _ _)
  have hlen4 : (List.foldl bumpScore (ivsTwo s cur) (clashList s cur)).length
      = (ivsThree s cur).length := rfl
  have h1 : (ivGet (ivsThree s cur) cur).status =
      (ivGet (ivsTwo s cur) cur).status :=
    (skelStat_eq_of_map (map_skelStat_bumps _ _) cur (by omega)).2
  rw [h1, ivsTwo, ivGet_set_self _ hlt]
  rfl

theorem bounds_nodup_state {ipi : IntervalProblemInstance} {m0 : Nat}
    {s : SolState} (hval : validIpiB ipi = true) (hinv : SInv ipi m0 s) :
    (s.intervals.map (fun iv => (iv.startTime, iv.endTime))).Nodup := by
  obtain ⟨hnodup, _⟩ := validIpi_parts hval
  have hmap := hinv.2.2.1
  have he : ∀ l : List Interval,
      l.map (fun iv => (iv.startTime, iv.endTime)) =
        (l.map skel).map (fun x => (x.1, x.2.1)) := by
    intro l
    rw [List.map_map]
    rfl
  rw [he, hmap, ← he]
  exact hnodup

theorem ivGet_bounds_inj {l : List Interval}
    (hnd : (l.map (fun iv => (iv.startTime, iv.endTime))).Nodup)
    {i j : Nat} (hi : i < l.length) (hj : j < l.length) (hij : i ≠ j)
    (h1 : (ivGet l i).startTime = (ivGet l j).startTime)
    (h2 : (ivGet l i).endTime = (ivGet l j).endTime) : False := by
  have hgi : ivGet l i = l[i] := by
    rw [ivGet, List.getD_eq_getElem _ _ hi]
  have hgj : ivGet l j = l[j] := by
    rw [ivGet, List.getD_eq_getElem _ _ hj]
  have hi2 : i < (l.map (fun iv => (iv.startTime, iv.endTime))).length := by
    simpa using hi
  have hj2 : j < (l.map (fun iv => (iv.startTime, iv.endTime))).length := by
    simpa using hj
  have hmi : (l.map (fun iv => (iv.startTime, iv.endTime)))[i] =
      (l.map (fun iv => (iv.startTime, iv.endTime)))[j] := by
    rw [List.getElem_map, List.getElem_map]
    rw [hgi, hgj] at h1 h2
    rw [h1, h2]
  exact hij ((List.Nodup.getElem_inj_iff hnd).mp hmi)


/-- The state at the beginning of loop iteration `k + 1` (i.e. after `k`
completed iterations). -/
def loopState (ops : Seg.SegOps) (ipi : IntervalProblemInstance)
    (m0 k : Nat) : SolState :=
  solveLoop ops k (initState ipi m0)

end Solver

/-- C2: in every iteration of the AMC loop the processed interval `cur` is
an Unset interval of maximal score among the enqueued (Unset) intervals,
with ties broken towards the lexicographically smallest
`(startTime, endTime)`; and it is assigned its second endpoint exactly when
the number of already-assigned clashing intervals at the first endpoint
strictly exceeds that number at the second endpoint (first endpoint on
ties). -/
theorem amc_loop_selection_assignment (ipi : IntervalProblemInstance)
    (m0 k cur : Nat) (hval : Solver.validIpiB ipi = true)
    (hcur : Solver.queueMin
      (Solver.loopState Seg.plusMaxOps ipi m0 k).intervals
      (Solver.loopState Seg.plusMaxOps ipi m0 k).queue = some cur) :
    (Solver.ivGet (Solver.loopState Seg.plusMaxOps ipi m0 k).intervals
        cur).status = IntervalStatus.NOT_SET ∧
    (∀ j ∈ (Solver.loopState Seg.plusMaxOps ipi m0 k).queue, j ≠ cur →
      (Solver.ivGet (Solver.loopState Seg.plusMaxOps ipi m0 k).intervals
          j).score <
        (Solver.ivGet (Solver.loopState Seg.plusMaxOps ipi m0 k).intervals
          cur).score ∨
      ((Solver.ivGet (Solver.loopState Seg.plusMaxOps ipi m0 k).intervals
          j).score =
        (Solver.ivGet (Solver.loopState Seg.plusMaxOps ipi m0 k).intervals
          cur).score ∧
        Interval.ltB
          (Solver.ivGet (Solver.loopState Seg.plusMaxOps ipi m0 k).intervals
            cur)
          (Solver.ivGet (Solver.loopState Seg.plusMaxOps ipi m0 k).intervals
            j) = true)) ∧
    (Solver.ivGet (Solver.stepState Seg.plusMaxOps
        (Solver.loopState Seg.plusMaxOps ipi m0 k) cur).intervals
        cur).status =
      (if ((Solver.loopState Seg.plusMaxOps ipi m0 k).intervals.filter
            (fun jv => Solver.assignedToB jv
              (Solver.ivGet
                (Solver.loopState Seg.plusMaxOps ipi m0 k).intervals
                  cur).nodes.2 &&
              ITree.clashB (jv.startTime, jv.endTime)
                ((Solver.ivGet
                  (Solver.loopState Seg.plusMaxOps ipi m0 k).intervals
                    cur).startTime,
                 (Solver.ivGet
                  (Solver.loopState Seg.plusMaxOps ipi m0 k).intervals
                    cur).endTime))).length <
          ((Solver.loopState Seg.plusMaxOps ipi m0 k).intervals.filter
            (fun jv => Solver.assignedToB jv
              (Solver.ivGet
                (Solver.loopState Seg.plusMaxOps ipi m0 k).intervals
                  cur).nodes.1 &&
              ITree.clashB (jv.startTime, jv.endTime)
                ((Solver.ivGet
                  (Solver.loopState Seg.plusMaxOps ipi m0 k).intervals
                    cur).startTime,
                 (Solver.ivGet
                  (Solver.loopState Seg.plusMaxOps ipi m0 k).intervals
                    cur).endTime))).length
        then IntervalStatus.SECOND_NODE_SELECTED
        else IntervalStatus.FIRST_NODE_SELECTED) := by
  have hinv := (Solver.SInv_loop hval k (Solver.initState ipi m0)
    (Solver.SInv_init ipi m0 hval)).1
  rw [show Solver.solveLoop Seg.plusMaxOps k (Solver.initState ipi m0) =
    Solver.loopState Seg.plusMaxOps ipi m0 k from rfl] at hinv
  have hq := hinv.2.2.2.2.1
  have hcq := Solver.queueMin_mem hcur
  have hlt : cur < (Solver.loopState Seg.plusMaxOps ipi m0 k).intervals.length :=
    ((hq cur).mp hcq).1
  have hcst := ((hq cur).mp hcq).2
  obtain ⟨hnodup, hall⟩ := Solver.validIpi_parts hval
  have hmap := hinv.2.2.1
  have hlen := Solver.length_eq_of_map_skel hmap
  have hskc := Solver.skel_eq_of_map hmap cur hlt
  have hivmem : Solver.ivGet ipi.intervals cur ∈ ipi.intervals := by
    rw [Solver.ivGet, List.getD_eq_getElem _ _ (by omega)]
    exact List.getElem_mem _
  obtain ⟨hn1, hn2, hsse, hetf, _⟩ := hall _ hivmem
  obtain ⟨hb1, hb2, hb3, hb4⟩ := Solver.skel_fields hskc
  have hv1 : (Solver.ivGet (Solver.loopState Seg.plusMaxOps ipi m0 k).intervals
      cur).nodes.1 < ipi.V := by omega
  have hv2 : (Solver.ivGet (Solver.loopState Seg.plusMaxOps ipi m0 k).intervals
      cur).nodes.2 < ipi.V := by omega
  refine ⟨hcst, ?_, ?_⟩
  · intro j hj hne
    rcases Solver.queueMin_min hcur j hj with hk | hk | hk
    · exact absurd hk hne
    · rw [Solver.scoreLtB_iff] at hk
      rcases hk with h | ⟨h1, h2⟩
      · exact Or.inl h
      · refine Or.inr ⟨h1.symm, ?_⟩
        simp only [Interval.ltB, Bool.or_eq_true, Bool.and_eq_true,
          decide_eq_true_eq, beq_iff_eq]
        omega
    · obtain ⟨hbs, hbe⟩ := Solver.scoreLtB_antisymm_bounds hk.1 hk.2
      have hltj : j < (Solver.loopState Seg.plusMaxOps ipi m0 k).intervals.length :=
        ((hq j).mp hj).1
      exact absurd (Solver.ivGet_bounds_inj
        (Solver.bounds_nodup_state hval hinv) hlt hltj
        (fun hc => hne hc.symm) hbs hbe) (fun h => h)
  · rw [Solver.ivGet_cur_stepState Seg.plusMaxOps hlt, Solver.newStatus,
      Solver.countClashes_spec hinv hv1, Solver.countClashes_spec hinv hv2]

def ipiScenarioQ : IntervalProblemInstance :=
  ⟨2, 1, 2, [⟨0, 1, (0, 1), IntervalStatus.NOT_SET, 0⟩]⟩

/-- C2 witness: the hypotheses hold for a singleton one-interval instance
at the first iteration, and the theorem instantiates to it. -/
theorem amc_loop_selection_assignment_witness :
    Solver.validIpiB ipiScenarioQ = true ∧
    Solver.queueMin
      (Solver.loopState Seg.plusMaxOps ipiScenarioQ 0 0).intervals
      (Solver.loopState Seg.plusMaxOps ipiScenarioQ 0 0).queue = some 0 ∧
    (Solver.ivGet (Solver.loopState Seg.plusMaxOps ipiScenarioQ 0 0).intervals
      0).status = IntervalStatus.NOT_SET :=
  ⟨by decide, by decide,
    (amc_loop_selection_assignment ipiScenarioQ 0 0 0 (by decide)
      (by decide)).1⟩

namespace Seg

theorem lazy_le_value {nd : SNode} (hv : VINV nd) : nd.lazyAcc ≤ nd.value := by
  cases nd with
  | leafless v lz lo hi =>
      show lz ≤ v
      have h : v = lz := hv
      omega
  | branch v lz lo hi l r =>
      show lz ≤ v
      have h : v = lz + max l.value r.value := hv.1
      omega

theorem val_add_le {nd : SNode} (hw : WFS nd) (hv : VINV nd) {v B : Nat}
    (hb : ∀ i, nd.lo ≤ i → i ≤ nd.hi → reprF nd i + v ≤ B) :
    nd.value + v ≤ B := by
  obtain ⟨j, hj1, hj2, hj⟩ := rangeMaxF_attained (f := reprF nd) (WFS_le hw)
  rw [value_eq_rangeMax hw hv, hj]
  exact hb j hj1 hj2

/-- On an 8-bit tree, `addLazy` computes the same node as the exact tree
as long as the incremented value fits in 8 bits. -/
theorem addLazy_u8 {c : SNode} (hv : VINV c) (amt sz : Nat)
    (hb : c.value + amt ≤ 255) :
    SNode.addLazy plusMaxU8Ops amt sz c = SNode.addLazy plusMaxOps amt sz c := by
  have hlz : c.lazyAcc ≤ c.value := lazy_le_value hv
  cases c with
  | leafless v lz lo hi =>
      have hv2 : v + amt ≤ 255 := hb
      have hl2 : lz ≤ v := hlz
      show SNode.leafless ((v + amt) % 256) ((lz + amt) % 256) lo hi =
        SNode.leafless (v + amt) (lz + amt) lo hi
      rw [Nat.mod_eq_of_lt (by omega), Nat.mod_eq_of_lt (by omega)]
  | branch v lz lo hi l r =>
      have hv2 : v + amt ≤ 255 := hb
      have hl2 : lz ≤ v := hlz
      show SNode.branch ((v + amt) % 256) ((lz + amt) % 256) lo hi l r =
        SNode.branch (v + amt) (lz + amt) lo hi l r
      rw [Nat.mod_eq_of_lt (by omega), Nat.mod_eq_of_lt (by omega)]

/-- The child allocation and lazy push agree between the 8-bit and the
exact instantiation when the node's value fits in 8 bits. -/
theorem allocProp_u8 {nd : SNode} (hv : VINV nd) (hb : nd.value ≤ 255) :
    propagateDown plusMaxU8Ops (allocateChildren nd) =
      propagateDown plusMaxOps (allocateChildren nd) := by
  cases nd with
  | leafless v lz lo hi =>
      have hveq : v = lz := hv
      have hlz : lz ≤ 255 := by have : v ≤ 255 := hb; omega
      by_cases hlohi : lo = hi
      · rw [allocateChildren, if_pos hlohi]
        rfl
      · rw [allocateChildren, if_neg hlohi]
        show SNode.branch v 0 lo hi
            (SNode.leafless ((0 + lz) % 256) ((0 + lz) % 256) lo
              (lo + (hi - lo) / 2))
            (SNode.leafless ((0 + lz) % 256) ((0 + lz) % 256)
              (lo + (hi - lo) / 2 + 1) hi) =
          SNode.branch v 0 lo hi
            (SNode.leafless (0 + lz) (0 + lz) lo (lo + (hi - lo) / 2))
            (SNode.leafless (0 + lz) (0 + lz) (lo + (hi - lo) / 2 + 1) hi)
        rw [Nat.mod_eq_of_lt (by omega)]
  | branch v lz lo hi l r =>
      have hveq : v = lz + max l.value r.value := hv.1
      have hbv : v ≤ 255 := hb
      show SNode.branch v 0 lo hi
          (SNode.addLazy plusMaxU8Ops lz (segmentSize (lo, hi) / 2) l)
          (SNode.addLazy plusMaxU8Ops lz (segmentSize (lo, hi) / 2) r) =
        SNode.branch v 0 lo hi
          (SNode.addLazy plusMaxOps lz (segmentSize (lo, hi) / 2) l)
          (SNode.addLazy plusMaxOps lz (segmentSize (lo, hi) / 2) r)
      rw [addLazy_u8 hv.2.1 lz _ (by
          have := Nat.le_max_left l.value r.value
          omega),
        addLazy_u8 hv.2.2 lz _ (by
          have := Nat.le_max_right l.value r.value
          omega)]

/-- Range insertion on the 8-bit tree builds exactly the same node
structure as on the exact tree, provided the updated represented function
stays within 8 bits on the node's range. -/
theorem insertGo_u8 (q : Nat × Nat) (v : Nat) : ∀ (fuel : Nat) (nd : SNode),
    WFS nd → VINV nd → nd.hi - nd.lo ≤ fuel →
    (∀ i, nd.lo ≤ i → i ≤ nd.hi →
      (if q.1 ≤ i ∧ i ≤ q.2 then reprF nd i + v else reprF nd i) ≤ 255) →
    insertGo plusMaxU8Ops fuel nd q v = insertGo plusMaxOps fuel nd q v := by
  intro fuel
  induction fuel with
  | zero =>
      intro nd hw hv hf hb
      simp only [insertGo]
      split_ifs with hc ho
      · have hcc : q.1 ≤ nd.lo ∧ nd.hi ≤ q.2 := by
          simpa [containsB, SNode.range] using hc
        cases nd with
        | leafless nv lz lo hi =>
            have hle : lo ≤ hi := hw
            have hnvlz : nv = lz := hv
            have hbl := hb lo (Nat.le_refl lo) hle
            rw [if_pos ⟨hcc.1, le_trans hle hcc.2⟩] at hbl
            have hlzb : lz + v ≤ 255 := hbl
            show SNode.leafless ((nv + v) % 256) ((lz + v) % 256) lo hi =
              SNode.leafless (nv + v) (lz + v) lo hi
            rw [Nat.mod_eq_of_lt (by omega), Nat.mod_eq_of_lt (by omega)]
        | branch nv lz lo hi l r =>
            have hb2 : ∀ i, lo ≤ i → i ≤ hi →
                reprF (SNode.branch nv lz lo hi l r) i + v ≤ 255 := by
              intro i h1 h2
              have := hb i h1 h2
              rwa [if_pos ⟨le_trans hcc.1 h1, le_trans h2 hcc.2⟩] at this
            have hnvb : nv + v ≤ 255 := val_add_le hw hv hb2
            have hlz : lz ≤ nv := lazy_le_value hv
            show SNode.branch ((nv + v) % 256) ((lz + v) % 256) lo hi l r =
              SNode.branch (nv + v) (lz + v) lo hi l r
            rw [Nat.mod_eq_of_lt (by omega), Nat.mod_eq_of_lt (by omega)]
      · rfl
      · rfl
  | succ fuel ih =>
      intro nd hw hv hf hb
      simp only [insertGo]
      split_ifs with hc ho
      · have hcc : q.1 ≤ nd.lo ∧ nd.hi ≤ q.2 := by
          simpa [containsB, SNode.range] using hc
        cases nd with
        | leafless nv lz lo hi =>
            have hle : lo ≤ hi := hw
            have hnvlz : nv = lz := hv
            have hbl := hb lo (Nat.le_refl lo) hle
            rw [if_pos ⟨hcc.1, le_trans hle hcc.2⟩] at hbl
            have hlzb : lz + v ≤ 255 := hbl
            show SNode.leafless ((nv + v) % 256) ((lz + v) % 256) lo hi =
              SNode.leafless (nv + v) (lz + v) lo hi
            rw [Nat.mod_eq_of_lt (by omega), Nat.mod_eq_of_lt (by omega)]
        | branch nv lz lo hi l r =>
            have hb2 : ∀ i, lo ≤ i → i ≤ hi →
                reprF (SNode.branch nv lz lo hi l r) i + v ≤ 255 := by
              intro i h1 h2
              have := hb i h1 h2
              rwa [if_pos ⟨le_trans hcc.1 h1, le_trans h2 hcc.2⟩] at this
            have hnvb : nv + v ≤ 255 := val_add_le hw hv hb2
            have hlz : lz ≤ nv := lazy_le_value hv
            show SNode.branch ((nv + v) % 256) ((lz + v) % 256) lo hi l r =
              SNode.branch (nv + v) (lz + v) lo hi l r
            rw [Nat.mod_eq_of_lt (by omega), Nat.mod_eq_of_lt (by omega)]
      · have hlt : nd.lo < nd.hi := guards_lt hw hc ho
        have hvalb : nd.value ≤ 255 := by
          have := val_add_le (v := 0) (B := 255) hw hv (fun i h1 h2 => by
            have := hb i h1 h2
            split_ifs at this <;> omega)
          omega
        rw [allocProp_u8 hv hvalb]
        obtain ⟨l, r, heq, hwB, hvB, hrep⟩ := allocProp_spec hw hv hlt
        rw [heq]
        obtain ⟨hltB, hllo, hlhi, hrlo, hrhi, hwl, hwr⟩ := hwB
        have hbl : ∀ i, l.lo ≤ i → i ≤ l.hi →
            (if q.1 ≤ i ∧ i ≤ q.2 then reprF l i + v else reprF l i) ≤ 255 := by
          intro i h1 h2
          have hrl : reprF l i = reprF nd i := by
            rw [← hrep i]
            show reprF l i = 0 + (if i ≤ l.hi then reprF l i else reprF r i)
            rw [if_pos h2]
            omega
          rw [hrl]
          exact hb i (by omega) (by omega)
        have hbr : ∀ i, r.lo ≤ i → i ≤ r.hi →
            (if q.1 ≤ i ∧ i ≤ q.2 then reprF r i + v else reprF r i) ≤ 255 := by
          intro i h1 h2
          have hrr : reprF r i = reprF nd i := by
            rw [← hrep i]
            show reprF r i = 0 + (if i ≤ l.hi then reprF l i else reprF r i)
            rw [if_neg (by omega)]
            omega
          rw [hrr]
          exact hb i (by omega) (by omega)
        have ihl2 := ih l hwl hvB.2.1 (by omega) hbl
        have ihr2 := ih r hwr hvB.2.2 (by omega) hbr
        show SNode.branch
            (plusMaxU8Ops.accum (insertGo plusMaxU8Ops fuel l q v).value
              (insertGo plusMaxU8Ops fuel r q v).value) 0 nd.lo nd.hi
            (insertGo plusMaxU8Ops fuel l q v)
            (insertGo plusMaxU8Ops fuel r q v) =
          SNode.branch
            (plusMaxOps.accum (insertGo plusMaxOps fuel l q v).value
              (insertGo plusMaxOps fuel r q v).value) 0 nd.lo nd.hi
            (insertGo plusMaxOps fuel l q v)
            (insertGo plusMaxOps fuel r q v)
        rw [ihl2, ihr2]
        rfl
      · rfl

/-- Range queries on the 8-bit tree return the exact answer and mutate the
tree identically, provided the represented function fits in 8 bits on the
node's range. -/
theorem queryGo_u8 (q : Nat × Nat) : ∀ (fuel : Nat) (nd : SNode),
    WFS nd → VINV nd → nd.hi - nd.lo ≤ fuel →
    (∀ i, nd.lo ≤ i → i ≤ nd.hi → reprF nd i ≤ 255) →
    queryGo plusMaxU8Ops fuel nd q = queryGo plusMaxOps fuel nd q := by
  intro fuel
  induction fuel with
  | zero =>
      intro nd hw hv hf hb
      simp only [queryGo]
      split_ifs with hc ho
      · rfl
      · rfl
      · rfl
  | succ fuel ih =>
      intro nd hw hv hf hb
      simp only [queryGo]
      split_ifs with hc ho
      · rfl
      · have hlt : nd.lo < nd.hi := guards_lt hw hc ho
        have hvalb : nd.value ≤ 255 := by
          have := val_add_le (v := 0) (B := 255) hw hv
            (fun i h1 h2 => by have := hb i h1 h2; omega)
          omega
        rw [allocProp_u8 hv hvalb]
        obtain ⟨l, r, heq, hwB, hvB, hrep⟩ := allocProp_spec hw hv hlt
        rw [heq]
        obtain ⟨hltB, hllo, hlhi, hrlo, hrhi, hwl, hwr⟩ := hwB
        have hbl : ∀ i, l.lo ≤ i → i ≤ l.hi → reprF l i ≤ 255 := by
          intro i h1 h2
          have hrl : reprF l i = reprF nd i := by
            rw [← hrep i]
            show reprF l i = 0 + (if i ≤ l.hi then reprF l i else reprF r i)
            rw [if_pos h2]
            omega
          rw [hrl]
          exact hb i (by omega) (by omega)
        have hbr : ∀ i, r.lo ≤ i → i ≤ r.hi → reprF r i ≤ 255 := by
          intro i h1 h2
          have hrr : reprF r i = reprF nd i := by
            rw [← hrep i]
            show reprF r i = 0 + (if i ≤ l.hi then reprF l i else reprF r i)
            rw [if_neg (by omega)]
            omega
          rw [hrr]
          exact hb i (by omega) (by omega)
        have ihl2 := ih l hwl hvB.2.1 (by omega) hbl
        have ihr2 := ih r hwr hvB.2.2 (by omega) hbr
        show (plusMaxU8Ops.accum (queryGo plusMaxU8Ops fuel l q).1
            (queryGo plusMaxU8Ops fuel r q).1,
          SNode.branch nd.value 0 nd.lo nd.hi
            (queryGo plusMaxU8Ops fuel l q).2
            (queryGo plusMaxU8Ops fuel r q).2) =
          (plusMaxOps.accum (queryGo plusMaxOps fuel l q).1
            (queryGo plusMaxOps fuel r q).1,
          SNode.branch nd.value 0 nd.lo nd.hi
            (queryGo plusMaxOps fuel l q).2
            (queryGo plusMaxOps fuel r q).2)
        rw [ihl2, ihr2]
        rfl
      · rfl

/-- Tree-level 8-bit/exact agreement for one insertion. -/
theorem insert_u8 {f : Nat → Nat} {t : SegTree} (h : TWF f t) (l r v : Nat)
    (hb : ∀ i, applyUpd f l r v i ≤ 255) :
    t.insert plusMaxU8Ops l r v = t.insert plusMaxOps l r v := by
  obtain ⟨hw, hv, hlo, hsz, hrep⟩ := h
  show (⟨t.size, insertGo plusMaxU8Ops (t.root.hi - t.root.lo) t.root
      (l, r) v⟩ : SegTree) =
    ⟨t.size, insertGo plusMaxOps (t.root.hi - t.root.lo) t.root (l, r) v⟩
  rw [insertGo_u8 (l, r) v (t.root.hi - t.root.lo) t.root hw hv (le_refl _)
    (fun i h1 h2 => by
      have hbi := hb i
      simp only [applyUpd] at hbi
      show (if l ≤ i ∧ i ≤ r then reprF t.root i + v else reprF t.root i)
        ≤ 255
      rw [hrep i h2]
      exact hbi)]

/-- Tree-level 8-bit/exact agreement for one query. -/
theorem query_u8 {f : Nat → Nat} {t : SegTree} (h : TWF f t) (l r : Nat)
    (hb : ∀ i, f i ≤ 255) :
    t.query plusMaxU8Ops l r = t.query plusMaxOps l r := by
  obtain ⟨hw, hv, hlo, hsz, hrep⟩ := h
  show ((queryGo plusMaxU8Ops (t.root.hi - t.root.lo) t.root (l, r)).1,
      (⟨t.size, (queryGo plusMaxU8Ops (t.root.hi - t.root.lo) t.root
        (l, r)).2⟩ : SegTree)) =
    ((queryGo plusMaxOps (t.root.hi - t.root.lo) t.root (l, r)).1,
      ⟨t.size, (queryGo plusMaxOps (t.root.hi - t.root.lo) t.root (l, r)).2⟩)
  rw [queryGo_u8 (l, r) (t.root.hi - t.root.lo) t.root hw hv (le_refl _)
    (fun i h1 h2 => by rw [hrep i h2]; exact hb i)]

end Seg

namespace Solver

theorem stepState_eq (ops : Seg.SegOps) (s : SolState) (cur : Nat) :
    stepState ops s cur = ⟨ivsThree s cur, s.V, s.timeframe,
      s.setTrees.set (asgV s cur)
        (ITree.insertI (treeAt s.setTrees (asgV s cur))
          ((ivGet s.intervals cur).startTime,
            (ivGet s.intervals cur).endTime)),
      nstTwo s cur, s.outdeg.set (asgV s cur) (qRes ops s cur).2,
      s.queue.erase cur, max (qRes ops s cur).1 s.maxOutdegree⟩ := rfl

theorem asgV_lt {ipi : IntervalProblemInstance} {m0 : Nat} {s : SolState}
    (hval : validIpiB ipi = true) (hinv : SInv ipi m0 s) {cur : Nat}
    (hcur : queueMin s.intervals s.queue = some cur) :
    asgV s cur < ipi.V := by
  have hq := hinv.2.2.2.2.1
  have hlt : cur < s.intervals.length := ((hq cur).mp (queueMin_mem hcur)).1
  obtain ⟨hnodup, hall⟩ := validIpi_parts hval
  have hmap := hinv.2.2.1
  have hlen := length_eq_of_map_skel hmap
  have hivmem : ivGet ipi.intervals cur ∈ ipi.intervals := by
    rw [ivGet, List.getD_eq_getElem _ _ (by omega)]
    exact List.getElem_mem _
  obtain ⟨hn1, hn2, _, _, _⟩ := hall _ hivmem
  obtain ⟨hs1, hs2, hs3, hs4⟩ := skel_fields (skel_eq_of_map hmap cur hlt)
  rw [asgV, getAssignedNode]
  split_ifs
  · show (newIv s cur).nodes.1 < ipi.V
    rw [show (newIv s cur).nodes = (ivGet s.intervals cur).nodes from rfl]
    omega
  · show (newIv s cur).nodes.2 < ipi.V
    rw [show (newIv s cur).nodes = (ivGet s.intervals cur).nodes from rfl]
    omega

/-- The pointwise effect of the outdeg insertion for the processed interval
is exactly the ownership count after the assignment. -/
theorem applyUpd_outCount {s : SolState} {cur : Nat}
    (hlt : cur < s.intervals.length)
    (hold : (ivGet s.intervals cur).status = IntervalStatus.NOT_SET)
    (t : Nat) :
    Seg.applyUpd (fun u => outCount s.intervals (asgV s cur) u)
      (ivGet s.intervals cur).startTime (ivGet s.intervals cur).endTime 1 t =
    outCount (ivsTwo s cur) (asgV s cur) t := by
  rw [ivsTwo, outCount_set hlt hold]
  simp only [Seg.applyUpd]
  have hasgT : assignedToB (newIv s cur) (asgV s cur) = true :=
    assignedToB_self (newIv_status_ne s cur)
  rw [hasgT,
    show (newIv s cur).startTime = (ivGet s.intervals cur).startTime from rfl,
    show (newIv s cur).endTime = (ivGet s.intervals cur).endTime from rfl]
  by_cases hc1 : (ivGet s.intervals cur).startTime ≤ t
  · by_cases hc2 : t ≤ (ivGet s.intervals cur).endTime
    · rw [if_pos ⟨hc1, hc2⟩]
      simp [hc1, hc2]
    · rw [if_neg (by tauto)]
      simp [hc2]
  · rw [if_neg (by tauto)]
    simp [hc1]

/-- One loop iteration computes the same state with the 8-bit outdeg
manager as with the exact one, provided the assigned vertex's ownership
counts after the assignment all fit in 8 bits. -/
theorem stepState_u8 {ipi : IntervalProblemInstance} {m0 : Nat} {s : SolState}
    (hval : validIpiB ipi = true) (hinv : SInv ipi m0 s) {cur : Nat}
    (hcur : queueMin s.intervals s.queue = some cur)
    (hb : ∀ t, outCount (ivsTwo s cur) (asgV s cur) t ≤ 255) :
    stepState Seg.plusMaxU8Ops s cur = stepState Seg.plusMaxOps s cur := by
  have hq := hinv.2.2.2.2.1
  have hcq := queueMin_mem hcur
  have hlt : cur < s.intervals.length := ((hq cur).mp hcq).1
  have hold := ((hq cur).mp hcq).2
  obtain ⟨hnodup, hall⟩ := validIpi_parts hval
  have hmap := hinv.2.2.1
  have hlen := length_eq_of_map_skel hmap
  have hivmem : ivGet ipi.intervals cur ∈ ipi.intervals := by
    rw [ivGet, List.getD_eq_getElem _ _ (by omega)]
    exact List.getElem_mem _
  obtain ⟨hn1, hn2, hsse, hetf, _⟩ := hall _ hivmem
  obtain ⟨hs1, hs2, hs3, hs4⟩ := skel_fields (skel_eq_of_map hmap cur hlt)
  have hasglt : asgV s cur < ipi.V := asgV_lt hval hinv hcur
  obtain ⟨htwf, hsz⟩ := hinv.2.2.2.2.2.2.2.2.1 (asgV s cur) hasglt
  have hupd := fun t => applyUpd_outCount hlt hold t
  have hb2 : ∀ i, Seg.applyUpd (fun u => outCount s.intervals (asgV s cur) u)
      (ivGet s.intervals cur).startTime (ivGet s.intervals cur).endTime 1 i
        ≤ 255 :=
    fun i => by rw [hupd i]; exact hb i
  have h1 : odTree Seg.plusMaxU8Ops s cur = odTree Seg.plusMaxOps s cur := by
    rw [odTree, odTree]
    exact Seg.insert_u8 htwf _ _ 1 hb2
  have h2 : Seg.TWF (Seg.applyUpd
      (fun u => outCount s.intervals (asgV s cur) u)
      (ivGet s.intervals cur).startTime (ivGet s.intervals cur).endTime 1)
      (odTree Seg.plusMaxOps s cur) := by
    rw [odTree]
    exact Seg.TWF_insert htwf 1 (by omega) (by rw [hsz]; omega)
  have h3 : qRes Seg.plusMaxU8Ops s cur = qRes Seg.plusMaxOps s cur := by
    rw [qRes, qRes, h1]
    exact Seg.query_u8 h2 _ _ hb2
  rw [stepState_eq, stepState_eq, h3]

theorem outCount_stepState_ge (ops : Seg.SegOps) {s : SolState} {cur : Nat}
    (hlt : cur < s.intervals.length)
    (hold : (ivGet s.intervals cur).status = IntervalStatus.NOT_SET)
    (v t : Nat) :
    outCount s.intervals v t ≤ outCount (stepState ops s cur).intervals v t := by
  have h3 : outCount (ivsThree s cur) v t = outCount (ivsTwo s cur) v t :=
    outCount_proj_eq (map_skelStat_bumps (clashList s cur) (ivsTwo s cur)) v t
  rw [stepState_intervals, h3, ivsTwo, outCount_set hlt hold]
  omega

theorem outCount_loop_le {ipi : IntervalProblemInstance} {m0 : Nat}
    (hval : validIpiB ipi = true) :
    ∀ (fuel : Nat) (s : SolState), SInv ipi m0 s → ∀ v t,
      outCount s.intervals v t ≤
        outCount (solveLoop Seg.plusMaxOps fuel s).intervals v t := by
  intro fuel
  induction fuel with
  | zero => intro s _ v t; exact Nat.le_refl _
  | succ fuel ih =>
      intro s hs v t
      cases hqm : queueMin s.intervals s.queue with
      | none =>
          rw [show solveLoop Seg.plusMaxOps (fuel + 1) s = s from by
            rw [solveLoop, hqm]]
      | some cur =>
          rw [show solveLoop Seg.plusMaxOps (fuel + 1) s =
            solveLoop Seg.plusMaxOps fuel (stepState Seg.plusMaxOps s cur)
            from by rw [solveLoop, hqm]]
          have hq := hs.2.2.2.2.1
          have hcq := queueMin_mem hqm
          have hlt : cur < s.intervals.length := ((hq cur).mp hcq).1
          have hold := ((hq cur).mp hcq).2
          exact le_trans (outCount_stepState_ge Seg.plusMaxOps hlt hold v t)
            (ih _ (SInv_step hval hs hqm) v t)

/-- The whole loop computes the same state with the 8-bit outdeg manager
as with the exact one, provided the final ownership counts (which only
grow along the loop) all fit in 8 bits. -/
theorem solveLoop_u8 {ipi : IntervalProblemInstance} {m0 : Nat}
    (hval : validIpiB ipi = true) :
    ∀ (fuel : Nat) (s : SolState), SInv ipi m0 s →
      (∀ v, v < ipi.V → ∀ t,
        outCount (solveLoop Seg.plusMaxOps fuel s).intervals v t ≤ 255) →
      solveLoop Seg.plusMaxU8Ops fuel s = solveLoop Seg.plusMaxOps fuel s := by
  intro fuel
  induction fuel with
  | zero => intro s _ _; rfl
  | succ fuel ih =>
      intro s hs hb
      cases hqm : queueMin s.intervals s.queue with
      | none =>
          rw [show solveLoop Seg.plusMaxU8Ops (fuel + 1) s = s from by
              rw [solveLoop, hqm],
            show solveLoop Seg.plusMaxOps (fuel + 1) s = s from by
              rw [solveLoop, hqm]]
      | some cur =>
          have hq := hs.2.2.2.2.1
          have hcq := queueMin_mem hqm
          have hlt : cur < s.intervals.length := ((hq cur).mp hcq).1
          have hold := ((hq cur).mp hcq).2
          have hstep := SInv_step hval hs hqm
          have hbf : ∀ v, v < ipi.V → ∀ t,
              outCount (solveLoop Seg.plusMaxOps fuel
                (stepState Seg.plusMaxOps s cur)).intervals v t ≤ 255 := by
            intro v hv t
            have := hb v hv t
            rwa [show solveLoop Seg.plusMaxOps (fuel + 1) s =
              solveLoop Seg.plusMaxOps fuel (stepState Seg.plusMaxOps s cur)
              from by rw [solveLoop, hqm]] at this
          have hbv : ∀ t, outCount (ivsTwo s cur) (asgV s cur) t ≤ 255 := by
            intro t
            refine le_trans (le_of_eq ?_) (le_trans
              (outCount_loop_le hval fuel _ hstep (asgV s cur) t)
              (hbf _ (asgV_lt hval hs hqm) t))
            rw [stepState_intervals]
            exact (outCount_proj_eq
              (map_skelStat_bumps (clashList s cur) (ivsTwo s cur)) _ t).symm
          have hu8 := stepState_u8 hval hs hqm hbv
          rw [show solveLoop Seg.plusMaxU8Ops (fuel + 1) s =
              solveLoop Seg.plusMaxU8Ops fuel
                (stepState Seg.plusMaxU8Ops s cur) from by rw [solveLoop, hqm],
            show solveLoop Seg.plusMaxOps (fuel + 1) s =
              solveLoop Seg.plusMaxOps fuel (stepState Seg.plusMaxOps s cur)
              from by rw [solveLoop, hqm],
            hu8]
          exact ih _ hstep hbf

theorem solveInstance_u8 {ipi : IntervalProblemInstance} {m0 : Nat}
    (hval : validIpiB ipi = true)
    (hb : ∀ v, v < ipi.V → ∀ t,
      outCount (solveInstance Seg.plusMaxOps ipi m0).intervals v t ≤ 255) :
    solveInstance Seg.plusMaxU8Ops ipi m0 =
      solveInstance Seg.plusMaxOps ipi m0 :=
  solveLoop_u8 hval ipi.intervals.length (initState ipi m0)
    (SInv_init ipi m0 hval) hb

end Solver

/-- C10: the outdeg manager keeps each vertex's out-degree timeline in a
`SegmentTreePlusMax<uint8_t>`, so per-time ownership counts are updated
modulo 2^8; when the true peak load (over all vertices and times) stays
within 255, the 8-bit run coincides with the exact run and the reported
`maxOutdegree` (entered as 0) equals that true peak. -/
theorem solver_u8_outdeg_mod256 (ipi : IntervalProblemInstance)
    (hval : Solver.validIpiB ipi = true)
    (hpk : Solver.peakF
      (Solver.solveInstance Seg.plusMaxOps ipi 0).intervals
      ipi.V ipi.timeframe ≤ 255) :
    Seg.plusMaxU8Ops.update = (fun x y => (x + y) % 256) ∧
    Solver.solveInstance Seg.plusMaxU8Ops ipi 0 =
      Solver.solveInstance Seg.plusMaxOps ipi 0 ∧
    (Solver.solveInstance Seg.plusMaxU8Ops ipi 0).maxOutdegree =
      Solver.peakF
        (Solver.solveInstance Seg.plusMaxU8Ops ipi 0).intervals
        ipi.V ipi.timeframe := by
  have hfin := @Solver.solveInstance_final ipi 0 hval
  have hinv := hfin.1
  have hlen := Solver.length_eq_of_map_skel hinv.2.2.1
  have hend : ∀ iv ∈ (Solver.solveInstance Seg.plusMaxOps ipi 0).intervals,
      iv.endTime < ipi.timeframe := by
    intro iv hiv
    obtain ⟨i, hi, heq⟩ := List.mem_iff_getElem.mp hiv
    obtain ⟨_, he2, _, _⟩ :=
      Solver.skel_fields (Solver.skel_eq_of_map hinv.2.2.1 i hi)
    have hmem2 : Solver.ivGet ipi.intervals i ∈ ipi.intervals := by
      rw [Solver.ivGet, List.getD_eq_getElem _ _ (by omega)]
      exact List.getElem_mem _
    obtain ⟨_, _, _, hetf, _⟩ := (Solver.validIpi_parts hval).2 _ hmem2
    have hgi : Solver.ivGet
        (Solver.solveInstance Seg.plusMaxOps ipi 0).intervals i = iv := by
      rw [Solver.ivGet, List.getD_eq_getElem _ _ hi]
      exact heq
    rw [← hgi]
    omega
  have hble : ∀ v, v < ipi.V → ∀ t,
      Solver.outCount (Solver.solveInstance Seg.plusMaxOps ipi 0).intervals
        v t ≤ 255 := by
    intro v hv t
    by_cases ht : t < ipi.timeframe
    · refine le_trans ?_ hpk
      have h1 : Solver.outCount
          (Solver.solveInstance Seg.plusMaxOps ipi 0).intervals v t ≤
          Solver.vertexPeak
            (Solver.solveInstance Seg.plusMaxOps ipi 0).intervals
            ipi.timeframe v := by
        rw [Solver.vertexPeak]
        exact Seg.le_rangeMaxF (Nat.zero_le t) (by omega)
      have h2 : Solver.vertexPeak
          (Solver.solveInstance Seg.plusMaxOps ipi 0).intervals
          ipi.timeframe v ≤
          Solver.peakF
            (Solver.solveInstance Seg.plusMaxOps ipi 0).intervals
            ipi.V ipi.timeframe := by
        rw [Solver.peakF]
        have h := Seg.le_rangeMaxGo
          (f := fun u => Solver.vertexPeak
            (Solver.solveInstance Seg.plusMaxOps ipi 0).intervals
            ipi.timeframe u) ipi.V 0 v hv
        simpa using h
      exact le_trans h1 h2
    · rw [Solver.outCount_ne_tf hend (by omega) v]
      omega
  have hu8 := Solver.solveInstance_u8 hval hble
  refine ⟨rfl, hu8, ?_⟩
  rw [hu8, hinv.2.2.2.2.2.2.2.2.2, Nat.zero_max]

/-- C10 witness: the 8-bit and exact runs agree on a concrete one-interval
instance whose peak load is 1. -/
theorem solver_u8_outdeg_mod256_witness :
    (Solver.validIpiB ipiScenarioQ = true ∧
      Solver.peakF
        (Solver.solveInstance Seg.plusMaxOps ipiScenarioQ 0).intervals
        ipiScenarioQ.V ipiScenarioQ.timeframe ≤ 255) ∧
    (Solver.solveInstance Seg.plusMaxU8Ops ipiScenarioQ 0).maxOutdegree =
      Solver.peakF
        (Solver.solveInstance Seg.plusMaxU8Ops ipiScenarioQ 0).intervals
        ipiScenarioQ.V ipiScenarioQ.timeframe :=
  ⟨⟨by decide, by decide⟩,
    (solver_u8_outdeg_mod256 ipiScenarioQ (by decide) (by decide)).2.2⟩

namespace Seg

/-- Every value and lazy amount stored in the tree fits in 8 bits (an
invariant of the `uint8_t` instantiation, regardless of overflow). -/
def U8B : SNode → Prop
  | SNode.leafless v lz _ _ => v ≤ 255 ∧ lz ≤ 255
  | SNode.branch v lz _ _ l r => v ≤ 255 ∧ lz ≤ 255 ∧ U8B l ∧ U8B r

theorem U8B_value {nd : SNode} (h : U8B nd) : nd.value ≤ 255 := by
  cases nd with
  | leafless v lz lo hi => exact h.1
  | branch v lz lo hi l r => exact h.1

theorem U8B_addLazy {c : SNode} (h : U8B c) (amt sz : Nat) :
    U8B (SNode.addLazy plusMaxU8Ops amt sz c) := by
  cases c with
  | leafless v lz lo hi =>
      refine ⟨?_, ?_⟩
      · show (v + amt) % 256 ≤ 255
        have := Nat.mod_lt (v + amt) (show 0 < 256 by omega)
        omega
      · show (lz + amt) % 256 ≤ 255
        have := Nat.mod_lt (lz + amt) (show 0 < 256 by omega)
        omega
  | branch v lz lo hi l r =>
      refine ⟨?_, ?_, h.2.2.1, h.2.2.2⟩
      · show (v + amt) % 256 ≤ 255
        have := Nat.mod_lt (v + amt) (show 0 < 256 by omega)
        omega
      · show (lz + amt) % 256 ≤ 255
        have := Nat.mod_lt (lz + amt) (show 0 < 256 by omega)
        omega

theorem U8B_alloc {nd : SNode} (h : U8B nd) : U8B (allocateChildren nd) := by
  cases nd with
  | leafless v lz lo hi =>
      rw [allocateChildren]
      split_ifs
      · exact h
      · exact ⟨h.1, h.2, ⟨by omega, by omega⟩, ⟨by omega, by omega⟩⟩
  | branch v lz lo hi l r => exact h

theorem U8B_prop {nd : SNode} (h : U8B nd) :
    U8B (propagateDown plusMaxU8Ops nd) := by
  cases nd with
  | leafless v lz lo hi => exact ⟨h.1, by omega⟩
  | branch v lz lo hi l r =>
      exact ⟨h.1, by omega, U8B_addLazy h.2.2.1 _ _, U8B_addLazy h.2.2.2 _ _⟩

theorem U8B_insertGo (q : Nat × Nat) (v : Nat) : ∀ (fuel : Nat) (nd : SNode),
    U8B nd → U8B (insertGo plusMaxU8Ops fuel nd q v) := by
  intro fuel
  induction fuel with
  | zero =>
      intro nd h
      simp only [insertGo]
      split_ifs with hc ho
      · cases nd with
        | leafless nv lz lo hi =>
            refine ⟨?_, ?_⟩
            · show (nv + v) % 256 ≤ 255
              have := Nat.mod_lt (nv + v) (show 0 < 256 by omega)
              omega
            · show (lz + v) % 256 ≤ 255
              have := Nat.mod_lt (lz + v) (show 0 < 256 by omega)
              omega
        | branch nv lz lo hi l r =>
            refine ⟨?_, ?_, h.2.2.1, h.2.2.2⟩
            · show (nv + v) % 256 ≤ 255
              have := Nat.mod_lt (nv + v) (show 0 < 256 by omega)
              omega
            · show (lz + v) % 256 ≤ 255
              have := Nat.mod_lt (lz + v) (show 0 < 256 by omega)
              omega
      · exact h
      · exact h
  | succ fuel ih =>
      intro nd h
      simp only [insertGo]
      split_ifs with hc ho
      · cases nd with
        | leafless nv lz lo hi =>
            refine ⟨?_, ?_⟩
            · show (nv + v) % 256 ≤ 255
              have := Nat.mod_lt (nv + v) (show 0 < 256 by omega)
              omega
            · show (lz + v) % 256 ≤ 255
              have := Nat.mod_lt (lz + v) (show 0 < 256 by omega)
              omega
        | branch nv lz lo hi l r =>
            refine ⟨?_, ?_, h.2.2.1, h.2.2.2⟩
            · show (nv + v) % 256 ≤ 255
              have := Nat.mod_lt (nv + v) (show 0 < 256 by omega)
              omega
            · show (lz + v) % 256 ≤ 255
              have := Nat.mod_lt (lz + v) (show 0 < 256 by omega)
              omega
      · have h2 : U8B (propagateDown plusMaxU8Ops (allocateChildren nd)) :=
          U8B_prop (U8B_alloc h)
        generalize hm : propagateDown plusMaxU8Ops (allocateChildren nd) = ndP
        rw [hm] at h2
        cases ndP with
        | leafless a b c d => exact h2
        | branch nv lz lo hi l r =>
            have hl := ih l h2.2.2.1
            have hr := ih r h2.2.2.2
            refine ⟨?_, h2.2.1, hl, hr⟩
            show max (insertGo plusMaxU8Ops fuel l q v).value
              (insertGo plusMaxU8Ops fuel r q v).value ≤ 255
            have hlv := U8B_value hl
            have hrv := U8B_value hr
            omega
      · exact h

theorem U8B_queryGo (q : Nat × Nat) : ∀ (fuel : Nat) (nd : SNode),
    U8B nd → (queryGo plusMaxU8Ops fuel nd q).1 ≤ 255 ∧
      U8B (queryGo plusMaxU8Ops fuel nd q).2 := by
  intro fuel
  induction fuel with
  | zero =>
      intro nd h
      simp only [queryGo]
      split_ifs with hc ho
      · exact ⟨U8B_value h, h⟩
      · refine ⟨?_, h⟩
        show plusMaxU8Ops.neutral ≤ 255
        decide
      · refine ⟨?_, h⟩
        show plusMaxU8Ops.neutral ≤ 255
        decide
  | succ fuel ih =>
      intro nd h
      simp only [queryGo]
      split_ifs with hc ho
      · exact ⟨U8B_value h, h⟩
      · have h2 : U8B (propagateDown plusMaxU8Ops (allocateChildren nd)) :=
          U8B_prop (U8B_alloc h)
        generalize hm : propagateDown plusMaxU8Ops (allocateChildren nd) = ndP
        rw [hm] at h2
        cases ndP with
        | leafless a b c d =>
            refine ⟨?_, h2⟩
            show plusMaxU8Ops.neutral ≤ 255
            decide
        | branch nv lz lo hi l r =>
            obtain ⟨hl1, hl2⟩ := ih l h2.2.2.1
            obtain ⟨hr1, hr2⟩ := ih r h2.2.2.2
            refine ⟨?_, ?_, h2.2.1, hl2, hr2⟩
            · show max (queryGo plusMaxU8Ops fuel l q).1
                (queryGo plusMaxU8Ops fuel r q).1 ≤ 255
              omega
            · exact h2.1
      · refine ⟨?_, h⟩
        show plusMaxU8Ops.neutral ≤ 255
        decide

end Seg

namespace Solver

/-- The components of the state that the control flow of the loop (queue
selection, assignment decisions, interval trees) can ever read; none of
them depends on the outdeg manager's element type. -/
def core (s : SolState) : List Interval × List Nat × List ITree × List ITree :=
  (s.intervals, s.queue, s.setTrees, s.notsetTrees)

theorem core_fields {s s' : SolState} (h : core s = core s') :
    s.intervals = s'.intervals ∧ s.queue = s'.queue ∧
      s.setTrees = s'.setTrees ∧ s.notsetTrees = s'.notsetTrees :=
  ⟨congrArg (fun x => x.1) h, congrArg (fun x => x.2.1) h,
    congrArg (fun x => x.2.2.1) h, congrArg (fun x => x.2.2.2) h⟩

theorem core_stepState (ops ops' : Seg.SegOps) {s s' : SolState}
    (h : core s = core s') (cur : Nat) :
    core (stepState ops s cur) = core (stepState ops' s' cur) := by
  obtain ⟨h1, h2, h3, h4⟩ := core_fields h
  have hns : newStatus s cur = newStatus s' cur := by
    rw [newStatus, newStatus, h1, h3]
  have hni : newIv s cur = newIv s' cur := by
    rw [newIv, newIv, h1, hns]
  have hasg : asgV s cur = asgV s' cur := by
    rw [asgV, asgV, hni]
  have hiv2 : ivsTwo s cur = ivsTwo s' cur := by
    rw [ivsTwo, ivsTwo, h1, hni]
  have hnst : nstTwo s cur = nstTwo s' cur := by
    rw [nstTwo, nstTwo, h1, h4]
  have hcl : clashList s cur = clashList s' cur := by
    rw [clashList, clashList, h1, hnst, hasg]
  have hiv3 : ivsThree s cur = ivsThree s' cur := by
    rw [ivsThree, ivsThree, hcl, hiv2]
  show (ivsThree s cur, s.queue.erase cur,
      s.setTrees.set (asgV s cur)
        (ITree.insertI (treeAt s.setTrees (asgV s cur))
          ((ivGet s.intervals cur).startTime,
            (ivGet s.intervals cur).endTime)),
      nstTwo s cur) =
    (ivsThree s' cur, s'.queue.erase cur,
      s'.setTrees.set (asgV s' cur)
        (ITree.insertI (treeAt s'.setTrees (asgV s' cur))
          ((ivGet s'.intervals cur).startTime,
            (ivGet s'.intervals cur).endTime)),
      nstTwo s' cur)
  rw [hiv3, h2, h3, hasg, hnst, h1]

theorem core_solveLoop (ops ops' : Seg.SegOps) :
    ∀ (fuel : Nat) (s s' : SolState), core s = core s' →
      core (solveLoop ops fuel s) = core (solveLoop ops' fuel s') := by
  intro fuel
  induction fuel with
  | zero => intro s s' h; exact h
  | succ fuel ih =>
      intro s s' h
      obtain ⟨h1, h2, h3, h4⟩ := core_fields h
      have hqm : queueMin s.intervals s.queue =
          queueMin s'.intervals s'.queue := by
        rw [h1, h2]
      cases hq : queueMin s'.intervals s'.queue with
      | none =>
          rw [show solveLoop ops (fuel + 1) s = s from by
              rw [solveLoop, hqm, hq],
            show solveLoop ops' (fuel + 1) s' = s' from by
              rw [solveLoop, hq]]
          exact h
      | some cur =>
          rw [show solveLoop ops (fuel + 1) s =
              solveLoop ops fuel (stepState ops s cur) from by
              rw [solveLoop, hqm, hq],
            show solveLoop ops' (fuel + 1) s' =
              solveLoop ops' fuel (stepState ops' s' cur) from by
              rw [solveLoop, hq]]
          exact ih _ _ (core_stepState ops ops' h cur)

/-- Every tree of the outdeg manager satisfies the 8-bit value bound. -/
def outdegU8 (s : SolState) : Prop := ∀ T ∈ s.outdeg, Seg.U8B T.root

theorem segAt_U8B {s : SolState} (h : outdegU8 s) (v : Nat) :
    Seg.U8B (segAt s.outdeg v).root := by
  rw [segAt]
  by_cases hv : v < s.outdeg.length
  · rw [List.getD_eq_getElem _ _ hv]
    exact h _ (List.getElem_mem _)
  · rw [List.getD_eq_default _ _ (by omega)]
    exact ⟨by omega, by omega⟩

theorem stepState_u8bound {s : SolState} (h : outdegU8 s)
    (hm : s.maxOutdegree ≤ 255) (cur : Nat) :
    outdegU8 (stepState Seg.plusMaxU8Ops s cur) ∧
      (stepState Seg.plusMaxU8Ops s cur).maxOutdegree ≤ 255 := by
  have hroot : Seg.U8B (segAt s.outdeg (asgV s cur)).root :=
    segAt_U8B h (asgV s cur)
  have hins : Seg.U8B (odTree Seg.plusMaxU8Ops s cur).root := by
    rw [odTree]
    exact Seg.U8B_insertGo _ 1 _ _ hroot
  obtain ⟨hq1, hq2⟩ := Seg.U8B_queryGo
    ((ivGet s.intervals cur).startTime, (ivGet s.intervals cur).endTime)
    ((odTree Seg.plusMaxU8Ops s cur).root.hi -
      (odTree Seg.plusMaxU8Ops s cur).root.lo)
    (odTree Seg.plusMaxU8Ops s cur).root hins
  constructor
  · intro T hT
    rw [stepState_outdeg] at hT
    rcases List.mem_or_eq_of_mem_set hT with hT | hT
    · exact h _ hT
    · rw [hT]
      exact hq2
  · rw [stepState_maxOutdegree]
    have hq1b : (qRes Seg.plusMaxU8Ops s cur).1 ≤ 255 := hq1
    omega

theorem solveLoop_u8bound : ∀ (fuel : Nat) (s : SolState), outdegU8 s →
    s.maxOutdegree ≤ 255 →
    (solveLoop Seg.plusMaxU8Ops fuel s).maxOutdegree ≤ 255 := by
  intro fuel
  induction fuel with
  | zero => intro s _ hm; exact hm
  | succ fuel ih =>
      intro s h hm
      cases hqm : queueMin s.intervals s.queue with
      | none =>
          rw [show solveLoop Seg.plusMaxU8Ops (fuel + 1) s = s from by
            rw [solveLoop, hqm]]
          exact hm
      | some cur =>
          rw [show solveLoop Seg.plusMaxU8Ops (fuel + 1) s =
            solveLoop Seg.plusMaxU8Ops fuel
              (stepState Seg.plusMaxU8Ops s cur) from by rw [solveLoop, hqm]]
          obtain ⟨h2, hm2⟩ := stepState_u8bound h hm cur
          exact ih _ h2 hm2

theorem initState_outdegU8 (ipi : IntervalProblemInstance) (m0 : Nat) :
    outdegU8 (initState ipi m0) := by
  intro T hT
  have hrep : T = Seg.mkTree ipi.timeframe := List.eq_of_mem_replicate hT
  rw [hrep]
  exact ⟨by omega, by omega⟩

/-- A peak load within 255 makes the 8-bit run coincide with the exact
run and the exact run's reported maximum equal to the peak. -/
theorem u8_of_peak_le {ipi : IntervalProblemInstance}
    (hval : validIpiB ipi = true)
    (hpk : peakF (solveInstance Seg.plusMaxOps ipi 0).intervals ipi.V
      ipi.timeframe ≤ 255) :
    solveInstance Seg.plusMaxU8Ops ipi 0 =
      solveInstance Seg.plusMaxOps ipi 0 ∧
    (solveInstance Seg.plusMaxOps ipi 0).maxOutdegree =
      peakF (solveInstance Seg.plusMaxOps ipi 0).intervals ipi.V
        ipi.timeframe := by
  have hfin := @solveInstance_final ipi 0 hval
  have hinv := hfin.1
  have hlen := length_eq_of_map_skel hinv.2.2.1
  have hend : ∀ iv ∈ (solveInstance Seg.plusMaxOps ipi 0).intervals,
      iv.endTime < ipi.timeframe := by
    intro iv hiv
    obtain ⟨i, hi, heq⟩ := List.mem_iff_getElem.mp hiv
    obtain ⟨_, he2, _, _⟩ := skel_fields (skel_eq_of_map hinv.2.2.1 i hi)
    have hmem2 : ivGet ipi.intervals i ∈ ipi.intervals := by
      rw [ivGet, List.getD_eq_getElem _ _ (by omega)]
      exact List.getElem_mem _
    obtain ⟨_, _, _, hetf, _⟩ := (validIpi_parts hval).2 _ hmem2
    have hgi : ivGet (solveInstance Seg.plusMaxOps ipi 0).intervals i = iv := by
      rw [ivGet, List.getD_eq_getElem _ _ hi]
      exact heq
    rw [← hgi]
    omega
  have hble : ∀ v, v < ipi.V → ∀ t,
      outCount (solveInstance Seg.plusMaxOps ipi 0).intervals v t ≤ 255 := by
    intro v hv t
    by_cases ht : t < ipi.timeframe
    · refine le_trans ?_ hpk
      have h1 : outCount (solveInstance Seg.plusMaxOps ipi 0).intervals v t ≤
          vertexPeak (solveInstance Seg.plusMaxOps ipi 0).intervals
            ipi.timeframe v := by
        rw [vertexPeak]
        exact Seg.le_rangeMaxF (Nat.zero_le t) (by omega)
      have h2 : vertexPeak (solveInstance Seg.plusMaxOps ipi 0).intervals
          ipi.timeframe v ≤
          peakF (solveInstance Seg.plusMaxOps ipi 0).intervals ipi.V
            ipi.timeframe := by
        rw [peakF]
        have h := Seg.le_rangeMaxGo
          (f := fun u => vertexPeak
            (solveInstance Seg.plusMaxOps ipi 0).intervals ipi.timeframe u)
          ipi.V 0 v hv
        simpa using h
      exact le_trans h1 h2
    · rw [outCount_ne_tf hend (by omega) v]
      omega
  refine ⟨solveInstance_u8 hval hble, ?_⟩
  rw [hinv.2.2.2.2.2.2.2.2.2, Nat.zero_max]

end Solver

/-- An instance with 256 self-loop intervals on one vertex, all containing
time 256: pairwise-distinct time bounds, all endTimes below the timeframe,
statuses unset — yet the true peak load is 256. -/
def ipiOver : IntervalProblemInstance :=
  ⟨1, 1, 257, (List.range 256).map
    (fun i => ⟨i, 256, (0, 0), IntervalStatus.NOT_SET, 0⟩)⟩

/-- C1 counterexample: on `ipiOver` (which meets the claim's preconditions)
the returned `maxOutdegree` of the 8-bit solver is at most 255, while the
maximum over vertices and times of the number of assigned covering
intervals is 256, so the claimed equality fails. -/
theorem solver_solveInstance_claim_false :
    Solver.validIpiB ipiOver = true ∧
    (Solver.solveInstance Seg.plusMaxU8Ops ipiOver 0).maxOutdegree ≠
      Solver.peakF
        (Solver.solveInstance Seg.plusMaxU8Ops ipiOver 0).intervals
        ipiOver.V ipiOver.timeframe := by
  have hval : Solver.validIpiB ipiOver = true := by
    rw [Solver.validIpiB, Bool.and_eq_true]
    constructor
    · rw [decide_eq_true_eq]
      show ((ipiOver.intervals).map
        (fun iv => (iv.startTime, iv.endTime))).Nodup
      rw [show ipiOver.intervals = (List.range 256).map
          (fun i => (⟨i, 256, (0, 0), IntervalStatus.NOT_SET, 0⟩ : Interval))
          from rfl, List.map_map]
      rw [show ((fun iv : Interval => (iv.startTime, iv.endTime)) ∘
          (fun i : Nat =>
            (⟨i, 256, (0, 0), IntervalStatus.NOT_SET, 0⟩ : Interval))) =
          (fun i : Nat => (i, 256)) from rfl]
      exact List.Nodup.map (fun a b hab => congrArg Prod.fst hab)
        (List.nodup_range 256)
    · rw [List.all_eq_true]
      intro iv hiv
      simp only [ipiOver, List.mem_map, List.mem_range] at hiv
      obtain ⟨i, hi, rfl⟩ := hiv
      simp only [Bool.and_eq_true, decide_eq_true_eq, beq_iff_eq]
      refine ⟨⟨⟨⟨by decide, by decide⟩, by omega⟩, by decide⟩, trivial⟩
  have hbound : (Solver.solveInstance Seg.plusMaxU8Ops ipiOver 0).maxOutdegree
      ≤ 255 :=
    Solver.solveLoop_u8bound ipiOver.intervals.length
      (Solver.initState ipiOver 0) (Solver.initState_outdegU8 ipiOver 0)
      (by show (0 : Nat) ≤ 255; omega)
  have hivs : (Solver.solveInstance Seg.plusMaxU8Ops ipiOver 0).intervals =
      (Solver.solveInstance Seg.plusMaxOps ipiOver 0).intervals := by
    rw [Solver.solveInstance, Solver.solveInstance]
    exact (Solver.core_fields (Solver.core_solveLoop Seg.plusMaxU8Ops
      Seg.plusMaxOps ipiOver.intervals.length (Solver.initState ipiOver 0)
      (Solver.initState ipiOver 0) rfl)).1
  have hinvN := (@Solver.solveInstance_final ipiOver 0 hval).1
  have hlenI : ipiOver.intervals.length = 256 := by simp [ipiOver]
  have hlen := Solver.length_eq_of_map_skel hinvN.2.2.1
  have hallI : ∀ iv ∈ ipiOver.intervals,
      iv.endTime = 256 ∧ iv.nodes.1 = 0 ∧ iv.nodes.2 = 0 ∧
        iv.startTime ≤ 256 := by
    intro iv hiv
    simp only [ipiOver, List.mem_map, List.mem_range] at hiv
    obtain ⟨i, hi, rfl⟩ := hiv
    exact ⟨rfl, rfl, rfl, by show i ≤ 256; omega⟩
  have hptrue : ∀ iv ∈ (Solver.solveInstance Seg.plusMaxOps ipiOver 0).intervals,
      (Solver.assignedToB iv 0 && decide (iv.startTime ≤ 256) &&
        decide (256 ≤ iv.endTime)) = true := by
    intro iv hiv
    obtain ⟨i, hi, heq⟩ := List.mem_iff_getElem.mp hiv
    have hgi : Solver.ivGet
        (Solver.solveInstance Seg.plusMaxOps ipiOver 0).intervals i = iv := by
      rw [Solver.ivGet, List.getD_eq_getElem _ _ hi]
      exact heq
    have hst := Solver.solveInstance_statuses hval i hi
    rw [hgi] at hst
    obtain ⟨hsk1, hsk2, hsk3, hsk4⟩ := Solver.skel_fields
      (Solver.skel_eq_of_map hinvN.2.2.1 i hi)
    have hmem2 : Solver.ivGet ipiOver.intervals i ∈ ipiOver.intervals := by
      rw [Solver.ivGet, List.getD_eq_getElem _ _ (by omega)]
      exact List.getElem_mem _
    obtain ⟨he, hn1, hn2, hs⟩ := hallI _ hmem2
    rw [hgi] at hsk1 hsk2 hsk3 hsk4
    have hiv1 : iv.nodes.1 = 0 := by omega
    have hiv2 : iv.nodes.2 = 0 := by omega
    have hse : iv.startTime ≤ 256 := by omega
    have hee : 256 ≤ iv.endTime := by omega
    have hasg : Solver.assignedToB iv 0 = true := by
      cases hstc : iv.status with
      | NOT_SET => exact absurd hstc hst
      | FIRST_NODE_SELECTED => simp [Solver.assignedToB, hstc, hiv1]
      | SECOND_NODE_SELECTED => simp [Solver.assignedToB, hstc, hiv2]
    rw [hasg]
    simp [hse, hee]
  have hcount : Solver.outCount
      (Solver.solveInstance Seg.plusMaxOps ipiOver 0).intervals 0 256 =
        256 := by
    rw [Solver.outCount, List.filter_eq_self.mpr hptrue]
    omega
  have hpeak : 256 ≤ Solver.peakF
      (Solver.solveInstance Seg.plusMaxOps ipiOver 0).intervals
      ipiOver.V ipiOver.timeframe := by
    have h2 : Solver.outCount
        (Solver.solveInstance Seg.plusMaxOps ipiOver 0).intervals 0 256 ≤
        Solver.vertexPeak
          (Solver.solveInstance Seg.plusMaxOps ipiOver 0).intervals
          ipiOver.timeframe 0 := by
      rw [Solver.vertexPeak]
      exact Seg.le_rangeMaxF (Nat.zero_le 256) (by decide)
    have h1 := Seg.le_rangeMaxGo
      (f := fun v => Solver.vertexPeak
        (Solver.solveInstance Seg.plusMaxOps ipiOver 0).intervals
        ipiOver.timeframe v) ipiOver.V 0 0 (by decide)
    rw [Solver.peakF]
    simp only [Nat.add_zero] at h1
    omega
  refine ⟨hval, ?_⟩
  rw [hivs]
  omega

/-- C1 amended: the loop terminates with every status set to one of the
two selected states, and, when entered with `maxOutdegree = 0`, the
returned value equals the true peak load precisely under the additional
precondition that this peak does not exceed 255 (the `uint8_t` outdeg
counters wrap around beyond that). -/
theorem solver_solveInstance_amended (ipi : IntervalProblemInstance)
    (hval : Solver.validIpiB ipi = true) :
    (∀ j, j < (Solver.solveInstance Seg.plusMaxU8Ops ipi 0).intervals.length →
      (Solver.ivGet (Solver.solveInstance Seg.plusMaxU8Ops ipi 0).intervals
        j).status ≠ IntervalStatus.NOT_SET) ∧
    (Solver.peakF (Solver.solveInstance Seg.plusMaxU8Ops ipi 0).intervals
        ipi.V ipi.timeframe ≤ 255 →
      (Solver.solveInstance Seg.plusMaxU8Ops ipi 0).maxOutdegree =
        Solver.peakF (Solver.solveInstance Seg.plusMaxU8Ops ipi 0).intervals
          ipi.V ipi.timeframe) := by
  have hcore := Solver.core_solveLoop Seg.plusMaxU8Ops Seg.plusMaxOps
    ipi.intervals.length (Solver.initState ipi 0)
    (Solver.initState ipi 0) rfl
  have hivs : (Solver.solveInstance Seg.plusMaxU8Ops ipi 0).intervals =
      (Solver.solveInstance Seg.plusMaxOps ipi 0).intervals :=
    congrArg (fun x => x.1) hcore
  constructor
  · intro j hj
    rw [hivs] at hj ⊢
    exact Solver.solveInstance_statuses hval j hj
  · intro hpk
    rw [hivs] at hpk
    obtain ⟨hu8, hmo⟩ := Solver.u8_of_peak_le hval hpk
    rw [hu8, hmo]

/-- C1 amended witness: on a concrete one-interval instance the
hypothesis holds and every final status is set. -/
theorem solver_solveInstance_amended_witness :
    Solver.validIpiB ipiScenarioQ = true ∧
    (∀ j, j <
      (Solver.solveInstance Seg.plusMaxU8Ops ipiScenarioQ 0).intervals.length →
      (Solver.ivGet
        (Solver.solveInstance Seg.plusMaxU8Ops ipiScenarioQ 0).intervals
        j).status ≠ IntervalStatus.NOT_SET) :=
  ⟨by decide, (solver_solveInstance_amended ipiScenarioQ (by decide)).1⟩

namespace Strat

/-! ## The offline strategies (`strategies.cpp`, `graphs.cpp`)

`ForestOrientation` keeps a `std::set<pair<int,int>>` of directed edges
(iterated in increasing lexicographic order, modelled as a sorted list), a
per-vertex outdegree array, and a reverse index (the latter is only read by
`getInNeighbours`, which the Kowalik strategy never calls, so it is not
carried). -/

structure FOrient where
  V : Nat
  outdegs : List Nat
  directions : List (Nat × Nat)
deriving Repr, DecidableEq

/-- The `ForestOrientation(V)` constructor. -/
def emptyO (V : Nat) : FOrient := ⟨V, List.replicate V 0, []⟩

/-- `ForestOrientation::isOriented`. -/
def isOrientedB (o : FOrient) (va vb : Nat) : Bool :=
  decide ((va, vb) ∈ o.directions)

/-- `ForestOrientation::contains`. -/
def containsEdgeB (o : FOrient) (va vb : Nat) : Bool :=
  isOrientedB o va vb || isOrientedB o vb va

/-- `ForestOrientation::getOutdegree`. -/
def getOutdegree (o : FOrient) (v : Nat) : Nat := o.outdegs.getD v 0

/-- `ForestOrientation::getMaxOutdegree` (`*max_element`; the outdegree
array always has an entry per vertex, and entries are nonnegative). -/
def getMaxOutdegree (o : FOrient) : Nat := o.outdegs.foldr max 0

/-- `std::set<pair<int,int>>::emplace`: insert at the sorted position, a
no-op when the element is already present. -/
def sortedInsertP : List (Nat × Nat) → (Nat × Nat) → List (Nat × Nat)
  | [], p => [p]
  | q :: qs, p =>
      if pairLtB p q then p :: q :: qs
      else if pairLtB q p then q :: sortedInsertP qs p
      else q :: qs

/-- `ForestOrientation::orientEdge` (the reverse index is dropped). -/
def orientEdge (o : FOrient) (f t : Nat) : FOrient :=
  ⟨o.V, o.outdegs.set f (o.outdegs.getD f 0 + 1),
    sortedInsertP o.directions (f, t)⟩

/-- `ForestOrientation::removeEdge`. -/
def removeEdgeO (o : FOrient) (f t : Nat) : FOrient :=
  ⟨o.V, o.outdegs.set f (o.outdegs.getD f 0 - 1), o.directions.erase (f, t)⟩

/-- `ForestOrientation::flipEdge`. -/
def flipEdge (o : FOrient) (f t : Nat) : FOrient :=
  orientEdge (removeEdgeO o f t) t f

/-- `ForestOrientation::getAllEdges`: the set's elements in order. -/
def getAllEdges (o : FOrient) : List (Nat × Nat) := o.directions

/-- A `Forest` (graphs.h): vertex count and the current edge set, kept as
normalized `(min, max)` pairs in sorted order (the key set of the
`AVLTree<pair<int,int>>`). -/
structure Forest where
  V : Nat
  edges : List (Nat × Nat)
deriving Repr

/-- Undirected neighbours of `v` in an edge list. -/
def nbrsOf (es : List (Nat × Nat)) (v : Nat) : List Nat :=
  es.foldr (fun e acc =>
    if e.1 = v then e.2 :: acc
    else if e.2 = v then e.1 :: acc
    else acc) []

/-- Breadth-first closure (fuel-indexed; `|V|` rounds suffice). -/
def reachGo (es : List (Nat × Nat)) : Nat → List Nat → List Nat
  | 0, s => s
  | fuel + 1, s =>
      reachGo es fuel
        (s.foldl (fun acc v =>
          (nbrsOf es v).foldl (fun acc2 w =>
            if w ∈ acc2 then acc2 else acc2 ++ [w]) acc) s)

/-- `LinkCutTrees::connected`, modelled semantically as connectivity in the
forest's current edge set. -/
def connectedB (f : Forest) (va vb : Nat) : Bool :=
  decide (vb ∈ reachGo f.edges f.V [va])

/-- `Forest::insertEdge` (the returned success flag is ignored by the
strategy pipeline and dropped here). -/
def Forest.insertEdge (f : Forest) (va vb : Nat) : Forest :=
  let a := min va vb
  let b := max va vb
  if a = b then f
  else if connectedB f a b then f
  else ⟨f.V, sortedInsertP f.edges (a, b)⟩

/-- `Forest::deleteEdge`. -/
def Forest.deleteEdge (f : Forest) (va vb : Nat) : Forest :=
  let a := min va vb
  let b := max va vb
  if decide ((a, b) ∈ f.edges) then ⟨f.V, f.edges.erase (a, b)⟩ else f

/-- `Forest::getAllEdges` (`collectKeys` returns the stored key set; the
model keeps it sorted). -/
def Forest.getAllEdges (f : Forest) : List (Nat × Nat) := f.edges

/-- `buildGraphsHistory`: the copy loop re-inserts every edge of the
previous snapshot into a fresh forest (reproducing the same edge set, since
a subset of a forest never closes a cycle), then applies the command. -/
def buildGraphsHistory (V : Nat) : List Command → Forest → List Forest
  | [], _ => []
  | c :: cs, prev =>
      let cur := if c.operation = OperationType.INSERT
        then prev.insertEdge c.nodes.1 c.nodes.2
        else prev.deleteEdge c.nodes.1 c.nodes.2
      cur :: buildGraphsHistory V cs cur

/-- The adjacency lists built at the start of
`constructOptimalOrientation`. -/
def buildAdj (V : Nat) (edges : List (Nat × Nat)) : List (List Nat) :=
  edges.foldl (fun adj e =>
    let adj1 := adj.set e.1 (adj.getD e.1 [] ++ [e.2])
    adj1.set e.2 (adj1.getD e.2 [] ++ [e.1]))
    (List.replicate V [])

/-- `forestTraversal` (fuel-indexed: each recursive call marks a freshly
visited vertex first, so `V` units of fuel always suffice). -/
def forestTraversal (adj : List (List Nat)) :
    Nat → Nat → List Bool × FOrient → List Bool × FOrient
  | 0, _, st => st
  | fuel + 1, v, st =>
      (adj.getD v []).foldl
        (fun st2 n =>
          if st2.1.getD n false then st2
          else
            let st3 := forestTraversal adj fuel n st2
            (st3.1, orientEdge st3.2 n v))
        (st.1.set v true, st.2)

/-- `constructOptimalOrientation`: DFS from every still-unvisited root,
orienting every tree edge towards the parent. -/
def constructOptimalOrientation (forest : Forest) (o : FOrient) : FOrient :=
  ((List.range forest.V).foldl
    (fun st root =>
      if st.1.getD root false then st
      else forestTraversal (buildAdj forest.V forest.edges) forest.V root st)
    (List.replicate forest.V false, o)).2

/-- The inner loop of the combine step of `constructOrientations`: align
one directed edge of the midpoint orientation over every time of the
window. -/
def alignEdge (s e : Nat) (ors : List FOrient) (p : Nat × Nat) :
    List FOrient :=
  (List.range (e + 1 - s)).foldl
    (fun ors2 i =>
      if isOrientedB (ors2.getD (s + i) (emptyO 0)) p.2 p.1 then
        ors2.set (s + i) (flipEdge (ors2.getD (s + i) (emptyO 0)) p.2 p.1)
      else ors2)
    ors

/-- `constructOrientations` (fuel-indexed: both recursive windows are
strictly shorter, so `endTime - startTime + 1` units of fuel suffice). -/
def constructOrientations (graphs : List Forest) (V : Nat) :
    Nat → List FOrient → Nat → Nat → List FOrient
  | 0, ors, _, _ => ors
  | fuel + 1, ors, s, e =>
      if s = e then
        ors.set s (constructOptimalOrientation (graphs.getD s ⟨V, []⟩)
          (ors.getD s (emptyO V)))
      else
        let mid := s + (e - s + 1) / 2
        let ors1 := constructOrientations graphs V fuel ors s (mid - 1)
        let ors2 := if mid + 1 ≤ e
          then constructOrientations graphs V fuel ors1 (mid + 1) e
          else ors1
        let ors3 := ors2.set mid (constructOptimalOrientation
          (graphs.getD mid ⟨V, []⟩) (ors2.getD mid (emptyO V)))
        (getAllEdges (ors3.getD mid (emptyO V))).foldl (alignEdge s e) ors3

/-- `countFlipsBetween`. -/
def countFlipsBetween (o1 o2 : FOrient) : Nat :=
  (getAllEdges o1).countP (fun p => isOrientedB o2 p.2 p.1)

/-- `countTotalFlips`. -/
def countTotalFlips : List FOrient → Nat
  | [] => 0
  | [_] => 0
  | o1 :: o2 :: rest => countFlipsBetween o1 o2 + countTotalFlips (o2 :: rest)

/-- The `getMaxOutdegree` overload on a whole orientation sequence. -/
def getMaxOutdegreeAll (ors : List FOrient) : Nat :=
  ors.foldl (fun m o => max m (getMaxOutdegree o)) 0

/-- The orientation sequence constructed inside `orientByKowalikStrategy`. -/
def kowalikOrientations (opi : OrientationProblemInstance) : List FOrient :=
  constructOrientations
    (buildGraphsHistory opi.V opi.sequence ⟨opi.V, []⟩) opi.V
    opi.sequence.length
    (List.replicate opi.sequence.length (emptyO opi.V))
    0 (opi.sequence.length - 1)

/-- `orientByKowalikStrategy`: the returned value. -/
def orientByKowalikStrategy (opi : OrientationProblemInstance) : Nat :=
  getMaxOutdegreeAll (kowalikOrientations opi)

end Strat

namespace Strat

theorem mem_sortedInsertP : ∀ (l : List (Nat × Nat)) (p q : Nat × Nat),
    q ∈ sortedInsertP l p → q = p ∨ q ∈ l
  | [], p, q, h => by simpa [sortedInsertP] using h
  | r :: rs, p, q, h => by
      rw [sortedInsertP] at h
      split_ifs at h with h1 h2
      · rcases List.mem_cons.mp h with h | h
        · exact Or.inl h
        · exact Or.inr h
      · rcases List.mem_cons.mp h with h | h
        · exact Or.inr (by rw [h]; exact List.mem_cons_self _ _)
        · rcases mem_sortedInsertP rs p q h with h | h
          · exact Or.inl h
          · exact Or.inr (List.mem_cons_of_mem _ h)
      · exact Or.inr h

theorem sortedInsertP_perm : ∀ (l : List (Nat × Nat)) (p : Nat × Nat),
    p ∉ l → (sortedInsertP l p).Perm (p :: l)
  | [], p, _ => by rw [sortedInsertP]
  | r :: rs, p, hp => by
      rw [sortedInsertP]
      split_ifs with h1 h2
      · exact List.Perm.refl _
      · have hrec := sortedInsertP_perm rs p
          (fun hc => hp (List.mem_cons_of_mem _ hc))
        exact List.Perm.trans (hrec.cons r) (List.Perm.swap p r rs)
      · have heq : p = r := ITree.eq_of_not_ltB
          (Bool.not_eq_true _ ▸ h1) (Bool.not_eq_true _ ▸ h2)
        exact absurd (heq ▸ List.mem_cons_self r rs) (heq ▸ hp)

/-- Well-formedness of a `ForestOrientation` with vertex count `V`: the
stored outdegrees agree with the directed edge set, the set holds each
undirected edge in at most one direction, and endpoints are in range. -/
def OriWF (V : Nat) (o : FOrient) : Prop :=
  o.V = V ∧ o.outdegs.length = V ∧ o.directions.Nodup ∧
  (∀ p ∈ o.directions, (p.2, p.1) ∉ o.directions) ∧
  (∀ p ∈ o.directions, p.1 < V ∧ p.2 < V) ∧
  (∀ v, o.outdegs.getD v 0 =
    o.directions.countP (fun p => decide (p.1 = v)))

theorem OriWF_empty (V : Nat) : OriWF V (emptyO V) := by
  refine ⟨rfl, List.length_replicate _ _, List.nodup_nil, ?_, ?_, ?_⟩
  · intro p hp
    exact absurd hp (List.not_mem_nil p)
  · intro p hp
    exact absurd hp (List.not_mem_nil p)
  · intro v
    show (List.replicate V 0).getD v 0 = 0
    rcases Nat.lt_or_ge v V with hv | hv
    · rw [List.getD_eq_getElem _ _ (by simpa using hv), List.getElem_replicate]
    · rw [List.getD_eq_default _ _ (by simpa using hv)]

theorem no_self_loop {V : Nat} {o : FOrient} (h : OriWF V o) {a : Nat}
    (ha : (a, a) ∈ o.directions) : False :=
  (h.2.2.2.1 (a, a) ha) ha

theorem orientEdge_spec {V : Nat} {o : FOrient} (h : OriWF V o) {f t : Nat}
    (hf : f < V) (ht : t < V) (hne : f ≠ t)
    (hm1 : (f, t) ∉ o.directions) (hm2 : (t, f) ∉ o.directions) :
    OriWF V (orientEdge o f t) ∧
    (∀ q, q ∈ (orientEdge o f t).directions ↔ q = (f, t) ∨ q ∈ o.directions) ∧
    (∀ v, getOutdegree (orientEdge o f t) v =
      getOutdegree o v + (if v = f then 1 else 0)) := by
  obtain ⟨hV, hlen, hnd, hanti, hbnd, hcnt⟩ := h
  have hperm := sortedInsertP_perm o.directions (f, t) hm1
  have hmem : ∀ q, q ∈ (orientEdge o f t).directions ↔
      q = (f, t) ∨ q ∈ o.directions := by
    intro q
    rw [show (orientEdge o f t).directions =
      sortedInsertP o.directions (f, t) from rfl, hperm.mem_iff]
    simp
  have hout : ∀ v, getOutdegree (orientEdge o f t) v =
      getOutdegree o v + (if v = f then 1 else 0) := by
    intro v
    show (o.outdegs.set f (o.outdegs.getD f 0 + 1)).getD v 0 =
      o.outdegs.getD v 0 + (if v = f then 1 else 0)
    by_cases hv : v = f
    · rw [hv, if_pos rfl, Solver.getD_set_self _ _ _ _ (by omega)]
    · rw [if_neg hv, Solver.getD_set_other _ _ _ (fun hc => hv hc.symm)]
      omega
  refine ⟨⟨hV, ?_, ?_, ?_, ?_, ?_⟩, hmem, hout⟩
  · show (o.outdegs.set f (o.outdegs.getD f 0 + 1)).length = V
    simpa using hlen
  · exact (hperm.nodup_iff).mpr (List.nodup_cons.mpr ⟨hm1, hnd⟩)
  · intro p hp hrev
    rcases (hmem p).mp hp with hp2 | hp2
    · rcases (hmem (p.2, p.1)).mp hrev with hr2 | hr2
      · rw [hp2] at hr2
        have : t = f := congrArg Prod.fst hr2
        exact hne this.symm
      · rw [hp2] at hr2
        exact hm2 hr2
    · rcases (hmem (p.2, p.1)).mp hrev with hr2 | hr2
      · have h1 : p.2 = f := congrArg Prod.fst hr2
        have h2 : p.1 = t := congrArg Prod.snd hr2
        rw [show p = (p.1, p.2) from rfl, h1, h2] at hp2
        exact hm2 hp2
      · exact hanti p hp2 hr2
  · intro p hp
    rcases (hmem p).mp hp with hp2 | hp2
    · rw [hp2]
      exact ⟨hf, ht⟩
    · exact hbnd p hp2
  · intro v
    show (o.outdegs.set f (o.outdegs.getD f 0 + 1)).getD v 0 =
      (sortedInsertP o.directions (f, t)).countP (fun p => decide (p.1 = v))
    rw [hperm.countP_eq]
    by_cases hv : v = f
    · rw [hv, Solver.getD_set_self _ _ _ _ (by omega), List.countP_cons,
        hcnt f]
      simp
    · rw [Solver.getD_set_other _ _ _ (fun hc => hv hc.symm),
        List.countP_cons, hcnt v]
      simp [Ne.symm hv]

theorem perm_cons_erase_prod : ∀ (l : List (Nat × Nat)) (p : Nat × Nat),
    p ∈ l → l.Perm (p :: l.erase p) := by
  intro l p h
  induction l with
  | nil => cases h
  | cons r rs ih =>
      rw [List.erase_cons]
      by_cases hr : r = p
      · subst hr
        rw [if_pos (by simp)]
      · rw [if_neg (by simp [hr])]
        rcases List.mem_cons.mp h with h1 | h1
        · exact absurd h1.symm hr
        · exact List.Perm.trans ((ih h1).cons r) (List.Perm.swap p r _)

theorem removeEdgeO_spec {V : Nat} {o : FOrient} (h : OriWF V o) {f t : Nat}
    (hm : (f, t) ∈ o.directions) :
    OriWF V (removeEdgeO o f t) ∧
    (∀ q, q ∈ (removeEdgeO o f t).directions ↔
      q ∈ o.directions ∧ q ≠ (f, t)) ∧
    (∀ v, getOutdegree (removeEdgeO o f t) v =
      getOutdegree o v - (if v = f then 1 else 0)) := by
  obtain ⟨hV, hlen, hnd, hanti, hbnd, hcnt⟩ := h
  have hf : f < V := (hbnd _ hm).1
  have hmem : ∀ q, q ∈ (removeEdgeO o f t).directions ↔
      q ∈ o.directions ∧ q ≠ (f, t) := by
    intro q
    show q ∈ o.directions.erase (f, t) ↔ _
    rw [hnd.mem_erase_iff]
    tauto
  have hperm : o.directions.Perm ((f, t) :: o.directions.erase (f, t)) :=
    perm_cons_erase_prod _ _ hm
  have hout : ∀ v, getOutdegree (removeEdgeO o f t) v =
      getOutdegree o v - (if v = f then 1 else 0) := by
    intro v
    show (o.outdegs.set f (o.outdegs.getD f 0 - 1)).getD v 0 = _
    by_cases hv : v = f
    · rw [hv, if_pos rfl, Solver.getD_set_self _ _ _ _ (by omega)]
      rfl
    · rw [if_neg hv, Solver.getD_set_other _ _ _ (fun hc => hv hc.symm)]
      rfl
  refine ⟨⟨hV, ?_, hnd.erase _, ?_, ?_, ?_⟩, hmem, hout⟩
  · show (o.outdegs.set f (o.outdegs.getD f 0 - 1)).length = V
    simpa using hlen
  · intro p hp hrev
    exact hanti p ((hmem p).mp hp).1 ((hmem (p.2, p.1)).mp hrev).1
  · intro p hp
    exact hbnd p ((hmem p).mp hp).1
  · intro v
    show (o.outdegs.set f (o.outdegs.getD f 0 - 1)).getD v 0 =
      (o.directions.erase (f, t)).countP (fun p => decide (p.1 = v))
    have hc2 := hperm.countP_eq (fun p => decide (p.1 = v))
    rw [List.countP_cons] at hc2
    by_cases hv : v = f
    · rw [hv, Solver.getD_set_self _ _ _ _ (by omega), hcnt f]
      rw [hv, if_pos (by simp)] at hc2
      omega
    · rw [Solver.getD_set_other _ _ _ (fun hc => hv hc.symm), hcnt v]
      rw [if_neg (by simp [Ne.symm hv])] at hc2
      omega

end Strat

namespace Strat

theorem flipEdge_spec {V : Nat} {o : FOrient} (h : OriWF V o) {a b : Nat}
    (hm : (a, b) ∈ o.directions) :
    OriWF V (flipEdge o a b) ∧
    (∀ q, q ∈ (flipEdge o a b).directions ↔
      q = (b, a) ∨ (q ∈ o.directions ∧ q ≠ (a, b))) ∧
    (∀ v, getOutdegree (flipEdge o a b) v =
      (getOutdegree o v - (if v = a then 1 else 0)) +
        (if v = b then 1 else 0)) := by
  have hne : a ≠ b := by
    intro hc
    exact no_self_loop h (hc ▸ hm)
  have ha : a < V := (h.2.2.2.2.1 _ hm).1
  have hb : b < V := (h.2.2.2.2.1 _ hm).2
  have hrev : (b, a) ∉ o.directions := h.2.2.2.1 (a, b) hm
  obtain ⟨h1, hmem1, hout1⟩ := removeEdgeO_spec h hm
  have hm1 : (b, a) ∉ (removeEdgeO o a b).directions := by
    intro hc
    exact hrev ((hmem1 _).mp hc).1
  have hm2 : (a, b) ∉ (removeEdgeO o a b).directions := by
    intro hc
    exact ((hmem1 _).mp hc).2 rfl
  obtain ⟨h2, hmem2, hout2⟩ :=
    orientEdge_spec h1 hb ha (Ne.symm hne) hm1 hm2
  refine ⟨h2, ?_, ?_⟩
  · intro q
    rw [show flipEdge o a b = orientEdge (removeEdgeO o a b) b a from rfl,
      hmem2 q]
    rw [hmem1 q]
  · intro v
    rw [show flipEdge o a b = orientEdge (removeEdgeO o a b) b a from rfl,
      hout2 v, hout1 v]

/-- Pointwise effect of `alignEdge` on one orientation of the window. -/
def alignStep (p : Nat × Nat) (o : FOrient) : FOrient :=
  if isOrientedB o p.2 p.1 then flipEdge o p.2 p.1 else o

theorem alignStep_spec {V : Nat} {o : FOrient} (h : OriWF V o)
    (p : Nat × Nat) (hne : p.1 ≠ p.2) :
    OriWF V (alignStep p o) ∧
    ((p.2, p.1) ∉ (alignStep p o).directions) ∧
    (∀ q, q ∈ (alignStep p o).directions → q = p ∨ q ∈ o.directions) ∧
    (∀ q, q ≠ p → q ≠ (p.2, p.1) →
      (q ∈ (alignStep p o).directions ↔ q ∈ o.directions)) ∧
    (∀ v, getOutdegree (alignStep p o) v ≤
      getOutdegree o v + (if v = p.1 then 1 else 0)) := by
  rw [alignStep]
  by_cases hc : isOrientedB o p.2 p.1 = true
  · have hm : (p.2, p.1) ∈ o.directions := by
      simpa [isOrientedB] using hc
    obtain ⟨h1, hmem1, hout1⟩ := flipEdge_spec h hm
    rw [if_pos hc]
    refine ⟨h1, ?_, ?_, ?_, ?_⟩
    · intro hcm
      rcases (hmem1 _).mp hcm with h2 | h2
      · have : p.2 = p.1 := congrArg Prod.fst h2
        exact hne this.symm
      · exact h2.2 rfl
    · intro q hq
      rcases (hmem1 q).mp hq with h2 | h2
      · left
        rw [h2]
      · exact Or.inr h2.1
    · intro q hq1 hq2
      rw [hmem1 q]
      constructor
      · intro h2
        rcases h2 with h2 | h2
        · exact absurd (by rw [h2]) hq1
        · exact h2.1
      · intro h2
        exact Or.inr ⟨h2, hq2⟩
    · intro v
      rw [hout1 v]
      by_cases hv1 : v = p.1 <;> by_cases hv2 : v = p.2 <;>
        simp [hv1, hv2] <;> omega
  · have hm : (p.2, p.1) ∉ o.directions := by
      simpa [isOrientedB] using hc
    rw [if_neg hc]
    refine ⟨h, hm, fun q hq => Or.inr hq, fun q _ _ => Iff.rfl, ?_⟩
    intro v
    split_ifs <;> omega

/-- The orientation stored for time `t`. -/
def oAt (ors : List FOrient) (t : Nat) : FOrient := ors.getD t (emptyO 0)

theorem alignGo_at (p : Nat × Nat) (s : Nat) : ∀ (m : Nat) (ors : List FOrient),
    ((List.range m).foldl
      (fun ors2 i =>
        if isOrientedB (ors2.getD (s + i) (emptyO 0)) p.2 p.1 then
          ors2.set (s + i) (flipEdge (ors2.getD (s + i) (emptyO 0)) p.2 p.1)
        else ors2) ors).length = ors.length ∧
    ∀ t, oAt ((List.range m).foldl
      (fun ors2 i =>
        if isOrientedB (ors2.getD (s + i) (emptyO 0)) p.2 p.1 then
          ors2.set (s + i) (flipEdge (ors2.getD (s + i) (emptyO 0)) p.2 p.1)
        else ors2) ors) t =
      if s ≤ t ∧ t < s + m then alignStep p (oAt ors t) else oAt ors t := by
  intro m
  induction m with
  | zero =>
      intro ors
      refine ⟨rfl, fun t => ?_⟩
      rw [if_neg (by omega)]
      rfl
  | succ m ih =>
      intro ors
      obtain ⟨ihl, iha⟩ := ih ors
      rw [List.range_succ, List.foldl_append, List.foldl_cons, List.foldl_nil]
      set L := (List.range m).foldl
        (fun ors2 i =>
          if isOrientedB (ors2.getD (s + i) (emptyO 0)) p.2 p.1 then
            ors2.set (s + i) (flipEdge (ors2.getD (s + i) (emptyO 0)) p.2 p.1)
          else ors2) ors with hL
      have hOm := iha (s + m)
      rw [if_neg (by omega)] at hOm
      constructor
      · split_ifs
        · rw [List.length_set, ihl]
        · exact ihl
      · intro t
        by_cases ht : t = s + m
        · subst ht
          by_cases hcond :
              isOrientedB (L.getD (s + m) (emptyO 0)) p.2 p.1 = true
          · rw [if_pos hcond, if_pos (by omega)]
            by_cases hlt : s + m < ors.length
            · rw [show oAt (L.set (s + m)
                  (flipEdge (L.getD (s + m) (emptyO 0)) p.2 p.1)) (s + m) =
                  flipEdge (L.getD (s + m) (emptyO 0)) p.2 p.1 from
                Solver.getD_set_self _ _ _ _ (by rw [ihl]; omega)]
              rw [show L.getD (s + m) (emptyO 0) = oAt L (s + m) from rfl,
                hOm]
              rw [alignStep, if_pos (by
                rw [show L.getD (s + m) (emptyO 0) = oAt L (s + m) from rfl,
                  hOm] at hcond
                exact hcond)]
            · rw [show oAt (L.set (s + m)
                  (flipEdge (L.getD (s + m) (emptyO 0)) p.2 p.1)) (s + m) =
                  emptyO 0 from by
                rw [oAt, List.getD_eq_default]
                rw [List.length_set, ihl]
                omega]
              rw [show oAt ors (s + m) = emptyO 0 from by
                rw [oAt, List.getD_eq_default]
                omega]
              rw [alignStep]
              split_ifs with hc2
              · simp [isOrientedB, emptyO] at hc2
              · rfl
          · rw [if_neg hcond, if_pos (by omega), iha (s + m),
              if_neg (by omega)]
            rw [show L.getD (s + m) (emptyO 0) = oAt L (s + m) from rfl,
              hOm] at hcond
            rw [alignStep, if_neg hcond]
        · have hstep : oAt (if isOrientedB (L.getD (s + m) (emptyO 0)) p.2 p.1
              then L.set (s + m)
                (flipEdge (L.getD (s + m) (emptyO 0)) p.2 p.1)
              else L) t = oAt L t := by
            split_ifs
            · exact Solver.getD_set_other _ _ _ (fun hc => ht hc.symm)
            · rfl
          rw [hstep, iha t]
          by_cases hcnd : s ≤ t ∧ t < s + m
          · rw [if_pos hcnd, if_pos (by omega)]
          · rw [if_neg hcnd, if_neg (by omega)]

end Strat

namespace Strat

theorem alignEdge_at (s e : Nat) (ors : List FOrient) (p : Nat × Nat) :
    (alignEdge s e ors p).length = ors.length ∧
    ∀ t, oAt (alignEdge s e ors p) t =
      if s ≤ t ∧ t ≤ e then alignStep p (oAt ors t) else oAt ors t := by
  obtain ⟨h1, h2⟩ := alignGo_at p s (e + 1 - s) ors
  refine ⟨h1, fun t => ?_⟩
  rw [show alignEdge s e ors p = (List.range (e + 1 - s)).foldl
    (fun ors2 i =>
      if isOrientedB (ors2.getD (s + i) (emptyO 0)) p.2 p.1 then
        ors2.set (s + i) (flipEdge (ors2.getD (s + i) (emptyO 0)) p.2 p.1)
      else ors2) ors from rfl, h2 t]
  by_cases hc : s ≤ t ∧ t ≤ e
  · rw [if_pos (by omega), if_pos hc]
  · rw [if_neg (by omega), if_neg hc]

/-- Pointwise effect on one time of the whole combine pass. -/
def passStep (E : List (Nat × Nat)) (o : FOrient) : FOrient :=
  E.foldl (fun o2 p => alignStep p o2) o

theorem pass_at (s e : Nat) : ∀ (E : List (Nat × Nat)) (ors : List FOrient),
    (E.foldl (alignEdge s e) ors).length = ors.length ∧
    ∀ t, oAt (E.foldl (alignEdge s e) ors) t =
      if s ≤ t ∧ t ≤ e then passStep E (oAt ors t) else oAt ors t := by
  intro E
  induction E with
  | nil =>
      intro ors
      refine ⟨rfl, fun t => ?_⟩
      split_ifs <;> rfl
  | cons p E ih =>
      intro ors
      obtain ⟨hel, hea⟩ := alignEdge_at s e ors p
      obtain ⟨ihl, iha⟩ := ih (alignEdge s e ors p)
      rw [List.foldl_cons]
      refine ⟨by rw [ihl, hel], fun t => ?_⟩
      rw [iha t, hea t]
      by_cases hc : s ≤ t ∧ t ≤ e
      · rw [if_pos hc, if_pos hc, if_pos hc]
        rfl
      · rw [if_neg hc, if_neg hc, if_neg hc]

theorem passStep_spec {V : Nat} : ∀ (E : List (Nat × Nat)) (o : FOrient),
    OriWF V o → (∀ p ∈ E, p.1 ≠ p.2) →
    OriWF V (passStep E o) ∧
    (∀ q, q ∈ (passStep E o).directions → q ∈ E ∨ q ∈ o.directions) ∧
    (∀ v, getOutdegree (passStep E o) v ≤
      getOutdegree o v + E.countP (fun p => decide (p.1 = v))) := by
  intro E
  induction E with
  | nil =>
      intro o h _
      exact ⟨h, fun q hq => Or.inr hq, fun v => by simp [passStep]⟩
  | cons p E ih =>
      intro o h hne
      obtain ⟨h1, hrev1, hsub1, hiff1, hout1⟩ :=
        alignStep_spec h p (hne p (List.mem_cons_self _ _))
      obtain ⟨ih1, ih2, ih3⟩ := ih (alignStep p o) h1
        (fun q hq => hne q (List.mem_cons_of_mem _ hq))
      refine ⟨ih1, ?_, ?_⟩
      · intro q hq
        rcases ih2 q hq with hq2 | hq2
        · exact Or.inl (List.mem_cons_of_mem _ hq2)
        · rcases hsub1 q hq2 with hq3 | hq3
          · exact Or.inl (by rw [hq3]; exact List.mem_cons_self _ _)
          · exact Or.inr hq3
      · intro v
        refine le_trans (ih3 v) ?_
        have := hout1 v
        rw [List.countP_cons]
        by_cases hv : v = p.1
        · simp only [hv, decide_True, if_true] at this ⊢
          omega
        · simp only [if_neg hv] at this
          rw [decide_eq_false (Ne.symm hv)]
          omega

theorem passStep_not_mem {V : Nat} : ∀ (E : List (Nat × Nat)) (o : FOrient)
    (q : Nat × Nat), OriWF V o → (∀ p ∈ E, p.1 ≠ p.2) →
    q ∉ o.directions → q ∉ E → q ∉ (passStep E o).directions := by
  intro E
  induction E with
  | nil => intro o q _ _ hq _; exact hq
  | cons p E ih =>
      intro o q h hne hq hqE
      obtain ⟨h1, hrev1, hsub1, hiff1, _⟩ :=
        alignStep_spec h p (hne p (List.mem_cons_self _ _))
      have hqp : q ≠ p := by
        intro hc
        exact hqE (by rw [hc]; exact List.mem_cons_self _ _)
      have hq1 : q ∉ (alignStep p o).directions := by
        by_cases hc1 : q = (p.2, p.1)
        · rw [hc1]
          exact hrev1
        · rw [hiff1 q hqp hc1]
          exact hq
      exact ih (alignStep p o) q h1
        (fun r hr => hne r (List.mem_cons_of_mem _ hr)) hq1
        (fun hc => hqE (List.mem_cons_of_mem _ hc))

theorem passStep_no_reverse {V : Nat} : ∀ (E : List (Nat × Nat)) (o : FOrient),
    OriWF V o → (∀ p ∈ E, p.1 ≠ p.2) → (∀ p ∈ E, (p.2, p.1) ∉ E) →
    ∀ p ∈ E, (p.2, p.1) ∉ (passStep E o).directions := by
  intro E
  induction E with
  | nil => intro o _ _ _ p hp; exact absurd hp (List.not_mem_nil p)
  | cons p0 E ih =>
      intro o h hne hanti p hp
      obtain ⟨h1, hrev1, hsub1, hiff1, _⟩ :=
        alignStep_spec h p0 (hne p0 (List.mem_cons_self _ _))
      rcases List.mem_cons.mp hp with hp2 | hp2
      · subst hp2
        refine passStep_not_mem E (alignStep p o) (p.2, p.1) h1
          (fun r hr => hne r (List.mem_cons_of_mem _ hr)) hrev1 ?_
        intro hc
        exact hanti p (List.mem_cons_self _ _) (List.mem_cons_of_mem _ hc)
      · exact ih (alignStep p0 o) h1
          (fun r hr => hne r (List.mem_cons_of_mem _ hr))
          (fun r hr hc => hanti r (List.mem_cons_of_mem _ hr)
            (List.mem_cons_of_mem _ hc)) p hp2

theorem passStep_id : ∀ (E : List (Nat × Nat)) (o : FOrient),
    (∀ p ∈ E, (p.2, p.1) ∉ o.directions) → passStep E o = o := by
  intro E
  induction E with
  | nil => intro o _; rfl
  | cons p E ih =>
      intro o hrev
      have hstep : alignStep p o = o := by
        rw [alignStep, if_neg]
        simp only [isOrientedB, decide_eq_true_eq]
        exact hrev p (List.mem_cons_self _ _)
      show passStep E (alignStep p o) = o
      rw [hstep]
      exact ih o (fun r hr => hrev r (List.mem_cons_of_mem _ hr))

theorem passStep_agree {V : Nat} : ∀ (E : List (Nat × Nat)) (o oB : FOrient),
    OriWF V o → OriWF V oB → (∀ p ∈ E, p.1 ≠ p.2) →
    (∀ q ∈ o.directions, (q.2, q.1) ∉ oB.directions) →
    ∀ q ∈ (passStep E o).directions,
      (q.2, q.1) ∉ (passStep E oB).directions := by
  intro E
  induction E with
  | nil => intro o oB _ _ _ hag q hq; exact hag q hq
  | cons p E ih =>
      intro o oB h hB hne hag
      obtain ⟨h1, hrev1, hsub1, hiff1, _⟩ :=
        alignStep_spec h p (hne p (List.mem_cons_self _ _))
      obtain ⟨hB1, hrevB1, hsubB1, hiffB1, _⟩ :=
        alignStep_spec hB p (hne p (List.mem_cons_self _ _))
      refine ih (alignStep p o) (alignStep p oB) h1 hB1
        (fun r hr => hne r (List.mem_cons_of_mem _ hr)) ?_
      intro q hq hqrev
      rcases hsub1 q hq with hq2 | hq2
      · subst hq2
        exact hrevB1 hqrev
      · rcases hsubB1 _ hqrev with hr2 | hr2
        · have hqp : q = (p.2, p.1) := by
            rw [show q = (q.1, q.2) from Prod.mk.eta.symm]
            have h1q : q.2 = p.1 := congrArg Prod.fst hr2
            have h2q : q.1 = p.2 := congrArg Prod.snd hr2
            rw [h1q, h2q]
          rw [hqp] at hq
          exact hrev1 hq
        · exact hag q hq2 hr2

end Strat

namespace Strat

theorem count_false_set : ∀ (l : List Bool) (v : Nat), v < l.length →
    l.getD v false = false →
    (l.set v true).count false + 1 = l.count false := by
  intro l
  induction l with
  | nil => intro v hv _; simp at hv
  | cons b l ih =>
      intro v hv hfalse
      cases v with
      | zero =>
          have hb : b = false := hfalse
          rw [List.set_cons_zero, hb, List.count_cons, List.count_cons]
          simp
      | succ v =>
          rw [List.set_cons_succ, List.count_cons, List.count_cons]
          have := ih v (by simpa using hv) hfalse
          omega

theorem out_zero_of_no_source {V : Nat} {o : FOrient} (h : OriWF V o)
    {n : Nat} (hns : ∀ x, (n, x) ∉ o.directions) : getOutdegree o n = 0 := by
  rw [show getOutdegree o n = o.outdegs.getD n 0 from rfl, h.2.2.2.2.2 n,
    List.countP_eq_zero]
  intro p hp
  simp only [decide_eq_true_eq]
  intro hc
  have hmem : (n, p.2) ∈ o.directions := by
    rw [← hc, Prod.mk.eta]
    exact hp
  exact hns p.2 hmem

/-- The invariant of the whole DFS state: visited flags per vertex, a
well-formed orientation whose edge sources are all visited, and
outdegrees at most one. -/
def G (V : Nat) (st : List Bool × FOrient) : Prop :=
  st.1.length = V ∧ OriWF V st.2 ∧
  (∀ p ∈ st.2.directions, st.1.getD p.1 false = true) ∧
  (∀ v, getOutdegree st.2 v ≤ 1)

/-- What one complete call of `forestTraversal` guarantees. -/
def travPost (V v : Nat) (st st2 : List Bool × FOrient) : Prop :=
  G V st2 ∧ (∀ x, (v, x) ∉ st2.2.directions) ∧
  (∀ w, st.1.getD w false = true → st2.1.getD w false = true) ∧
  st2.1.getD v false = true ∧
  (∀ w x, st.1.getD w false = true →
    ((w, x) ∈ st2.2.directions ↔ (w, x) ∈ st.2.directions)) ∧
  st2.1.count false ≤ st.1.count false ∧
  st2.1.length = st.1.length

/-- The invariant of the neighbour loop inside `forestTraversal v`
(relative to the state `st1` right after marking `v`). -/
def LI (V v : Nat) (st1 st2 : List Bool × FOrient) : Prop :=
  G V st2 ∧ st2.1.getD v false = true ∧
  (∀ x, (v, x) ∉ st2.2.directions) ∧
  (∀ w, st1.1.getD w false = true → st2.1.getD w false = true) ∧
  (∀ w x, st1.1.getD w false = true →
    ((w, x) ∈ st2.2.directions ↔ (w, x) ∈ st1.2.directions)) ∧
  st2.1.count false ≤ st1.1.count false ∧
  st2.1.length = st1.1.length

theorem travFold (adj : List (List Nat)) (V v fuel : Nat)
    (hspec : ∀ (w : Nat) (st : List Bool × FOrient),
      G V st → w < V → st.1.getD w false = false →
      st.1.count false ≤ fuel →
      travPost V w st (forestTraversal adj fuel w st))
    (hv : v < V) (st1 : List Bool × FOrient)
    (hcnt1 : st1.1.count false ≤ fuel) :
    ∀ (ns : List Nat), (∀ n ∈ ns, n < V) →
    ∀ st2, LI V v st1 st2 →
      LI V v st1 (ns.foldl
        (fun st2 n =>
          if st2.1.getD n false then st2
          else ((forestTraversal adj fuel n st2).1,
            orientEdge (forestTraversal adj fuel n st2).2 n v)) st2) := by
  intro ns
  induction ns with
  | nil => intro _ st2 h2; exact h2
  | cons n ns ih =>
      intro hns st2 h2
      rw [List.foldl_cons]
      refine ih (fun r hr => hns r (List.mem_cons_of_mem _ hr)) _ ?_
      by_cases hvis : st2.1.getD n false = true
      · rw [if_pos hvis]
        exact h2
      · rw [if_neg hvis]
        have hnV : n < V := hns n (List.mem_cons_self _ _)
        obtain ⟨hG2, hv2, hvx2, hmono2, hiff2, hcn2, hln2⟩ := h2
        have hvisF : st2.1.getD n false = false := by
          cases hb : st2.1.getD n false
          · rfl
          · exact absurd hb hvis
        obtain ⟨hG3, hnx3, hmono3, hgot3, hiff3, hcn3, hln3⟩ :=
          hspec n st2 hG2 hnV hvisF (le_trans hcn2 hcnt1)
        have hneq : n ≠ v := by
          intro hc
          rw [hc] at hvisF
          rw [hv2] at hvisF
          exact Bool.true_eq_false.mp hvisF
        have hm1 : (n, v) ∉ (forestTraversal adj fuel n st2).2.directions :=
          hnx3 v
        have hm2 : (v, n) ∉ (forestTraversal adj fuel n st2).2.directions := by
          rw [hiff3 v n hv2]
          exact hvx2 n
        obtain ⟨hwf4, hmem4, hout4⟩ :=
          orientEdge_spec hG3.2.1 hnV hv hneq hm1 hm2
        have hout3n : getOutdegree (forestTraversal adj fuel n st2).2 n = 0 :=
          out_zero_of_no_source hG3.2.1 hnx3
        refine ⟨⟨hG3.1, hwf4, ?_, ?_⟩, ?_, ?_, ?_, ?_, ?_, ?_⟩
        · intro p hp
          rcases (hmem4 p).mp hp with hp2 | hp2
          · rw [hp2]
            exact hgot3
          · exact hG3.2.2.1 p hp2
        · intro w
          rw [hout4 w]
          by_cases hw : w = n
          · rw [hw, if_pos rfl, hout3n]
          · rw [if_neg hw]
            have := hG3.2.2.2 w
            omega
        · exact hmono3 v hv2
        · intro x hx
          rcases (hmem4 (v, x)).mp hx with hp2 | hp2
          · exact hneq (congrArg Prod.fst hp2).symm
          · rw [hiff3 v x hv2] at hp2
            exact hvx2 x hp2
        · intro w hw
          exact hmono3 w (hmono2 w hw)
        · intro w x hw
          have hwn : w ≠ n := by
            intro hc
            rw [hc] at hw
            have := hmono2 n hw
            exact hvis this
          rw [show ((w, x) ∈ (orientEdge
              (forestTraversal adj fuel n st2).2 n v).directions ↔
              (w, x) = (n, v) ∨
                (w, x) ∈ (forestTraversal adj fuel n st2).2.directions)
            from hmem4 (w, x)]
          constructor
          · intro h4
            rcases h4 with h4 | h4
            · exact absurd (congrArg Prod.fst h4) hwn
            · rw [hiff3 w x (hmono2 w hw)] at h4
              exact (hiff2 w x hw).mp h4
          · intro h4
            right
            rw [hiff3 w x (hmono2 w hw)]
            exact (hiff2 w x hw).mpr h4
        · exact le_trans hcn3 hcn2
        · rw [hln3, hln2]

theorem trav_spec (adj : List (List Nat)) (V : Nat)
    (hadj : ∀ u, ∀ n ∈ adj.getD u [], n < V) :
    ∀ (fuel : Nat) (v : Nat) (st : List Bool × FOrient),
      G V st → v < V → st.1.getD v false = false →
      st.1.count false ≤ fuel →
      travPost V v st (forestTraversal adj fuel v st) := by
  intro fuel
  induction fuel with
  | zero =>
      intro v st hG hv hfalse hcnt
      exfalso
      have hvl : v < st.1.length := by rw [hG.1]; exact hv
      have : st.1.getD v false = st.1[v] :=
        List.getD_eq_getElem _ _ hvl
      have hmem : false ∈ st.1 := by
        rw [← hfalse, this]
        exact List.getElem_mem hvl
      have := List.count_pos_iff_mem.mpr hmem
      omega
  | succ fuel ih =>
      intro v st hG hv hfalse hcnt
      have hvl : v < st.1.length := by rw [hG.1]; exact hv
      have hcset := count_false_set st.1 v hvl hfalse
      have hunf : forestTraversal adj (fuel + 1) v st =
          (adj.getD v []).foldl
            (fun st2 n =>
              if st2.1.getD n false then st2
              else ((forestTraversal adj fuel n st2).1,
                orientEdge (forestTraversal adj fuel n st2).2 n v))
            (st.1.set v true, st.2) := rfl
      have hLIinit : LI V v (st.1.set v true, st.2) (st.1.set v true, st.2) := by
        refine ⟨⟨?_, hG.2.1, ?_, hG.2.2.2⟩, ?_, ?_,
          fun w hw => hw, fun w x _ => Iff.rfl, le_refl _, rfl⟩
        · rw [show ((st.1.set v true, st.2) :
            List Bool × FOrient).1 = st.1.set v true from rfl,
            List.length_set]
          exact hG.1
        · intro p hp
          by_cases hpv : p.1 = v
          · rw [show ((st.1.set v true, st.2) :
              List Bool × FOrient).1 = st.1.set v true from rfl, hpv]
            exact Solver.getD_set_self _ _ _ _ hvl
          · rw [show ((st.1.set v true, st.2) :
              List Bool × FOrient).1 = st.1.set v true from rfl,
              Solver.getD_set_other _ _ _ (fun hc => hpv hc.symm)]
            exact hG.2.2.1 p hp
        · exact Solver.getD_set_self _ _ _ _ hvl
        · intro x hx
          have := hG.2.2.1 (v, x) hx
          rw [this] at hfalse
          exact Bool.true_eq_false.mp hfalse
      have hfold := travFold adj V v fuel ih hv (st.1.set v true, st.2)
        (by
          show (st.1.set v true).count false ≤ fuel
          omega)
        (adj.getD v []) (hadj v) _ hLIinit
      rw [hunf]
      obtain ⟨hGf, hvf, hvxf, hmonof, hifff, hcnf, hlnf⟩ := hfold
      refine ⟨hGf, hvxf, ?_, hvf, ?_, ?_, ?_⟩
      · intro w hw
        refine hmonof w ?_
        by_cases hwv : w = v
        · rw [hwv]
          exact Solver.getD_set_self _ _ _ _ hvl
        · rw [Solver.getD_set_other _ _ _ (fun hc => hwv hc.symm)]
          exact hw
      · intro w x hw
        have hw1 : (st.1.set v true).getD w false = true := by
          by_cases hwv : w = v
          · rw [hwv]
            exact Solver.getD_set_self _ _ _ _ hvl
          · rw [Solver.getD_set_other _ _ _ (fun hc => hwv hc.symm)]
            exact hw
        exact hifff w x hw1
      · have : (st.1.set v true).count false ≤ st.1.count false := by omega
        exact le_trans hcnf this
      · rw [hlnf, List.length_set]

end Strat

namespace Strat

theorem getOutdegree_empty (V v : Nat) : getOutdegree (emptyO V) v = 0 := by
  show (List.replicate V 0).getD v 0 = 0
  rcases Nat.lt_or_ge v V with hv | hv
  · rw [List.getD_eq_getElem _ _ (by simpa using hv), List.getElem_replicate]
  · rw [List.getD_eq_default _ _ (by simpa using hv)]

theorem buildAdj_spec (V : Nat) (edges : List (Nat × Nat))
    (hbe : ∀ e2 ∈ edges, e2.1 < V ∧ e2.2 < V) :
    ∀ u, ∀ n ∈ (buildAdj V edges).getD u [], n < V := by
  suffices h : ∀ (es : List (Nat × Nat)) (adj0 : List (List Nat)),
      adj0.length = V → (∀ u, ∀ n ∈ adj0.getD u [], n < V) →
      (∀ e2 ∈ es, e2.1 < V ∧ e2.2 < V) →
      (es.foldl (fun adj e =>
        let adj1 := adj.set e.1 (adj.getD e.1 [] ++ [e.2])
        adj1.set e.2 (adj1.getD e.2 [] ++ [e.1])) adj0).length = V ∧
      (∀ u, ∀ n ∈ (es.foldl (fun adj e =>
        let adj1 := adj.set e.1 (adj.getD e.1 [] ++ [e.2])
        adj1.set e.2 (adj1.getD e.2 [] ++ [e.1])) adj0).getD u [], n < V) by
    refine (h edges (List.replicate V []) (List.length_replicate _ _)
      ?_ hbe).2
    intro u n hn
    rcases Nat.lt_or_ge u V with hu | hu
    · rw [List.getD_eq_getElem _ _ (by simpa using hu),
        List.getElem_replicate] at hn
      exact absurd hn (List.not_mem_nil n)
    · rw [List.getD_eq_default _ _ (by simpa using hu)] at hn
      exact absurd hn (List.not_mem_nil n)
  intro es
  induction es with
  | nil => intro adj0 hlen hmem _; exact ⟨hlen, hmem⟩
  | cons e2 es ih =>
      intro adj0 hlen hmem hbnd
      rw [List.foldl_cons]
      have he1 : e2.1 < V := (hbnd e2 (List.mem_cons_self _ _)).1
      have he2 : e2.2 < V := (hbnd e2 (List.mem_cons_self _ _)).2
      refine ih _ ?_ ?_ (fun r hr => hbnd r (List.mem_cons_of_mem _ hr))
      · show ((adj0.set e2.1 _).set e2.2 _).length = V
        rw [List.length_set, List.length_set]
        exact hlen
      · intro u n hn
        show n < V
        by_cases hu2 : u = e2.2
        · rw [show ((adj0.set e2.1 (adj0.getD e2.1 [] ++ [e2.2])).set e2.2
              ((adj0.set e2.1 (adj0.getD e2.1 [] ++ [e2.2])).getD e2.2 []
                ++ [e2.1])).getD u [] =
            (adj0.set e2.1 (adj0.getD e2.1 [] ++ [e2.2])).getD e2.2 []
              ++ [e2.1] from by
            rw [hu2]
            exact Solver.getD_set_self _ _ _ _
              (by rw [List.length_set, hlen]; exact he2)] at hn
          rcases List.mem_append.mp hn with hn | hn
          · by_cases hu1 : e2.2 = e2.1
            · rw [hu1, Solver.getD_set_self _ _ _ _
                (by rw [hlen]; exact he1)] at hn
              rcases List.mem_append.mp hn with hn | hn
              · exact hmem _ _ hn
              · rw [List.mem_singleton.mp hn]
                exact he1
            · rw [Solver.getD_set_other _ _ _
                (fun hc => hu1 hc.symm)] at hn
              exact hmem _ _ hn

          · rw [List.mem_singleton.mp hn]
            exact he1
        · rw [Solver.getD_set_other _ _ _ (fun hc => hu2 hc.symm)] at hn
          by_cases hu1 : u = e2.1
          · rw [show (adj0.set e2.1 (adj0.getD e2.1 [] ++ [e2.2])).getD u []
                = adj0.getD e2.1 [] ++ [e2.2] from by
              rw [hu1]
              exact Solver.getD_set_self _ _ _ _
                (by rw [hlen]; exact he1)] at hn
            rcases List.mem_append.mp hn with hn | hn
            · exact hmem _ _ hn
            · rw [List.mem_singleton.mp hn]
              exact he2
          · rw [Solver.getD_set_other _ _ _ (fun hc => hu1 hc.symm)] at hn
            exact hmem _ _ hn

theorem cOO_spec (forest : Forest) (o0 : FOrient)
    (hbe : ∀ e2 ∈ forest.edges, e2.1 < forest.V ∧ e2.2 < forest.V)
    (ho0 : o0 = emptyO forest.V) :
    OriWF forest.V (constructOptimalOrientation forest o0) ∧
    ∀ v, getOutdegree (constructOptimalOrientation forest o0) v ≤ 1 := by
  have hadj := buildAdj_spec forest.V forest.edges hbe
  have hGinit : G forest.V (List.replicate forest.V false, o0) := by
    subst ho0
    refine ⟨List.length_replicate _ _, OriWF_empty _, ?_, ?_⟩
    · intro p hp
      exact absurd hp (List.not_mem_nil p)
    · intro v
      rw [show getOutdegree
        ((List.replicate forest.V false, emptyO forest.V) :
          List Bool × FOrient).2 v = getOutdegree (emptyO forest.V) v
        from rfl, getOutdegree_empty]
      omega
  have hfold : ∀ (rs : List Nat), (∀ r ∈ rs, r < forest.V) →
      ∀ st, G forest.V st →
      G forest.V (rs.foldl (fun st root =>
        if st.1.getD root false then st
        else forestTraversal (buildAdj forest.V forest.edges) forest.V
          root st) st) := by
    intro rs
    induction rs with
    | nil => intro _ st h; exact h
    | cons r rs ih =>
        intro hrs st h
        rw [List.foldl_cons]
        refine ih (fun x hx => hrs x (List.mem_cons_of_mem _ hx)) _ ?_
        by_cases hvis : st.1.getD r false = true
        · rw [if_pos hvis]
          exact h
        · rw [if_neg hvis]
          have hvisF : st.1.getD r false = false := by
            cases hb : st.1.getD r false
            · rfl
            · exact absurd hb hvis
          have hcnt : st.1.count false ≤ forest.V := by
            rw [← h.1]
            exact List.count_le_length _ _
          exact (trav_spec (buildAdj forest.V forest.edges) forest.V hadj
            forest.V r st h (hrs r (List.mem_cons_self _ _)) hvisF hcnt).1
  have hfin := hfold (List.range forest.V)
    (fun r hr => List.mem_range.mp hr) _ hGinit
  exact ⟨hfin.2.1, hfin.2.2.2⟩

end Strat

namespace Strat

theorem log2_succ {L : Nat} (h : 2 ≤ L) :
    Nat.log2 L = Nat.log2 (L / 2) + 1 := by
  conv_lhs => rw [Nat.log2]
  rw [if_pos h]

theorem log2_mono {m n : Nat} (h : m ≤ n) : Nat.log2 m ≤ Nat.log2 n := by
  rw [Nat.log2_eq_log_two, Nat.log2_eq_log_two]
  exact Nat.log_mono_right h

theorem countFlipsBetween_eq_zero {o1 o2 : FOrient} :
    countFlipsBetween o1 o2 = 0 ↔
      ∀ q ∈ o1.directions, (q.2, q.1) ∉ o2.directions := by
  rw [countFlipsBetween, List.countP_eq_zero]
  constructor
  · intro h q hq hrev
    have := h q hq
    simp only [isOrientedB, decide_eq_true_eq] at this
    exact this hrev
  · intro h q hq
    simp only [isOrientedB, decide_eq_true_eq]
    exact h q hq

/-- Effect of the whole combine step of `constructOrientations` on a
window `[s, e]` whose halves are already well-formed, degree-bounded and
flip-free; `D` is the halves' degree bound. -/
theorem combine_spec (graphs : List Forest) (V s e mid D : Nat)
    (ors ors2 : List FOrient)
    (hsm : s ≤ mid) (hme : mid ≤ e) (hlen : e < ors.length)
    (hL2 : ors2.length = ors.length)
    (hwf2 : ∀ t, s ≤ t → t ≤ e → t ≠ mid → OriWF V (oAt ors2 t))
    (hdeg2 : ∀ t, s ≤ t → t ≤ e → t ≠ mid → ∀ v,
      getOutdegree (oAt ors2 t) v ≤ D)
    (hnf2 : ∀ t, s ≤ t → t < e → t + 1 ≠ mid → t ≠ mid →
      ∀ q ∈ (oAt ors2 t).directions,
        (q.2, q.1) ∉ (oAt ors2 (t + 1)).directions)
    (hmid_empty : ors2.getD mid (emptyO V) = emptyO V)
    (hgV : (graphs.getD mid ⟨V, []⟩).V = V)
    (hgB : ∀ e2 ∈ (graphs.getD mid ⟨V, []⟩).edges, e2.1 < V ∧ e2.2 < V) :
    ((getAllEdges ((ors2.set mid (constructOptimalOrientation
        (graphs.getD mid ⟨V, []⟩) (ors2.getD mid (emptyO V)))).getD mid
        (emptyO V))).foldl (alignEdge s e)
      (ors2.set mid (constructOptimalOrientation (graphs.getD mid ⟨V, []⟩)
        (ors2.getD mid (emptyO V))))).length = ors.length ∧
    (∀ t, t < s ∨ e < t →
      oAt ((getAllEdges ((ors2.set mid (constructOptimalOrientation
          (graphs.getD mid ⟨V, []⟩) (ors2.getD mid (emptyO V)))).getD mid
          (emptyO V))).foldl (alignEdge s e)
        (ors2.set mid (constructOptimalOrientation (graphs.getD mid ⟨V, []⟩)
          (ors2.getD mid (emptyO V))))) t = oAt ors2 t) ∧
    (∀ t, s ≤ t → t ≤ e →
      OriWF V (oAt ((getAllEdges ((ors2.set mid (constructOptimalOrientation
          (graphs.getD mid ⟨V, []⟩) (ors2.getD mid (emptyO V)))).getD mid
          (emptyO V))).foldl (alignEdge s e)
        (ors2.set mid (constructOptimalOrientation (graphs.getD mid ⟨V, []⟩)
          (ors2.getD mid (emptyO V))))) t)) ∧
    (∀ t, s ≤ t → t ≤ e → ∀ v,
      getOutdegree (oAt ((getAllEdges ((ors2.set mid
          (constructOptimalOrientation (graphs.getD mid ⟨V, []⟩)
            (ors2.getD mid (emptyO V)))).getD mid
          (emptyO V))).foldl (alignEdge s e)
        (ors2.set mid (constructOptimalOrientation (graphs.getD mid ⟨V, []⟩)
          (ors2.getD mid (emptyO V))))) t) v ≤ D + 1) ∧
    (∀ t, s ≤ t → t < e →
      ∀ q ∈ (oAt ((getAllEdges ((ors2.set mid (constructOptimalOrientation
          (graphs.getD mid ⟨V, []⟩) (ors2.getD mid (emptyO V)))).getD mid
          (emptyO V))).foldl (alignEdge s e)
        (ors2.set mid (constructOptimalOrientation (graphs.getD mid ⟨V, []⟩)
          (ors2.getD mid (emptyO V))))) t).directions,
        (q.2, q.1) ∉ (oAt ((getAllEdges ((ors2.set mid
            (constructOptimalOrientation (graphs.getD mid ⟨V, []⟩)
              (ors2.getD mid (emptyO V)))).getD mid
            (emptyO V))).foldl (alignEdge s e)
          (ors2.set mid (constructOptimalOrientation
            (graphs.getD mid ⟨V, []⟩)
            (ors2.getD mid (emptyO V))))) (t + 1)).directions) := by
  have hmlt : mid < ors2.length := by omega
  obtain ⟨hwfM0, hdegM0⟩ := cOO_spec (graphs.getD mid ⟨V, []⟩)
    (ors2.getD mid (emptyO V)) (by rw [hgV]; exact hgB)
    (by rw [hmid_empty, hgV])
  have hwfM : OriWF V (constructOptimalOrientation (graphs.getD mid ⟨V, []⟩)
      (ors2.getD mid (emptyO V))) := by
    have h := hwfM0
    rw [hgV] at h
    exact h
  have hE : getAllEdges ((ors2.set mid (constructOptimalOrientation
      (graphs.getD mid ⟨V, []⟩) (ors2.getD mid (emptyO V)))).getD mid
      (emptyO V)) = (constructOptimalOrientation (graphs.getD mid ⟨V, []⟩)
      (ors2.getD mid (emptyO V))).directions := by
    rw [getAllEdges, Solver.getD_set_self _ _ _ _ hmlt]
  rw [hE]
  have hEne : ∀ p ∈ (constructOptimalOrientation (graphs.getD mid ⟨V, []⟩)
      (ors2.getD mid (emptyO V))).directions, p.1 ≠ p.2 := by
    intro p hp hc
    refine no_self_loop hwfM (a := p.2) ?_
    have hp2 : (p.1, p.2) ∈ (constructOptimalOrientation
        (graphs.getD mid ⟨V, []⟩) (ors2.getD mid (emptyO V))).directions := by
      rw [Prod.mk.eta]
      exact hp
    rw [hc] at hp2
    exact hp2
  have hEanti := hwfM.2.2.2.1
  have hEcnt : ∀ v, (constructOptimalOrientation (graphs.getD mid ⟨V, []⟩)
      (ors2.getD mid (emptyO V))).directions.countP
        (fun p => decide (p.1 = v)) ≤ 1 := by
    intro v
    rw [← hwfM.2.2.2.2.2 v]
    exact hdegM0 v
  obtain ⟨hplen, hpat⟩ := pass_at s e (constructOptimalOrientation
    (graphs.getD mid ⟨V, []⟩) (ors2.getD mid (emptyO V))).directions
    (ors2.set mid (constructOptimalOrientation (graphs.getD mid ⟨V, []⟩)
      (ors2.getD mid (emptyO V))))
  have hat3 : ∀ t, t ≠ mid →
      oAt (ors2.set mid (constructOptimalOrientation
        (graphs.getD mid ⟨V, []⟩) (ors2.getD mid (emptyO V)))) t =
      oAt ors2 t := by
    intro t ht
    exact Solver.getD_set_other _ _ _ (fun hc => ht hc.symm)
  have hat3m : oAt (ors2.set mid (constructOptimalOrientation
      (graphs.getD mid ⟨V, []⟩) (ors2.getD mid (emptyO V)))) mid =
      constructOptimalOrientation (graphs.getD mid ⟨V, []⟩)
        (ors2.getD mid (emptyO V)) :=
    Solver.getD_set_self _ _ _ _ hmlt
  have hresmid : oAt ((constructOptimalOrientation (graphs.getD mid ⟨V, []⟩)
      (ors2.getD mid (emptyO V))).directions.foldl (alignEdge s e)
      (ors2.set mid (constructOptimalOrientation (graphs.getD mid ⟨V, []⟩)
        (ors2.getD mid (emptyO V))))) mid =
      constructOptimalOrientation (graphs.getD mid ⟨V, []⟩)
        (ors2.getD mid (emptyO V)) := by
    rw [hpat mid, if_pos ⟨hsm, hme⟩, hat3m, passStep_id]
    exact hEanti
  refine ⟨by rw [hplen, List.length_set, hL2], ?_, ?_, ?_, ?_⟩
  · intro t ht
    rw [hpat t, if_neg (by omega), hat3 t (by omega)]
  · intro t ht1 ht2
    by_cases htm : t = mid
    · rw [htm, hresmid]
      exact hwfM
    · rw [hpat t, if_pos ⟨ht1, ht2⟩, hat3 t htm]
      exact (passStep_spec _ _ (hwf2 t ht1 ht2 htm) hEne).1
  · intro t ht1 ht2 v
    by_cases htm : t = mid
    · rw [htm, hresmid]
      have := hdegM0 v
      omega
    · rw [hpat t, if_pos ⟨ht1, ht2⟩, hat3 t htm]
      refine le_trans ((passStep_spec _ _ (hwf2 t ht1 ht2 htm) hEne).2.2 v) ?_
      have h1 := hdeg2 t ht1 ht2 htm v
      have h2 := hEcnt v
      omega
  · intro t ht1 ht2 q hq hrev
    by_cases htm : t = mid
    · rw [htm, hresmid] at hq
      rw [hpat (t + 1), if_pos (by omega), hat3 (t + 1) (by omega)] at hrev
      exact passStep_no_reverse _ _ (hwf2 (t + 1) (by omega) (by omega)
        (by omega)) hEne hEanti q hq hrev
    · by_cases htm2 : t + 1 = mid
      · rw [htm2, hresmid] at hrev
        rw [hpat t, if_pos (by omega), hat3 t htm] at hq
        have := passStep_no_reverse _ _ (hwf2 t ht1 (by omega) htm) hEne
          hEanti (q.2, q.1) hrev
        have hqe : ((q.2, q.1).2, (q.2, q.1).1) = q := Prod.mk.eta
        rw [hqe] at this
        exact this hq
      · rw [hpat t, if_pos (by omega), hat3 t htm] at hq
        rw [hpat (t + 1), if_pos (by omega), hat3 (t + 1) htm2] at hrev
        exact passStep_agree _ _ _ (hwf2 t ht1 (by omega) htm)
          (hwf2 (t + 1) (by omega) (by omega) htm2) hEne
          (hnf2 t ht1 ht2 htm2 htm) q hq hrev

end Strat

namespace Strat

theorem constructOrientations_spec (graphs : List Forest) (V : Nat)
    (hg : ∀ t : Nat, (graphs.getD t ⟨V, []⟩).V = V ∧
      ∀ e2 ∈ (graphs.getD t ⟨V, []⟩).edges, e2.1 < V ∧ e2.2 < V) :
    ∀ (fuel s e : Nat) (ors : List FOrient),
      e - s < fuel → s ≤ e → e < ors.length →
      (∀ t, s ≤ t → t ≤ e → oAt ors t = emptyO V) →
      (constructOrientations graphs V fuel ors s e).length = ors.length ∧
      (∀ t, t < s ∨ e < t →
        oAt (constructOrientations graphs V fuel ors s e) t = oAt ors t) ∧
      (∀ t, s ≤ t → t ≤ e →
        OriWF V (oAt (constructOrientations graphs V fuel ors s e) t)) ∧
      (∀ t, s ≤ t → t ≤ e → ∀ v,
        getOutdegree (oAt (constructOrientations graphs V fuel ors s e) t) v
          ≤ Nat.log2 (e - s + 1) + 1) ∧
      (∀ t, s ≤ t → t < e →
        ∀ q ∈ (oAt (constructOrientations graphs V fuel ors s e)
            t).directions,
          (q.2, q.1) ∉ (oAt (constructOrientations graphs V fuel ors s e)
            (t + 1)).directions) := by
  intro fuel
  induction fuel with
  | zero =>
      intro s e ors hf
      exact absurd hf (by omega)
  | succ fuel ih =>
      intro s e ors hf hse hlen hEm
      by_cases hc : s = e
      · subst hc
        have hres : constructOrientations graphs V (fuel + 1) ors s s =
            ors.set s (constructOptimalOrientation (graphs.getD s ⟨V, []⟩)
              (ors.getD s (emptyO V))) := by
          rw [constructOrientations, if_pos rfl]
        have hget : ors.getD s (emptyO V) = emptyO V := by
          have h1 := hEm s (le_refl s) (le_refl s)
          rw [oAt, List.getD_eq_getElem _ _ hlen] at h1
          rw [List.getD_eq_getElem _ _ hlen]
          exact h1
        obtain ⟨hwfS, hdegS⟩ := cOO_spec (graphs.getD s ⟨V, []⟩)
          (ors.getD s (emptyO V))
          (by rw [(hg s).1]; exact (hg s).2)
          (by rw [hget, (hg s).1])
        rw [(hg s).1] at hwfS
        have hone : s - s + 1 = 1 := by omega
        refine ⟨by rw [hres, List.length_set], ?_, ?_, ?_, ?_⟩
        · intro t ht
          rw [hres, oAt, oAt]
          exact Solver.getD_set_other _ _ _ (by omega)
        · intro t ht1 ht2
          have hts : t = s := by omega
          rw [hts, hres, oAt, Solver.getD_set_self _ _ _ _ hlen]
          exact hwfS
        · intro t ht1 ht2 v
          have hts : t = s := by omega
          rw [hts, hres, oAt, Solver.getD_set_self _ _ _ _ hlen, hone]
          have h2 : Nat.log2 1 = 0 := by
            rw [Nat.log2, if_neg (by omega)]
          rw [h2]
          have := hdegS v
          omega
        · intro t ht1 ht2
          exact absurd ht2 (by omega)
      · have hse2 : s < e := lt_of_le_of_ne hse hc
        have hres : constructOrientations graphs V (fuel + 1) ors s e =
            (getAllEdges (((if s + (e - s + 1) / 2 + 1 ≤ e then
                constructOrientations graphs V fuel
                  (constructOrientations graphs V fuel ors s
                    (s + (e - s + 1) / 2 - 1)) (s + (e - s + 1) / 2 + 1) e
              else constructOrientations graphs V fuel ors s
                (s + (e - s + 1) / 2 - 1)).set (s + (e - s + 1) / 2)
              (constructOptimalOrientation
                (graphs.getD (s + (e - s + 1) / 2) ⟨V, []⟩)
                ((if s + (e - s + 1) / 2 + 1 ≤ e then
                    constructOrientations graphs V fuel
                      (constructOrientations graphs V fuel ors s
                        (s + (e - s + 1) / 2 - 1))
                      (s + (e - s + 1) / 2 + 1) e
                  else constructOrientations graphs V fuel ors s
                    (s + (e - s + 1) / 2 - 1)).getD (s + (e - s + 1) / 2)
                  (emptyO V)))).getD (s + (e - s + 1) / 2)
              (emptyO V))).foldl (alignEdge s e)
              ((if s + (e - s + 1) / 2 + 1 ≤ e then
                  constructOrientations graphs V fuel
                    (constructOrientations graphs V fuel ors s
                      (s + (e - s + 1) / 2 - 1)) (s + (e - s + 1) / 2 + 1) e
                else constructOrientations graphs V fuel ors s
                  (s + (e - s + 1) / 2 - 1)).set (s + (e - s + 1) / 2)
                (constructOptimalOrientation
                  (graphs.getD (s + (e - s + 1) / 2) ⟨V, []⟩)
                  ((if s + (e - s + 1) / 2 + 1 ≤ e then
                      constructOrientations graphs V fuel
                        (constructOrientations graphs V fuel ors s
                          (s + (e - s + 1) / 2 - 1))
                        (s + (e - s + 1) / 2 + 1) e
                    else constructOrientations graphs V fuel ors s
                      (s + (e - s + 1) / 2 - 1)).getD
                    (s + (e - s + 1) / 2) (emptyO V)))) := by
          rw [constructOrientations, if_neg hc]
        have hmid1 : s + 1 ≤ s + (e - s + 1) / 2 := by omega
        have hmid2 : s + (e - s + 1) / 2 ≤ e := by omega
        obtain ⟨hl1, hl2, hl3, hl4, hl5⟩ := ih s (s + (e - s + 1) / 2 - 1)
          ors (by omega) (by omega) (by omega)
          (fun t h1 h2 => hEm t h1 (by omega))
        have hlarg : (s + (e - s + 1) / 2 - 1) - s + 1 = (e - s + 1) / 2 := by
          omega
        have hlog : Nat.log2 (e - s + 1) = Nat.log2 ((e - s + 1) / 2) + 1 :=
          log2_succ (by omega)
        by_cases hr : s + (e - s + 1) / 2 + 1 ≤ e
        · rw [if_pos hr] at hres
          obtain ⟨hr1, hr2, hr3, hr4, hr5⟩ := ih (s + (e - s + 1) / 2 + 1) e
            (constructOrientations graphs V fuel ors s
              (s + (e - s + 1) / 2 - 1))
            (by omega) (by omega) (by rw [hl1]; omega)
            (fun t h1 h2 => by
              rw [hl2 t (by omega)]
              exact hEm t (by omega) h2)
          obtain ⟨hc1, hc2, hc3, hc4, hc5⟩ := combine_spec graphs V s e
            (s + (e - s + 1) / 2) (Nat.log2 ((e - s + 1) / 2) + 1) ors
            (constructOrientations graphs V fuel
              (constructOrientations graphs V fuel ors s
                (s + (e - s + 1) / 2 - 1)) (s + (e - s + 1) / 2 + 1) e)
            (by omega) hmid2 hlen (by rw [hr1, hl1])
            (by
              intro t h1 h2 h3
              by_cases htl : t ≤ s + (e - s + 1) / 2 - 1
              · rw [hr2 t (by omega)]
                exact hl3 t h1 htl
              · exact hr3 t (by omega) h2)
            (by
              intro t h1 h2 h3 v
              by_cases htl : t ≤ s + (e - s + 1) / 2 - 1
              · rw [hr2 t (by omega)]
                have := hl4 t h1 htl v
                rw [hlarg] at this
                exact this
              · refine le_trans (hr4 t (by omega) h2 v) ?_
                have hmono := log2_mono
                  (show e - (s + (e - s + 1) / 2 + 1) + 1 ≤
                    (e - s + 1) / 2 by omega)
                omega)
            (by
              intro t h1 h2 h3 h4 q hq hrev
              by_cases htl : t + 1 ≤ s + (e - s + 1) / 2 - 1
              · rw [hr2 t (by omega)] at hq
                rw [hr2 (t + 1) (by omega)] at hrev
                exact hl5 t h1 (by omega) q hq hrev
              · have htr : s + (e - s + 1) / 2 + 1 ≤ t := by omega
                exact hr5 t htr h2 q hq hrev)
            (by
              have hml : s + (e - s + 1) / 2 <
                  (constructOrientations graphs V fuel
                    (constructOrientations graphs V fuel ors s
                      (s + (e - s + 1) / 2 - 1))
                    (s + (e - s + 1) / 2 + 1) e).length := by
                rw [hr1, hl1]
                omega
              rw [List.getD_eq_getElem _ _ hml]
              have h1 := hr2 (s + (e - s + 1) / 2) (by omega)
              rw [hl2 (s + (e - s + 1) / 2) (by omega)] at h1
              rw [hEm (s + (e - s + 1) / 2) (by omega) (by omega)] at h1
              rw [oAt, List.getD_eq_getElem _ _ hml] at h1
              exact h1)
            (hg (s + (e - s + 1) / 2)).1 (hg (s + (e - s + 1) / 2)).2
          refine ⟨by rw [hres]; exact hc1, ?_, ?_, ?_, ?_⟩
          · intro t ht
            rw [hres, hc2 t ht, hr2 t (by omega), hl2 t (by omega)]
          · intro t h1 h2
            rw [hres]
            exact hc3 t h1 h2
          · intro t h1 h2 v
            rw [hres]
            have := hc4 t h1 h2 v
            omega
          · intro t h1 h2
            rw [hres]
            exact hc5 t h1 h2
        · rw [if_neg hr] at hres
          have heq : e = s + (e - s + 1) / 2 := by omega
          obtain ⟨hc1, hc2, hc3, hc4, hc5⟩ := combine_spec graphs V s e
            (s + (e - s + 1) / 2) (Nat.log2 ((e - s + 1) / 2) + 1) ors
            (constructOrientations graphs V fuel ors s
              (s + (e - s + 1) / 2 - 1))
            (by omega) hmid2 hlen hl1
            (by
              intro t h1 h2 h3
              exact hl3 t h1 (by omega))
            (by
              intro t h1 h2 h3 v
              have := hl4 t h1 (by omega) v
              rw [hlarg] at this
              exact this)
            (by
              intro t h1 h2 h3 h4 q hq hrev
              exact absurd h2 (by omega))
            (by
              have hml : s + (e - s + 1) / 2 <
                  (constructOrientations graphs V fuel ors s
                    (s + (e - s + 1) / 2 - 1)).length := by
                rw [hl1]
                omega
              rw [List.getD_eq_getElem _ _ hml]
              have h1 := hl2 (s + (e - s + 1) / 2) (by omega)
              rw [hEm (s + (e - s + 1) / 2) (by omega) (by omega)] at h1
              rw [oAt, List.getD_eq_getElem _ _ hml] at h1
              exact h1)
            (hg (s + (e - s + 1) / 2)).1 (hg (s + (e - s + 1) / 2)).2
          refine ⟨by rw [hres]; exact hc1, ?_, ?_, ?_, ?_⟩
          · intro t ht
            rw [hres, hc2 t ht, hl2 t (by omega)]
          · intro t h1 h2
            rw [hres]
            exact hc3 t h1 h2
          · intro t h1 h2 v
            rw [hres]
            have := hc4 t h1 h2 v
            omega
          · intro t h1 h2
            rw [hres]
            exact hc5 t h1 h2

end Strat

namespace Strat

theorem insertEdge_pres {V : Nat} {f : Forest} (hV : f.V = V)
    (hb : ∀ e2 ∈ f.edges, e2.1 < V ∧ e2.2 < V) {va vb : Nat}
    (hva : va < V) (hvb : vb < V) :
    (f.insertEdge va vb).V = V ∧
    ∀ e2 ∈ (f.insertEdge va vb).edges, e2.1 < V ∧ e2.2 < V := by
  rw [Forest.insertEdge]
  split_ifs with h1 h2
  · exact ⟨hV, hb⟩
  · exact ⟨hV, hb⟩
  · refine ⟨hV, ?_⟩
    intro e2 he2
    rcases mem_sortedInsertP _ _ _ he2 with he2 | he2
    · rw [he2]
      constructor
      · show min va vb < V
        omega
      · show max va vb < V
        omega
    · exact hb e2 he2

theorem deleteEdge_pres {V : Nat} {f : Forest} (hV : f.V = V)
    (hb : ∀ e2 ∈ f.edges, e2.1 < V ∧ e2.2 < V) (va vb : Nat) :
    (f.deleteEdge va vb).V = V ∧
    ∀ e2 ∈ (f.deleteEdge va vb).edges, e2.1 < V ∧ e2.2 < V := by
  rw [Forest.deleteEdge]
  split_ifs with h1
  · exact ⟨hV, fun e2 he2 => hb e2 (List.mem_of_mem_erase he2)⟩
  · exact ⟨hV, hb⟩

theorem buildGH_spec (V : Nat) : ∀ (seq : List Command) (prev : Forest),
    prev.V = V → (∀ e2 ∈ prev.edges, e2.1 < V ∧ e2.2 < V) →
    (∀ c ∈ seq, c.nodes.1 < V ∧ c.nodes.2 < V) →
    ∀ g ∈ buildGraphsHistory V seq prev, g.V = V ∧
      ∀ e2 ∈ g.edges, e2.1 < V ∧ e2.2 < V := by
  intro seq
  induction seq with
  | nil => intro prev _ _ _ g hg; exact absurd hg (List.not_mem_nil g)
  | cons c cs ih =>
      intro prev hV hb hcmd g hg
      have hcV := hcmd c (List.mem_cons_self _ _)
      have hcur : (if c.operation = OperationType.INSERT
          then prev.insertEdge c.nodes.1 c.nodes.2
          else prev.deleteEdge c.nodes.1 c.nodes.2).V = V ∧
          ∀ e2 ∈ (if c.operation = OperationType.INSERT
            then prev.insertEdge c.nodes.1 c.nodes.2
            else prev.deleteEdge c.nodes.1 c.nodes.2).edges,
            e2.1 < V ∧ e2.2 < V := by
        split_ifs with hop
        · exact insertEdge_pres hV hb hcV.1 hcV.2
        · exact deleteEdge_pres hV hb _ _
      rcases List.mem_cons.mp hg with hg2 | hg2
      · rw [hg2]
        exact hcur
      · exact ih _ hcur.1 hcur.2
          (fun c2 hc2 => hcmd c2 (List.mem_cons_of_mem _ hc2)) g hg2

theorem countTotalFlips_eq_zero : ∀ (ors : List FOrient),
    (∀ t, t + 1 < ors.length →
      ∀ q ∈ (oAt ors t).directions, (q.2, q.1) ∉ (oAt ors (t + 1)).directions) →
    countTotalFlips ors = 0
  | [], _ => rfl
  | [_], _ => rfl
  | o1 :: o2 :: rest, h => by
      rw [countTotalFlips]
      have h0 : countFlipsBetween o1 o2 = 0 := by
        refine countFlipsBetween_eq_zero.mpr ?_
        have := h 0 (by
          rw [List.length_cons, List.length_cons]
          omega)
        exact this
      rw [h0, countTotalFlips_eq_zero (o2 :: rest) (fun t ht => by
        have := h (t + 1) (by
          simp only [List.length_cons] at ht ⊢
          omega)
        exact this)]

theorem foldr_max_le : ∀ (l : List Nat) (B : Nat),
    (∀ i, l.getD i 0 ≤ B) → l.foldr max 0 ≤ B := by
  intro l
  induction l with
  | nil => intro B _; exact Nat.zero_le B
  | cons x l ih =>
      intro B h
      rw [List.foldr_cons]
      have hx : x ≤ B := h 0
      have hl := ih B (fun i => h (i + 1))
      omega

theorem getMaxOutdegree_le {o : FOrient} {B : Nat}
    (h : ∀ v, getOutdegree o v ≤ B) : getMaxOutdegree o ≤ B :=
  foldr_max_le o.outdegs B h

theorem getMaxOutdegreeAll_le (B : Nat) : ∀ (ors : List FOrient) (a : Nat),
    a ≤ B → (∀ o ∈ ors, getMaxOutdegree o ≤ B) →
    ors.foldl (fun m o => max m (getMaxOutdegree o)) a ≤ B := by
  intro ors
  induction ors with
  | nil => intro a ha _; exact ha
  | cons o ors ih =>
      intro a ha h
      rw [List.foldl_cons]
      refine ih _ ?_ (fun r hr => h r (List.mem_cons_of_mem _ hr))
      have := h o (List.mem_cons_self _ _)
      omega

end Strat

/-- C5: for every valid operation instance with unit arboricity and at
least one command, the Kowalik strategy's constructed per-snapshot
orientation sequence incurs zero flips between consecutive snapshots, and
the value returned by `orientByKowalikStrategy` (the largest outdegree
over the whole sequence) is at most `⌊log₂ L⌋ + 1` for `L` commands. -/
theorem kowalik_strategy_spec (opi : OrientationProblemInstance)
    (halpha : opi.alpha = 1) (hL : 1 ≤ opi.sequence.length)
    (hnodes : ∀ c ∈ opi.sequence, c.nodes.1 < opi.V ∧ c.nodes.2 < opi.V) :
    Strat.countTotalFlips (Strat.kowalikOrientations opi) = 0 ∧
    Strat.orientByKowalikStrategy opi ≤
      Nat.log2 opi.sequence.length + 1 := by
  have hGH := Strat.buildGH_spec opi.V opi.sequence ⟨opi.V, []⟩ rfl
    (fun e2 he2 => absurd he2 (List.not_mem_nil e2)) hnodes
  have hg : ∀ t : Nat,
      ((Strat.buildGraphsHistory opi.V opi.sequence ⟨opi.V, []⟩).getD t
        ⟨opi.V, []⟩).V = opi.V ∧
      ∀ e2 ∈ ((Strat.buildGraphsHistory opi.V opi.sequence
        ⟨opi.V, []⟩).getD t ⟨opi.V, []⟩).edges,
        e2.1 < opi.V ∧ e2.2 < opi.V := by
    intro t
    by_cases ht : t < (Strat.buildGraphsHistory opi.V opi.sequence
      ⟨opi.V, []⟩).length
    · rw [List.getD_eq_getElem _ _ ht]
      exact hGH _ (List.getElem_mem ht)
    · rw [List.getD_eq_default _ _ (by omega)]
      exact ⟨rfl, fun e2 he2 => absurd he2 (List.not_mem_nil e2)⟩
  obtain ⟨hs1, hs2, hs3, hs4, hs5⟩ := Strat.constructOrientations_spec
    (Strat.buildGraphsHistory opi.V opi.sequence ⟨opi.V, []⟩) opi.V hg
    opi.sequence.length 0 (opi.sequence.length - 1)
    (List.replicate opi.sequence.length (Strat.emptyO opi.V))
    (by omega) (by omega) (by rw [List.length_replicate]; omega)
    (by
      intro t _ h2
      rw [Strat.oAt, List.getD_eq_getElem _ _ (by
        rw [List.length_replicate]
        omega), List.getElem_replicate])
  have hlenK : (Strat.kowalikOrientations opi).length =
      opi.sequence.length := by
    rw [show Strat.kowalikOrientations opi = Strat.constructOrientations
      (Strat.buildGraphsHistory opi.V opi.sequence ⟨opi.V, []⟩) opi.V
      opi.sequence.length
      (List.replicate opi.sequence.length (Strat.emptyO opi.V))
      0 (opi.sequence.length - 1) from rfl, hs1, List.length_replicate]
  have harg : opi.sequence.length - 1 - 0 + 1 = opi.sequence.length := by
    omega
  constructor
  · refine Strat.countTotalFlips_eq_zero _ ?_
    intro t ht
    rw [hlenK] at ht
    exact hs5 t (Nat.zero_le t) (by omega)
  · rw [show Strat.orientByKowalikStrategy opi =
      (Strat.kowalikOrientations opi).foldl
        (fun m o => max m (Strat.getMaxOutdegree o)) 0 from rfl]
    refine Strat.getMaxOutdegreeAll_le _ _ 0 (Nat.zero_le _) ?_
    intro o ho
    obtain ⟨t, ht, hto⟩ := List.mem_iff_getElem.mp ho
    have hoat : Strat.oAt (Strat.kowalikOrientations opi) t = o := by
      rw [Strat.oAt, List.getD_eq_getElem _ _ ht]
      exact hto
    rw [← hoat]
    refine Strat.getMaxOutdegree_le ?_
    intro v
    have := hs4 t (Nat.zero_le t) (by
      rw [hlenK] at ht
      omega) v
    rw [harg] at this
    exact this

/-- C5 witness: a one-command instance on two vertices satisfies all the
hypotheses and the constructed sequence incurs zero flips. -/
theorem kowalik_strategy_spec_witness :
    (opiScenario2.alpha = 1 ∧ 1 ≤ opiScenario2.sequence.length ∧
      ∀ c ∈ opiScenario2.sequence,
        c.nodes.1 < opiScenario2.V ∧ c.nodes.2 < opiScenario2.V) ∧
    Strat.countTotalFlips (Strat.kowalikOrientations opiScenario2) = 0 :=
  ⟨⟨by decide, by decide, by decide⟩,
    (kowalik_strategy_spec opiScenario2 (by decide) (by decide)
      (by decide)).1⟩
